import Mathlib

/-! Bulk-loader shard pipeline: shallow embedding and verified properties

The definitions below transcribe functions of `dgraph/cmd/shard` and
`dgraph/cmd/bulk` into pure Lean functions.  Go maps are association lists,
Go `int`/`int64` values are integers with explicit two's-complement wrapping,
and a Go run-time panic is the `none` result of an `Option`.
-/

namespace Shard

/-! ## Machine integers -/

/-- Two's-complement wrapping of an integer into the range of a Go `int64`
(and of `int` on 64-bit platforms). -/
def wrapInt64 (x : Int) : Int := (x + 2 ^ 63) % 2 ^ 64 - 2 ^ 63

/-- Range predicate of a Go `int64`. -/
def isInt64 (x : Int) : Prop := -(2 ^ 63) ≤ x ∧ x < 2 ^ 63

instance (x : Int) : Decidable (isInt64 x) := by
  unfold isInt64; exact inferInstance

/-! ## shard_map.go -/

/-- The `shardMap` struct (its lock has no sequential content). -/
structure shardMap where
  numShards : Int
  predToShard : List (String × Int)
  nextShard : Int
deriving Repr, DecidableEq

/-- Transcription of `newShardMap`. -/
def newShardMap (numShards : Int) : shardMap :=
  { numShards := numShards, predToShard := [], nextShard := 0 }

/-- Transcription of `shardMap.has`. -/
def shardMap.has (m : shardMap) (pred : String) : Bool :=
  (m.predToShard.lookup pred).isSome

/-- Transcription of `shardMap.shardFor`: the returned index and the map after
the call.  `none` is the integer-divide-by-zero panic of
`(m.nextShard + 1) % m.numShards` when `numShards` is zero. -/
def shardMap.shardFor (m : shardMap) (pred : String) : Option (Int × shardMap) :=
  match m.predToShard.lookup pred with
  | some shard => some (shard, m)
  | none =>
    match m.predToShard.lookup pred with
    | some shard => some (shard, m)
    | none =>
      let shard := m.nextShard
      let predToShard := (pred, shard) :: m.predToShard
      if m.numShards = 0 then none
      else
        some (shard,
          { m with
            predToShard := predToShard
            nextShard := Int.tmod (wrapInt64 (m.nextShard + 1)) m.numShards })

/-- A sequence of `shardFor` calls issued one after the other on a map.  The
result pairs each requested predicate with the index returned for it; the run
ends at the first call that panics. -/
def runShardFor (m : shardMap) : List String → List (String × Int)
  | [] => []
  | p :: ps =>
    match m.shardFor p with
    | none => []
    | some (i, m') => (p, i) :: runShardFor m' ps

/-- The distinct predicates of a call sequence in the order in which they are
first requested, continuing from the predicates `seen` so far. -/
def firstSeenFrom (seen : List String) : List String → List String
  | [] => seen
  | p :: ps =>
    if p ∈ seen then firstSeenFrom seen ps else firstSeenFrom (seen ++ [p]) ps

/-- The distinct predicates of a call sequence, in order of first request. -/
def firstSeen (calls : List String) : List String := firstSeenFrom [] calls

/-- The state reached after the distinct predicates `seen` have been requested
of a fresh map with `M` shards. -/
def RoundRobinState (M : Int) (seen : List String) (m : shardMap) : Prop :=
  m.numShards = M ∧ m.nextShard = (seen.length : Int) % M ∧
    ∀ p, m.predToShard.lookup p =
      if p ∈ seen then some ((seen.indexOf p : Int) % M) else none

/-! ## merge_shards.go: schema weights -/

/-- Go's `strings.Contains(s, substr)`: `substr` occurs as a contiguous run
inside `s`. -/
def stringsContains (s substr : String) : Bool :=
  decide (substr.toList <:+: s.toList)

/-- Transcription of `getWeight`.  The result never exceeds 16, so the `int64`
additions cannot wrap. -/
def getWeight (schema : String) : Int :=
  let weight : Int := 1
  let weight := if stringsContains schema "hash" then weight + 1 else weight
  let weight := if stringsContains schema "exact" then weight + 2 else weight
  let weight := if stringsContains schema "term" then weight + 3 else weight
  let weight := if stringsContains schema "fulltext" then weight + 4 else weight
  let weight := if stringsContains schema "trigram" then weight + 5 else weight
  weight

/-- The index kinds of the specification with their contributions. -/
def indexKinds : List (String × Int) :=
  [("hash", 1), ("exact", 2), ("term", 3), ("fulltext", 4), ("trigram", 5)]

/-- The predicate part of a schema line: what `strings.Split(line, ":")[0]`
yields in `mergeMapShardsIntoReduceShards`, the characters before the first
colon. -/
def predicatePart (line : String) : List Char :=
  line.toList.takeWhile (fun c => c != ':')

/-- The schema declaration of a schema line `predicate: declaration`: the
characters after the first colon. -/
def declarationPart (line : String) : List Char :=
  (line.toList.dropWhile (fun c => c != ':')).drop 1

/-- The weight in the specification's words: 1 plus the contributions of the
index kinds present in the line's schema declaration. -/
def declaredWeight (line : String) : Int :=
  1 + ((indexKinds.filter (fun k => decide (k.1.toList <:+: declarationPart line))).map
    (fun k => k.2)).sum

/-- The weight as the code computes it: 1 plus the contributions of the index
kind names that occur anywhere in the line. -/
def occurringWeight (line : String) : Int :=
  1 + ((indexKinds.filter (fun k => stringsContains line k.1)).map (fun k => k.2)).sum

/-! ## mapper.go: shard buffers and spill files -/

/-- The `shardState` struct: the buffered entries of one map shard and their
accumulated byte size (a `uint64`). -/
structure shardState where
  entries : List String
  encodedSize : Nat
deriving Repr, DecidableEq

/-- Transcription of `mapper.addMapEntry` on the mapper's `shards` slice: the
line is appended to the buffer of shard `shard` and its byte length is added to
the shard's size counter.  `none` is the index-out-of-range panic. -/
def addMapEntry (shards : List shardState) (rdf : String) (shard : Nat) :
    Option (List shardState) :=
  match shards.get? shard with
  | none => none
  | some sh =>
    some (shards.set shard
      { entries := sh.entries ++ [rdf]
        encodedSize := (sh.encodedSize + rdf.utf8ByteSize) % 2 ^ 64 })

/-- Transcription of `mapper.writeMapEntriesToFile`: the sequence of strings
passed to `w.WriteString`, in order; the (uncompressed) content of the spill
file is their concatenation.  The loop ranges over `entries` as it receives
them. -/
def writeMapEntriesToFile (entries : List String) : List String :=
  entries.foldl (fun written me => written ++ [me]) []

/-- The final flush of `mapper.run` for one shard: a non-empty buffer is
written out, an empty one produces no file. -/
def flushShard (sh : shardState) : Option (List String) :=
  if sh.entries.length > 0 then some (writeMapEntriesToFile sh.entries) else none

/-- The bytes of a Go string (its UTF-8 encoding). -/
def goBytes (s : String) : List Nat :=
  (s.toList.flatMap String.utf8EncodeChar).map UInt8.toNat

/-- Raw byte order: Go's `<` on strings, lexicographic on the bytes. -/
def bytesLess : List Nat → List Nat → Bool
  | [], [] => false
  | [], _ :: _ => true
  | _ :: _, [] => false
  | a :: as, b :: bs => if a < b then true else if b < a then false else bytesLess as bs

/-- A sequence of entries is non-decreasing in raw byte order: no entry is
followed by a smaller one. -/
def nonDecreasing : List String → Bool
  | [] => true
  | [_] => true
  | a :: b :: rest => !bytesLess (goBytes b) (goBytes a) && nonDecreasing (b :: rest)

/-! ## merge_shards.go: shard costs -/

/-- The `sizedDir` struct. -/
structure sizedDir where
  dir : String
  sz : Int
deriving Repr, DecidableEq

/-- Transcription of `readSize`.  The on-disk size of a directory tree
(`treeSize`, a walk of the file system) is a parameter.  The slice is created
by `make([]sizedDir, len(dirs))`, that is with `len(dirs)` zero-valued
elements, and the loop appends to it. -/
def readSize (treeSize : String → Int) (dirs : List String) : List sizedDir :=
  let sizedDirs : List sizedDir := List.replicate dirs.length { dir := "", sz := 0 }
  dirs.foldl (fun acc dir => acc ++ [{ dir := dir, sz := treeSize dir }]) sizedDirs

/-! ## merge_shards.go: weighted costs -/

/-- Assignment `m[k] = v` on a Go map held as an association list: the value of
an existing key is replaced, a new key is added. -/
def mapSet (m : List (String × Int)) (k : String) (v : Int) : List (String × Int) :=
  match m with
  | [] => [(k, v)]
  | (k', v') :: rest => if k' == k then (k, v) :: rest else (k', v') :: mapSet rest k v

/-- The schema line of a predicate in `pred2Schema`; a missing key reads as the
empty string, the zero value of a Go map. -/
def schemaOf (pred2Schema : List (String × String)) (pred : String) : String :=
  (pred2Schema.lookup pred).getD ""

/-- One iteration of the first loop of `getWeightedDirs`, on the entry
`(pred, mapId)` of `predToShard`.  `dirOf mapId` stands for
`filepath.Join(ld.opt.TmpDir, mapShardDir, fmt.Sprintf("%03d", mapId))` and
`treeSize` for the on-disk size of a directory tree; the `int64` product and
sum wrap. -/
def weightedStep (dirOf : Int → String) (treeSize : String → Int)
    (pred2Schema : List (String × String)) (temp : List (String × Int))
    (entry : String × Int) : List (String × Int) :=
  let schema := schemaOf pred2Schema entry.1
  let dir := dirOf entry.2
  match temp.lookup dir with
  | some old => mapSet temp dir (wrapInt64 (old + wrapInt64 (treeSize dir * getWeight schema)))
  | none => mapSet temp dir (wrapInt64 (treeSize dir * getWeight schema))

/-- Transcription of `getWeightedDirs`.  `predToShard` lists the entries of the
shard map in the order in which the `range` loop visits them (Go leaves that
order unspecified, so every order of the entries is a possible input); the
second loop visits `temp` in the order of first insertion. -/
def getWeightedDirs (dirOf : Int → String) (treeSize : String → Int)
    (predToShard : List (String × Int)) (pred2Schema : List (String × String)) :
    List sizedDir :=
  let temp := predToShard.foldl (weightedStep dirOf treeSize pred2Schema) []
  temp.foldl (fun sizedDirs e => sizedDirs ++ [{ dir := e.1, sz := e.2 }]) []

/-- Whether some predicate of `entries` is routed to the map shard stored in
directory `d`. -/
def routedTo (dirOf : Int → String) (entries : List (String × Int)) (d : String) : Bool :=
  entries.any (fun x => dirOf x.2 == d)

/-- The sum of `getWeight` over the schema lines of the predicates of `entries`
routed to the map shard stored in directory `d`. -/
def weightSum (dirOf : Int → String) (pred2Schema : List (String × String))
    (entries : List (String × Int)) (d : String) : Int :=
  ((entries.filter (fun x => dirOf x.2 == d)).map
    (fun x => getWeight (schemaOf pred2Schema x.1))).sum

/-- The content of `temp` after the entries `visited` of the shard map have
been visited: one key per directory that received a predicate, holding the
wrapped product of the directory's size and the weights routed to it. -/
def WeightedTemp (dirOf : Int → String) (treeSize : String → Int)
    (pred2Schema : List (String × String)) (visited : List (String × Int))
    (temp : List (String × Int)) : Prop :=
  (temp.map Prod.fst).Nodup ∧
    ∀ d, temp.lookup d =
      if routedTo dirOf visited d then
        some (wrapInt64 (treeSize d * weightSum dirOf pred2Schema visited d))
      else none

/-! ## merge_shards.go: greedy placement -/

/-- Go's `sort.SliceStable` with `less(i, j) = s[i].sz > s[j].sz`: the stable
sort that puts the biggest `sz` first and keeps elements of equal `sz` in their
original order. -/
def sortBySzDesc (l : List sizedDir) : List sizedDir :=
  List.insertionSort (fun a b => b.sz ≤ a.sz) l

/-- The reduce shards created by the loop `for i := 0; i < ld.opt.ReduceShards;
i++`, each with accumulated size 0; `reduceDirOf i` stands for
`filepath.Join(ld.opt.TmpDir, reduceShardDir, fmt.Sprintf("shard_%d", i))`. -/
def initialReduceShards (R : Int) (reduceDirOf : Nat → String) : List sizedDir :=
  (List.range R.toNat).map (fun i => { dir := reduceDirOf i, sz := 0 })

/-- One iteration of the placement loop on the map shard `sd`: the reduce shards
are sorted biggest first and the last one receives the map shard.  `none` is the
index-out-of-range panic of `reduceShards[len(reduceShards)-1]` on an empty
slice. -/
def placeOne (reduceShards : List sizedDir) (sd : sizedDir) : Option (List sizedDir) :=
  let reduceShards := sortBySzDesc reduceShards
  match reduceShards.getLast? with
  | none => none
  | some last => some (reduceShards.dropLast ++ [{ last with sz := wrapInt64 (last.sz + sd.sz) }])

/-- A record of one iteration of the placement loop: the reduce shards before
the iteration, the map shard taken, and the reduce shards after it. -/
structure placement where
  before : List sizedDir
  mapShard : sizedDir
  after : List sizedDir
deriving Repr, DecidableEq

/-- The placement loop `for _, sizedDir := range shardDirs` with a record of
every iteration. -/
def placeAll : List sizedDir → List sizedDir → Option (List placement)
  | _, [] => some []
  | reduceShards, sd :: rest =>
    match placeOne reduceShards sd with
    | none => none
    | some reduceShards' =>
      match placeAll reduceShards' rest with
      | none => none
      | some trace => some ({ before := reduceShards, mapShard := sd, after := reduceShards' } :: trace)

/-- The planning part of `mergeMapShardsIntoReduceShards` from the cost list
`shardDirs` on: the exit on an empty list (`none`), the stable sort by cost and
the placement loop. -/
def placementPlan (R : Int) (reduceDirOf : Nat → String) (shardDirs : List sizedDir) :
    Option (List placement) :=
  if shardDirs.length = 0 then none
  else placeAll (initialReduceShards R reduceDirOf) (sortBySzDesc shardDirs)

/-- The iterations of a record follow one another: each starts from the reduce
shards the previous one left, the first from `start`. -/
def chained : List sizedDir → List placement → Prop
  | _, [] => True
  | start, p :: rest => p.before = start ∧ chained p.after rest

/-- What one iteration does to the reduce shards: one of them, `chosen`, of
minimal accumulated cost, has the map shard's cost added in `int64` (exactly
when the sum fits in `int64`); the others are untouched. -/
def GreedyStep (p : placement) : Prop :=
  ∃ others chosen, p.before.Perm (others ++ [chosen]) ∧
    (∀ r ∈ p.before, chosen.sz ≤ r.sz) ∧
    p.after = others ++ [{ chosen with sz := wrapInt64 (chosen.sz + p.mapShard.sz) }] ∧
    (isInt64 (chosen.sz + p.mapShard.sz) →
      p.after = others ++ [{ chosen with sz := chosen.sz + p.mapShard.sz }])

/-- The order `sortBySzDesc` sorts by is total. -/
instance szDescTotal : IsTotal sizedDir (fun a b => b.sz ≤ a.sz) :=
  ⟨fun a b => le_total b.sz a.sz⟩

/-- The order `sortBySzDesc` sorts by is transitive. -/
instance szDescTrans : IsTrans sizedDir (fun a b => b.sz ≤ a.sz) :=
  ⟨fun _ _ _ hab hbc => le_trans hbc hab⟩

/-! ## merge_shards.go: the reduce shards after the placement loop -/

/-- The sum of the costs of a list of shards. -/
def costSum (l : List sizedDir) : Int := (l.map (fun d => d.sz)).sum

/-- The largest cost of a list of shards, 0 for the empty list. -/
def maxCost (l : List sizedDir) : Int := l.foldr (fun d acc => max d.sz acc) 0

/-- The slice `reduceShards` when the placement loop has ended: what the last
iteration left, or the starting slice when there was no iteration. -/
def finalReduceShards (start : List sizedDir) : List placement → List sizedDir
  | [] => start
  | p :: rest => finalReduceShards p.after rest

/-- The accumulated costs of `rs` are non-negative and any two of them differ by
at most `C`. -/
def Balanced (C : Int) (rs : List sizedDir) : Prop :=
  (∀ r ∈ rs, 0 ≤ r.sz) ∧ ∀ a ∈ rs, ∀ b ∈ rs, a.sz - b.sz ≤ C

/-! ## reduce.go: map entries and the posting-list builder -/

/-- The content of a Go byte slice; `none` is the `nil` slice, which has no
bytes. -/
def bytesOf (b : Option (List Nat)) : List Nat := b.getD []

/-- Go's `bytes.Equal`: equality of content, a `nil` slice equals an empty one. -/
def bytesEqual (a b : Option (List Nat)) : Bool := decide (bytesOf a = bytesOf b)

/-- The fields of `pb.Posting` the reducer reads: the uid, and the rest of the
record as an uninterpreted payload. -/
structure Posting where
  Uid : Nat
  Value : List Nat
deriving Repr, DecidableEq

/-- The `pb.MapEntry` record: key bytes (possibly `nil`), uid, optional
posting. -/
structure MapEntry where
  Key : Option (List Nat)
  Uid : Nat
  Posting : Option Posting
deriving Repr, DecidableEq

/-- Modelled from the spec: the function `less` of the `bulk` package, whose
source is not part of the files at hand.  The specification gives it as
lexicographic over `key`, then ascending `uid`. -/
def less (a b : MapEntry) : Bool :=
  if bytesLess (bytesOf a.Key) (bytesOf b.Key) then true
  else if bytesLess (bytesOf b.Key) (bytesOf a.Key) then false
  else decide (a.Uid < b.Uid)

/-- The id `toList` takes from an entry: the posting's uid when the entry
carries a posting, the entry's uid otherwise. -/
def entryId (e : MapEntry) : Nat :=
  match e.Posting with
  | some p => p.Uid
  | none => e.Uid

/-- The order of `less` with the entry's id in place of its uid. -/
def lessById (a b : MapEntry) : Bool :=
  if bytesLess (bytesOf a.Key) (bytesOf b.Key) then true
  else if bytesLess (bytesOf b.Key) (bytesOf a.Key) then false
  else decide (entryId a < entryId b)

/-- A stream is non-decreasing under an order `lt`: no entry is followed by a
smaller one. -/
def nonDecreasingBy (lt : MapEntry → MapEntry → Bool) : List MapEntry → Bool
  | [] => true
  | [_] => true
  | a :: b :: rest => !lt b a && nonDecreasingBy lt (b :: rest)

/-- The `kvBuilder` struct; `postings` is the `Postings` field of `pl`. -/
structure kvBuilder where
  currentKey : Option (List Nat)
  uids : List Nat
  postings : List Posting
  finish : Bool
deriving Repr, DecidableEq

/-- What `appendToList` hands to the encoder for one key: the key, the id list
given to `codec.Encode` and the postings of `pl`. -/
structure PostingGroup where
  key : Option (List Nat)
  uids : List Nat
  postings : List Posting
deriving Repr, DecidableEq

/-- The state `toList` works on: the builder, the groups encoded so far (in the
order in which their KVs are appended to `list.Kv`) and the two progress
counters. -/
structure toListState where
  kvb : kvBuilder
  emitted : List PostingGroup
  reduceEdgeCount : Int
  reduceKeyCount : Int
deriving Repr, DecidableEq

/-- Transcription of the closure `appendToList` of `toList`.  The counter is
incremented first; with no uid the closure returns; otherwise the group is
encoded and the builder's uids and posting list are reset.  Parsing the key,
the schema upgrade and the encoding itself are outside the model. -/
def appendToList (st : toListState) : toListState :=
  let st := { st with reduceKeyCount := st.reduceKeyCount + 1 }
  if st.kvb.uids.length = 0 then st
  else
    { st with
      emitted := st.emitted ++
        [{ key := st.kvb.currentKey, uids := st.kvb.uids, postings := st.kvb.postings }]
      kvb := { st.kvb with uids := [], postings := [] } }

/-- The body of the loop `for _, mapEntry := range mapEntries` of `toList`. -/
def toListEntry (st : toListState) (mapEntry : MapEntry) : toListState :=
  let st := { st with reduceEdgeCount := st.reduceEdgeCount + 1 }
  let st :=
    if !bytesEqual mapEntry.Key st.kvb.currentKey && st.kvb.currentKey.isSome then
      appendToList st
    else st
  let st := { st with kvb := { st.kvb with currentKey := mapEntry.Key } }
  let uid := match mapEntry.Posting with
    | some p => p.Uid
    | none => mapEntry.Uid
  if st.kvb.uids.length > 0 && st.kvb.uids.getLast? == some uid then st
  else
    let st := { st with kvb := { st.kvb with uids := st.kvb.uids ++ [uid] } }
    match mapEntry.Posting with
    | some p => { st with kvb := { st.kvb with postings := st.kvb.postings ++ [p] } }
    | none => st

/-- Transcription of `reducer.toList` on the builder state. -/
def toList (st : toListState) (mapEntries : List MapEntry) : toListState :=
  let st := mapEntries.foldl toListEntry st
  if st.kvb.finish then appendToList st else st

/-- The builder `encodeAndWrite` starts with, and zeroed counters. -/
def initialToListState : toListState :=
  { kvb := { currentKey := none, uids := [], postings := [], finish := false }
    emitted := []
    reduceEdgeCount := 0
    reduceKeyCount := 0 }

/-- The calls of `toList` made by `reducer.encodeAndWrite`: one per batch
received on `entryCh`, then one with `finish` set and no entries. -/
def encodeAndWrite (batches : List (List MapEntry)) : toListState :=
  let st := batches.foldl toList initialToListState
  let st := { st with kvb := { st.kvb with finish := true } }
  toList st []

/-- The state of the builder after the entries `done` of a stream that is
non-decreasing by key and id: the current uids are the ids of the entries of
the current key, strictly increasing; every earlier key has been emitted as one
group holding that key's ids, strictly increasing; the emitted keys increase
strictly and lie below the current key. -/
def BuilderInv (done : List MapEntry) (st : toListState) : Prop :=
  st.kvb.uids.Pairwise (fun a b => a < b) ∧
    (∀ u, u ∈ st.kvb.uids ↔ ∃ e ∈ done, e.Key = st.kvb.currentKey ∧ entryId e = u) ∧
    ((done = [] ∧ st.kvb.currentKey = none) ∨ ∃ e ∈ done, e.Key = st.kvb.currentKey) ∧
    (∀ e ∈ done, bytesLess (bytesOf st.kvb.currentKey) (bytesOf e.Key) = false) ∧
    (∀ g ∈ st.emitted,
      g.uids.Pairwise (fun a b => a < b) ∧
        (∀ u, u ∈ g.uids ↔ ∃ e ∈ done, e.Key = g.key ∧ entryId e = u) ∧
        bytesLess (bytesOf g.key) (bytesOf st.kvb.currentKey) = true) ∧
    (st.emitted.map (fun g => g.key)).Pairwise
      (fun a b => bytesLess (bytesOf a) (bytesOf b) = true) ∧
    (∀ e ∈ done, e.Key = st.kvb.currentKey ∨ e.Key ∈ st.emitted.map (fun g => g.key))

/-! ## container/heap on a slice, and the posting heap of reduce.go -/

/-- A call `h.Less(i, j)` of a heap whose elements are compared with `lt`;
`none` is the index-out-of-range panic. -/
def heapLess {α : Type} (lt : α → α → Bool) (nodes : List α) (i j : Nat) : Option Bool :=
  match nodes[i]?, nodes[j]? with
  | some a, some b => some (lt a b)
  | _, _ => none

/-- A call `h.Swap(i, j)`; `none` is the index-out-of-range panic. -/
def heapSwap {α : Type} (nodes : List α) (i j : Nat) : Option (List α) :=
  match nodes[i]?, nodes[j]? with
  | some a, some b => some ((nodes.set i b).set j a)
  | _, _ => none

/-- The loop of `heap.up(h, j)`, one iteration per unit of fuel; `none` when the
fuel runs out or a call panics.  The parent of `j` is `(j - 1) / 2`, which for
`j = 0` is `0` in Go (division truncates) as in the naturals. -/
def heapUpLoop {α : Type} (lt : α → α → Bool) : Nat → List α → Nat → Option (List α)
  | 0, _, _ => none
  | fuel + 1, nodes, j =>
    let i := (j - 1) / 2
    if i = j then some nodes
    else
      match heapLess lt nodes j i with
      | none => none
      | some false => some nodes
      | some true =>
        match heapSwap nodes i j with
        | none => none
        | some nodes' => heapUpLoop lt fuel nodes' i

/-- The function `heap.up(h, j)`: the index at least halves in every iteration
but the last, so `j + 1` iterations are enough. -/
def heapUp {α : Type} (lt : α → α → Bool) (nodes : List α) (j : Nat) : Option (List α) :=
  heapUpLoop lt (j + 1) nodes j

/-- The loop of `heap.down(h, i0, n)`, one iteration per unit of fuel; the
result is the slice and the final index `i`.  The source also leaves the loop
when `j1 < 0`, after an overflow of `2*i + 1`, which no index of a slice can
cause. -/
def heapDownLoop {α : Type} (lt : α → α → Bool) :
    Nat → List α → Nat → Nat → Option (List α × Nat)
  | 0, _, _, _ => none
  | fuel + 1, nodes, i, n =>
    let j1 := 2 * i + 1
    if j1 ≥ n then some (nodes, i)
    else
      let j2 := j1 + 1
      let pickRight : Option Bool := if j2 < n then heapLess lt nodes j2 j1 else some false
      match pickRight with
      | none => none
      | some right =>
        let j := if right then j2 else j1
        match heapLess lt nodes j i with
        | none => none
        | some false => some (nodes, i)
        | some true =>
          match heapSwap nodes i j with
          | none => none
          | some nodes' => heapDownLoop lt fuel nodes' j n

/-- The function `heap.down(h, i0, n)`: the slice after the loop and the
returned flag `i > i0`.  The index grows in every iteration but the last, so
`n + 1` iterations are enough. -/
def heapDown {α : Type} (lt : α → α → Bool) (nodes : List α) (i0 n : Nat) :
    Option (List α × Bool) :=
  match heapDownLoop lt (n + 1) nodes i0 n with
  | none => none
  | some (nodes', i) => some (nodes', decide (i > i0))

/-- The function `heap.Push(h, x)`: `h.Push(x)` appends, then `up(h, h.Len()-1)`. -/
def heapPush {α : Type} (lt : α → α → Bool) (nodes : List α) (x : α) : Option (List α) :=
  heapUp lt (nodes ++ [x]) ((nodes ++ [x]).length - 1)

/-- The function `heap.Pop(h)`: `n := h.Len() - 1; h.Swap(0, n); down(h, 0, n)`
and `h.Pop()`, which cuts the last element off and returns it.  The result is
the slice left and the element returned. -/
def heapPop {α : Type} (lt : α → α → Bool) (nodes : List α) : Option (List α × α) :=
  let n := nodes.length - 1
  match heapSwap nodes 0 n with
  | none => none
  | some swapped =>
    match heapDown lt swapped 0 n with
    | none => none
    | some (nodes', _) =>
      match nodes'.getLast? with
      | none => none
      | some elem => some (nodes'.dropLast, elem)

/-- The function `heap.Fix(h, i)`: `if !down(h, i, h.Len()) { up(h, i) }`. -/
def heapFix {α : Type} (lt : α → α → Bool) (nodes : List α) (i : Nat) : Option (List α) :=
  match heapDown lt nodes i nodes.length with
  | none => none
  | some (nodes', moved) => if !moved then heapUp lt nodes' i else some nodes'

/-- The `heapNode` struct.  The iterator is held as the entries it has yet to
return: `Next` returns the first of them, or `nil` when there is none. -/
structure heapNode where
  mapEntry : MapEntry
  itr : List MapEntry
deriving Repr, DecidableEq

/-- The method `postingHeap.Less` on two nodes, for an entry order `lt` (the
function `less` in the source). -/
def nodeLess (lt : MapEntry → MapEntry → Bool) (a b : heapNode) : Bool :=
  lt a.mapEntry b.mapEntry

/-- The constant `batchSize` of `reduce`. -/
def batchSize : Nat := 10000

/-- What `reduce` does, in the order in which it does it: a call
`ci.addUid(key, count)`, or an entry appended to the current batch. -/
inductive reduceEvent where
  | addUid (key : Option (List Nat)) (count : Nat)
  | added (me : MapEntry)
deriving Repr, DecidableEq

/-- The variables of `reducer.reduce`: the heap, the current batch, the batches
sent on `entryCh`, the last key with the number of entries seen for it, the
calls `ci.addUid(key, count)` made so far, and the record of calls and batch
appends in program order. -/
structure reduceState where
  nodes : List heapNode
  batch : List MapEntry
  sent : List (List MapEntry)
  prevKey : Option (List Nat)
  plistLen : Nat
  addUidCalls : List (Option (List Nat) × Nat)
  events : List reduceEvent
deriving Repr, DecidableEq

/-- The first loop of `reduce`: the first entry of every iterator is pushed on
the heap; an iterator without entries is skipped. -/
def reduceSeed (lt : MapEntry → MapEntry → Bool) :
    List heapNode → List (List MapEntry) → Option (List heapNode)
  | nodes, [] => some nodes
  | nodes, [] :: itrs => reduceSeed lt nodes itrs
  | nodes, (me :: rest) :: itrs =>
    match heapPush (nodeLess lt) nodes { mapEntry := me, itr := rest } with
    | none => none
    | some nodes' => reduceSeed lt nodes' itrs

/-- The second half of the loop body of `reduce`, after the heap has been put
in order again (`nodes'`) for the entry `me` taken from its root: the count of
the previous key is published on a change of key, a full batch is sent, and the
entry is added to the batch. -/
def reduceEmit (st : reduceState) (me : MapEntry) (nodes' : List heapNode) : reduceState :=
  let keyChanged := !bytesEqual st.prevKey me.Key
  let flushCount := keyChanged && decide (st.plistLen > 0)
  let addUidCalls :=
    if flushCount then st.addUidCalls ++ [(st.prevKey, st.plistLen)] else st.addUidCalls
  let events :=
    if flushCount then st.events ++ [reduceEvent.addUid st.prevKey st.plistLen] else st.events
  let plistLen := if flushCount then 0 else st.plistLen
  let full := decide (st.batch.length ≥ batchSize)
  let sent := if full then st.sent ++ [st.batch] else st.sent
  let batch := if full then [] else st.batch
  { nodes := nodes'
    batch := batch ++ [me]
    sent := sent
    prevKey := me.Key
    plistLen := plistLen + 1
    addUidCalls := addUidCalls
    events := events ++ [reduceEvent.added me] }

/-- The body of the loop `for len(ph.nodes) > 0` of `reduce`.  When the root's
iterator is exhausted the source sets the root's entry to `nil` and calls
`heap.Pop`, which moves the root to the last position, never compares it, and
cuts it off; here the root keeps its entry until it is cut off. -/
def reduceStep (lt : MapEntry → MapEntry → Bool) (st : reduceState) : Option reduceState :=
  match st.nodes with
  | [] => none
  | node0 :: _ =>
    let me := node0.mapEntry
    let fixed : Option (List heapNode) :=
      match node0.itr with
      | next :: rest =>
        heapFix (nodeLess lt) (st.nodes.set 0 { mapEntry := next, itr := rest }) 0
      | [] => (heapPop (nodeLess lt) st.nodes).map (fun r => r.1)
    match fixed with
    | none => none
    | some nodes' => some (reduceEmit st me nodes')

/-- The loop `for len(ph.nodes) > 0`, one iteration per unit of fuel; `none` when
the fuel runs out before the heap is empty or an iteration panics. -/
def reduceLoop (lt : MapEntry → MapEntry → Bool) : Nat → reduceState → Option reduceState
  | 0, st => if st.nodes.length > 0 then none else some st
  | fuel + 1, st =>
    if st.nodes.length > 0 then
      match reduceStep lt st with
      | none => none
      | some st' => reduceLoop lt fuel st'
    else some st

/-- Transcription of `reducer.reduce` for iterators given by the sequences they
yield: the batches sent on `entryCh`, in order, and the calls of `ci.addUid`.
Every iteration of the loop takes one entry, so as many iterations as there are
entries empty the heap. -/
def reduce (lt : MapEntry → MapEntry → Bool) (mapItrs : List (List MapEntry)) :
    Option (List (List MapEntry) × List (Option (List Nat) × Nat)) :=
  match reduceSeed lt [] mapItrs with
  | none => none
  | some nodes =>
    match reduceLoop lt mapItrs.flatten.length
        { nodes := nodes, batch := [], sent := [], prevKey := none, plistLen := 0,
          addUidCalls := [], events := [] } with
    | none => none
    | some st =>
      let sent := if st.batch.length > 0 then st.sent ++ [st.batch] else st.sent
      let addUidCalls :=
        if st.plistLen > 0 then st.addUidCalls ++ [(st.prevKey, st.plistLen)]
        else st.addUidCalls
      some (sent, addUidCalls)

/-- What the heap needs of its order: `lt` is asymmetric and "not below" is
transitive (a strict weak order). -/
def StrictWeak {α : Type} (lt : α → α → Bool) : Prop :=
  (∀ a b, lt a b = true → lt b a = false) ∧
    ∀ a b c, lt b a = false → lt c b = false → lt c a = false

/-- The heap ordering on the first `n` elements: no element is below its parent
`(k - 1) / 2`. -/
def HeapOn {α : Type} (lt : α → α → Bool) (l : List α) (n : Nat) : Prop :=
  ∀ k a b, 0 < k → k < n → l[k]? = some a → l[(k - 1) / 2]? = some b → lt a b = false

/-- The heap ordering on the first `n` elements with the element at `i`
possibly above its place: every element whose parent is not `i` is not below its
parent, and the children of `i` are not below the parent of `i`. -/
def DownPre {α : Type} (lt : α → α → Bool) (l : List α) (n i : Nat) : Prop :=
  (∀ k a b, 0 < k → k < n → (k - 1) / 2 ≠ i → l[k]? = some a → l[(k - 1) / 2]? = some b →
      lt a b = false) ∧
    ∀ c a b, 0 < i → 0 < c → c < n → (c - 1) / 2 = i → l[c]? = some a →
      l[(i - 1) / 2]? = some b → lt a b = false

/-- The heap ordering with the element at `j` possibly below its place: every
element other than `j` is not below its parent, and the children of `j` are not
below the parent of `j`. -/
def UpPre {α : Type} (lt : α → α → Bool) (l : List α) (j : Nat) : Prop :=
  (∀ k a b, 0 < k → k ≠ j → l[k]? = some a → l[(k - 1) / 2]? = some b → lt a b = false) ∧
    ∀ c a b, 0 < j → 0 < c → (c - 1) / 2 = j → l[c]? = some a →
      l[(j - 1) / 2]? = some b → lt a b = false

/-- The entries a heap node still stands for: its current entry and what its
iterator has yet to return. -/
def nodeEntries (nd : heapNode) : List MapEntry := nd.mapEntry :: nd.itr

/-- The entries not yet taken from the heap. -/
def pending (nodes : List heapNode) : List MapEntry := nodes.flatMap nodeEntries

/-- The entries `reduce` has put in batches so far, in order. -/
def reduceState.output (st : reduceState) : List MapEntry := st.sent.flatten ++ st.batch

/-- The loop invariant of `reduce` for iterators that are non-decreasing under
`lt`: the nodes are heap ordered; every node's entries are non-decreasing; the
output is non-decreasing and no pending entry is below an output entry; output
and pending entries together are the entries `all` of the iterators. -/
def ReduceInv (lt : MapEntry → MapEntry → Bool) (all : List MapEntry) (st : reduceState) :
    Prop :=
  HeapOn (nodeLess lt) st.nodes st.nodes.length ∧
    (∀ nd ∈ st.nodes, (nodeEntries nd).Pairwise (fun a b => lt b a = false)) ∧
    st.output.Pairwise (fun a b => lt b a = false) ∧
    (∀ x ∈ st.output, ∀ nd ∈ st.nodes, lt nd.mapEntry x = false) ∧
    (st.output ++ pending st.nodes).Perm all

/-- The record of `reducer.reduce` in program order: the events of the loop and
the call `ci.addUid(prevKey, plistLen)` after it when `plistLen > 0`. -/
def reduceTrace (lt : MapEntry → MapEntry → Bool) (mapItrs : List (List MapEntry)) :
    Option (List reduceEvent) :=
  match reduceSeed lt [] mapItrs with
  | none => none
  | some nodes =>
    match reduceLoop lt mapItrs.flatten.length
        { nodes := nodes, batch := [], sent := [], prevKey := none, plistLen := 0,
          addUidCalls := [], events := [] } with
    | none => none
    | some st =>
      some
        (if st.plistLen > 0 then st.events ++ [reduceEvent.addUid st.prevKey st.plistLen]
         else st.events)

/-- The key `reduce` reports for a run of entries: the key of its last entry. -/
def runKey (r : List MapEntry) : Option (List Nat) :=
  match r.getLast? with
  | some e => e.Key
  | none => none

/-- A list of runs is the cut of a stream into its maximal runs of consecutive
entries with equal key: no run is empty, the keys within a run have the same
bytes, and neighbouring runs have different keys. -/
def IsKeyRuns (runs : List (List MapEntry)) : Prop :=
  (∀ r ∈ runs, r ≠ [] ∧ ∀ a ∈ r, bytesOf a.Key = bytesOf (runKey r)) ∧
    runs.Chain' (fun r s => bytesOf (runKey r) ≠ bytesOf (runKey s))

/-- The events of one run: its entries are added to a batch, then its count is
published. -/
def runEvents (r : List MapEntry) : List reduceEvent :=
  r.map reduceEvent.added ++ [reduceEvent.addUid (runKey r) r.length]

/-- The loop invariant of `reduce` for the count index: the output so far is
made of completed runs, whose counts have been published in order, each after
its entries and before the next run, and of the current run, whose length is
`plistLen` and whose key is `prevKey`. -/
def TraceInv (st : reduceState) : Prop :=
  ∃ (runs : List (List MapEntry)) (cur : List MapEntry),
    IsKeyRuns runs ∧
      st.output = runs.flatten ++ cur ∧
      st.plistLen = cur.length ∧
      (cur = [] → runs = [] ∧ st.prevKey = none) ∧
      (cur ≠ [] → st.prevKey = runKey cur ∧ (∀ a ∈ cur, bytesOf a.Key = bytesOf (runKey cur)) ∧
        ∀ r ∈ runs.getLast?, bytesOf (runKey r) ≠ bytesOf (runKey cur)) ∧
      st.addUidCalls = runs.map (fun r => (runKey r, r.length)) ∧
      st.events = runs.flatMap runEvents ++ cur.map reduceEvent.added

/-! ## reduce.go: the KVs of a posting group and the progress counters -/

/-- The fields of `bpb.KV` that `toList` sets. -/
structure KV where
  Key : List Nat
  Value : List Nat
  UserMeta : List Nat
  Version : Nat
deriving Repr, DecidableEq

/-- The parts of the `codec` and `posting` packages `appendToList` calls, as
functions of the key, the uids, the postings and the write timestamp: whether
the encoded list is to be split, the KVs of `posting.NewList(..).Rollup()`, the
bytes of `pl.Marshal()`, and the constant `posting.BitCompletePosting`. -/
structure postingCodec where
  shouldSplit : List Nat → List Posting → Bool
  rollup : Option (List Nat) → List Nat → List Posting → Nat → List KV
  marshal : List Nat → List Posting → List Nat
  bitCompletePosting : Nat

/-- The KVs `appendToList` appends to `list.Kv` for one group. -/
def groupKVs (codec : postingCodec) (writeTs : Nat) (g : PostingGroup) : List KV :=
  if codec.shouldSplit g.uids g.postings then codec.rollup g.key g.uids g.postings writeTs
  else
    [{ Key := bytesOf g.key
       Value := codec.marshal g.uids g.postings
       UserMeta := [codec.bitCompletePosting]
       Version := writeTs }]

/-- The KVs produced by a run of `toList` calls, in the order in which they are
appended to `list.Kv`. -/
def producedKVs (codec : postingCodec) (writeTs : Nat) (st : toListState) : List KV :=
  st.emitted.flatMap (groupKVs codec writeTs)

/-- The number of distinct keys (as byte strings held in key slices) of a
stream. -/
def distinctKeys (stream : List MapEntry) : Nat :=
  (stream.map (fun e => e.Key)).dedup.length

/-- The key order alone: the first key is below the second in raw byte
order. -/
def keyLess (a b : MapEntry) : Bool := bytesLess (bytesOf a.Key) (bytesOf b.Key)

/-- The state of the builder after the entries `done` of a stream with non-nil
keys that is non-decreasing by key: every call of `appendToList` so far has
emitted one group; every earlier key has one group and the keys of the groups
increase strictly, below the current key. -/
def KeyCountInv (done : List MapEntry) (st : toListState) : Prop :=
  st.reduceKeyCount = st.emitted.length ∧
    ((done = [] ∧ st.kvb.currentKey = none ∧ st.kvb.uids = []) ∨
      (st.kvb.uids ≠ [] ∧ ∃ e ∈ done, e.Key = st.kvb.currentKey)) ∧
    (∀ e ∈ done, bytesLess (bytesOf st.kvb.currentKey) (bytesOf e.Key) = false) ∧
    (∀ g ∈ st.emitted,
      bytesLess (bytesOf g.key) (bytesOf st.kvb.currentKey) = true ∧
        ∃ e ∈ done, e.Key = g.key) ∧
    (st.emitted.map (fun g => g.key)).Pairwise
      (fun a b => bytesLess (bytesOf a) (bytesOf b) = true) ∧
    (∀ e ∈ done, e.Key = st.kvb.currentKey ∨ e.Key ∈ st.emitted.map (fun g => g.key))

/-! ## reduce.go: stream ids -/

/-- The fields of `reducer` that `streamIdFor` uses: the `uint32` counter and the
map from predicate to stream id. -/
structure reducer where
  streamId : Nat
  streamIds : List (String × Nat)
deriving Repr, DecidableEq

/-- Transcription of `reducer.streamIdFor`: the id returned and the reducer
after the call.  `atomic.AddUint32` wraps at 2^32. -/
def reducer.streamIdFor (r : reducer) (pred : String) : Nat × reducer :=
  match r.streamIds.lookup pred with
  | some id => (id, r)
  | none =>
    match r.streamIds.lookup pred with
    | some id => (id, r)
    | none =>
      let streamId := (r.streamId + 1) % 2 ^ 32
      (streamId, { streamId := streamId, streamIds := (pred, streamId) :: r.streamIds })

/-- A sequence of `streamIdFor` calls on one reducer, each predicate paired with
the id returned for it. -/
def runStreamIdFor (r : reducer) : List String → List (String × Nat)
  | [] => []
  | p :: ps => (p, (r.streamIdFor p).1) :: runStreamIdFor (r.streamIdFor p).2 ps

/-- A reducer whose counter stands at `streamId0` and that has registered no
predicate yet. -/
def freshReducer (streamId0 : Nat) : reducer := { streamId := streamId0, streamIds := [] }

/-- The state reached from `freshReducer streamId0` after the distinct
predicates `seen` have been requested. -/
def StreamIdState (streamId0 : Nat) (seen : List String) (r : reducer) : Prop :=
  r.streamId = (streamId0 + seen.length) % 2 ^ 32 ∧
    ∀ p, r.streamIds.lookup p =
      if p ∈ seen then some ((streamId0 + seen.indexOf p + 1) % 2 ^ 32) else none

/-! ## chunk.go: input format -/

/-- The `InputFormat` constants. -/
inductive InputFormat where
  | UnknownFormat
  | RdfFormat
  | JsonFormat
deriving Repr, DecidableEq

/-- Go's `strings.ToLower`, on the letters `A` to `Z`. -/
def stringsToLower (s : String) : String := String.mk (s.toList.map Char.toLower)

/-- Go's `strings.HasSuffix`. -/
def stringsHasSuffix (s suffix : String) : Bool := suffix.toList.isSuffixOf s.toList

/-- Go's `strings.TrimSuffix`. -/
def stringsTrimSuffix (s suffix : String) : String :=
  if stringsHasSuffix s suffix then
    String.mk (s.toList.take (s.toList.length - suffix.toList.length))
  else s

/-- Transcription of `DataFormat`. -/
def DataFormat (filename : String) (format : String) : InputFormat :=
  let format := stringsToLower format
  let filename := stringsTrimSuffix (stringsToLower filename) ".gz"
  if stringsHasSuffix filename ".rdf" || format == "rdf" then InputFormat.RdfFormat
  else if stringsHasSuffix filename ".json" || format == "json" then InputFormat.JsonFormat
  else InputFormat.UnknownFormat

/-! ## mapper.go: processNQuad -/

/-- What `processNQuad` returns: `nil`, the soft error `ErrEmpty`, or the error
made by `errors.Errorf` for a line that does not parse. -/
inductive processResult where
  | ok
  | errEmpty
  | errParse
deriving Repr, DecidableEq

/-- The state `processNQuad` works on: the shard map of `state` and the shard
buffers of the mapper. -/
structure mapperState where
  shardMap : shardMap
  shards : List shardState
deriving Repr, DecidableEq

/-- Go's `strings.Split(s, " ")` on the characters of `s`: the pieces between
the spaces, one more than there are spaces. -/
def splitSpace : List Char → List (List Char)
  | [] => [[]]
  | c :: rest =>
    if c = ' ' then [] :: splitSpace rest
    else
      match splitSpace rest with
      | [] => [[c]]
      | p :: ps => (c :: p) :: ps

/-- The two calls `shard := m.state.shards.shardFor(pred)` and
`m.addMapEntry(rdf, shard)`; `none` is a panic of either. -/
def routeEntry (m : mapperState) (pred : String) (rdf : String) : Option mapperState :=
  match m.shardMap.shardFor pred with
  | none => none
  | some (shard, shardMap') =>
    if shard < 0 then none
    else
      match addMapEntry m.shards rdf shard.toNat with
      | none => none
      | some shards' => some { shardMap := shardMap', shards := shards' }

/-- The string `fmt.Sprintf("<0x%s>", strconv.FormatUint(id, 16))`. -/
def hexId (id : Nat) : String := "<0x" ++ String.mk (Nat.toDigits 16 id) ++ ">"

/-- The test `len(temp[2]) > 2 && temp[2][0:2] == "_:"` on the object token. -/
def internsObject (tok : List Char) : Bool :=
  decide ((String.mk tok).utf8ByteSize > 2) && (tok.take 2 == ['_', ':'])

/-- The token loop of `processNQuad` in reassign-ids mode.  The first argument is
the part of the line not yet read (`line[end:]`), `cur` is `line[start:end]`, and
`uid` stands for `m.uid`, the id the interning map gives a label.  The result is
the unread part, `line[start:end]`, `count` and `temp` when the loop ends. -/
def scanTokens (uid : String → Nat) :
    List Char → List Char → Bool → Nat → List String →
      List Char × List Char × Nat × List String
  | [], cur, _, count, temp => ([], cur, count, temp)
  | d :: rest, cur, inString, count, temp =>
    if count ≥ 3 then (d :: rest, cur, count, temp)
    else if d = ' ' ∨ d = '\t' then
      if !inString then
        let temp := temp.set count (String.mk cur)
        let temp :=
          if count = 0 then temp.set 0 (hexId (uid (String.mk cur)))
          else if count = 2 then
            if internsObject cur then temp.set 2 (hexId (uid (String.mk cur))) else temp
          else temp
        scanTokens uid rest [] inString (count + 1) temp
      else scanTokens uid rest (cur ++ [d]) inString count temp
    else if d = '"' then scanTokens uid rest (cur ++ [d]) (!inString) count temp
    else scanTokens uid rest (cur ++ [d]) inString count temp

/-- Transcription of `mapper.processNQuad`; `newUids` is `m.opt.NewUids`.  The
result is the state after the call and the value returned; `none` is a run-time
panic. -/
def processNQuad (newUids : Bool) (uid : String → Nat) (m : mapperState) (line : String) :
    Option (mapperState × processResult) :=
  if !newUids then
    match (splitSpace line.toList)[1]? with
    | none => none
    | some pred =>
      match routeEntry m (String.mk pred) line with
      | none => none
      | some m' => some (m', processResult.ok)
  else if line.utf8ByteSize = 0 then some (m, processResult.errEmpty)
  else
    match scanTokens uid line.toList [] false 0 ["", "", "", ""] with
    | (rest, cur, count, temp) =>
      if count = 3 then
        let pred := temp.getD 1 ""
        let temp := if rest ≠ [] then temp.set 3 (String.mk (cur ++ rest)) else temp
        match routeEntry m pred (" ".intercalate temp) with
        | none => none
        | some m' => some (m', processResult.ok)
      else some (m, processResult.errParse)

/-- Reading the characters of `t` from quote state `inString` meets no space or
tab outside a quoted string and ends outside a quoted string. -/
def closedTokenFrom : List Char → Bool → Bool
  | [], inString => !inString
  | c :: cs, inString =>
    if c = ' ' ∨ c = '\t' then inString && closedTokenFrom cs inString
    else if c = '"' then closedTokenFrom cs (!inString)
    else closedTokenFrom cs inString

/-- A token of a line: characters up to the next space or tab outside a quoted
string. -/
def isToken (t : List Char) : Bool := closedTokenFrom t false

/-! ## rdf_parser.go: ParseRDF -/

/-- The `NQuad` struct. -/
structure NQuad where
  Subject : String
  Predicate : String
  ObjectId : String
  ObjectValue : String
deriving Repr, DecidableEq

/-- What `ParseRDF` returns: an N-Quad with a `nil` error, `ErrEmpty`, or the
error made by `errors.Errorf`. -/
inductive parseResult where
  | nquad (nq : NQuad)
  | errEmpty
  | errParse
deriving Repr, DecidableEq

/-- The test `len(temp[2]) >= 2 && temp[2][0:2] == "_:"` of `ParseRDF` on the
object token. -/
def isObjectId (tok : String) : Bool :=
  decide (tok.utf8ByteSize ≥ 2) && (tok.toList.take 2 == ['_', ':'])

/-- The token loop of `ParseRDF`, with the arguments and the result of
`scanTokens`; the tokens are stored as they are read. -/
def parseTokens :
    List Char → List Char → Bool → Nat → List String →
      List Char × List Char × Nat × List String
  | [], cur, _, count, temp => ([], cur, count, temp)
  | d :: rest, cur, inString, count, temp =>
    if count ≥ 3 then (d :: rest, cur, count, temp)
    else if d = ' ' ∨ d = '\t' then
      if !inString then parseTokens rest [] inString (count + 1) (temp.set count (String.mk cur))
      else parseTokens rest (cur ++ [d]) inString count temp
    else if d = '"' then parseTokens rest (cur ++ [d]) (!inString) count temp
    else parseTokens rest (cur ++ [d]) inString count temp

/-- Transcription of `ParseRDF`; `newUids` is `m.opt.NewUids`.  `none` is the
index-out-of-range panic of `temp[1]` or `temp[2]` in the first block. -/
def ParseRDF (newUids : Bool) (line : String) : Option parseResult :=
  let nq : NQuad := { Subject := "", Predicate := "", ObjectId := "", ObjectValue := "" }
  let first : Option NQuad :=
    if !newUids then
      match splitSpace line.toList with
      | s :: p :: o :: _ =>
        some { nq with Subject := String.mk s, Predicate := String.mk p,
                       ObjectValue := String.mk o }
      | _ => none
    else some nq
  match first with
  | none => none
  | some nq =>
    if line.utf8ByteSize = 0 then some parseResult.errEmpty
    else
      match parseTokens line.toList [] false 0 ["", "", ""] with
      | (_, _, count, temp) =>
        if count = 3 then
          let nq := { nq with Subject := temp.getD 0 "", Predicate := temp.getD 1 "" }
          if isObjectId (temp.getD 2 "") then
            some (parseResult.nquad { nq with ObjectId := temp.getD 2 "" })
          else some (parseResult.nquad { nq with ObjectValue := temp.getD 2 "" })
        else some parseResult.errParse

/-! ## reduce.go: the map iterator -/

/-- The constant `binary.MaxVarintLen64`. -/
def maxVarintLen64 : Nat := 10

/-- The loop of Go's `binary.Uvarint` from index `i` with accumulator `x` and
shift `s`: the decoded value and the number of bytes read, or `(0, -(i + 1))` on
overflow and `(0, 0)` when the buffer ends inside the number. -/
def uvarintLoop : List Nat → Nat → Nat → Nat → Nat × Int
  | [], _, _, _ => (0, 0)
  | b :: buf, i, x, s =>
    if i = maxVarintLen64 then (0, -((i : Int) + 1))
    else if b < 0x80 then
      if i = maxVarintLen64 - 1 ∧ b > 1 then (0, -((i : Int) + 1))
      else ((x ||| (b <<< s)) % 2 ^ 64, (i : Int) + 1)
    else uvarintLoop buf (i + 1) ((x ||| ((b &&& 0x7f) <<< s)) % 2 ^ 64) (s + 7)

/-- Go's `binary.Uvarint`. -/
def uvarint (buf : List Nat) : Nat × Int := uvarintLoop buf 0 0 0

/-- What a call of `mapIterator.Next` does: it returns `nil`, it ends the process
(`log.Fatalf` or `x.Check`), or it returns the entry decoded from `payload` and
leaves `rest` unread. -/
inductive nextResult where
  | nil
  | fatal
  | entry (payload : List Nat) (rest : List Nat)
deriving Repr, DecidableEq

/-- Transcription of `mapIterator.Next` on the bytes the reader has yet to
deliver.  `r.Peek(10)` reports `io.EOF` when fewer than 10 bytes are left;
`io.ReadFull` fails when fewer than `sz` bytes are left.  The entry is held as
the payload bytes handed to `proto.Unmarshal`. -/
def mapIteratorNext (stream : List Nat) : nextResult :=
  if stream.length < maxVarintLen64 then nextResult.nil
  else
    let buf := stream.take maxVarintLen64
    let (sz, n) := uvarint buf
    if n ≤ 0 then nextResult.fatal
    else
      let rest := stream.drop n.toNat
      if rest.length < sz then nextResult.fatal
      else nextResult.entry (rest.take sz) (rest.drop sz)

/-- The records an iterator yields: `Next` is called until it returns `nil`;
`none` when the process is ended or the fuel runs out. -/
def mapIteratorAll : Nat → List Nat → Option (List (List Nat))
  | 0, _ => none
  | fuel + 1, stream =>
    match mapIteratorNext stream with
    | nextResult.nil => some []
    | nextResult.fatal => none
    | nextResult.entry payload rest =>
      match mapIteratorAll fuel rest with
      | none => none
      | some records => some (payload :: records)

/-- The unsigned varint of the spill wire format (Go's `binary.PutUvarint`):
seven bits per byte, low bits first, the top bit set on all bytes but the last.
Ten bytes hold any `uint64`. -/
def putUvarintLoop : Nat → Nat → List Nat
  | 0, x => [x % 128]
  | fuel + 1, x => if x ≥ 0x80 then (x % 128 + 128) :: putUvarintLoop fuel (x / 128) else [x]

/-- The spill wire format as the specification describes it: for each record the
varint of its length, then its bytes. -/
def encodeRecords (records : List (List Nat)) : List Nat :=
  records.flatMap (fun payload => putUvarintLoop 9 payload.length ++ payload)

/-! ## chunk.go: the RDF chunker

A `bufio.Reader` over a finite input is held as the bytes it has yet to deliver;
`B` is the size of its buffer.  The underlying reader fails with nothing but
`io.EOF`, and writes to a `bytes.Buffer` do not fail. -/

/-- The error value a read returns: `nil`, `io.EOF` or `bufio.ErrBufferFull`. -/
inductive readErr where
  | ok
  | EOF
  | ErrBufferFull
deriving Repr, DecidableEq

/-- The bytes up to and including the first `'\n'` (byte 10) and the bytes after
it; `none` when there is no `'\n'`. -/
def cutLine : List Nat → Option (List Nat × List Nat)
  | [] => none
  | b :: bs =>
    if b = 10 then some ([b], bs)
    else
      match cutLine bs with
      | none => none
      | some (l, r) => some (b :: l, r)

/-- Go's `bufio.Reader.ReadSlice('\n')`: the line up to the first `'\n'` when it
lies within the buffer; else the full buffer with `ErrBufferFull` when at least
`B` bytes are left; else all that is left with `io.EOF`.  The result is the
slice, the bytes left unread, and the error. -/
def ReadSlice (B : Nat) (r : List Nat) : List Nat × List Nat × readErr :=
  match cutLine (r.take B) with
  | some (line, _) => (line, r.drop line.length, readErr.ok)
  | none =>
    if B ≤ r.length then (r.take B, r.drop B, readErr.ErrBufferFull)
    else (r, [], readErr.EOF)

/-- Go's `bufio.Reader.ReadString('\n')`: the bytes up to and including the first
`'\n'`, or all that is left with `io.EOF`. -/
def ReadString (r : List Nat) : List Nat × List Nat × readErr :=
  match cutLine r with
  | some (line, rest) => (line, rest, readErr.ok)
  | none => (r, [], readErr.EOF)

/-- The loop of `rdfChunker.Chunk` with `n` iterations to go: the batch, the
bytes left unread, and whether `io.EOF` is returned. -/
def chunkLoop (B : Nat) : Nat → List Nat → List Nat → List Nat × List Nat × Bool
  | 0, batch, r => (batch, r, false)
  | n + 1, batch, r =>
    match ReadSlice B r with
    | (slc, r₁, readErr.EOF) => (batch ++ slc, r₁, true)
    | (slc, r₁, readErr.ErrBufferFull) =>
      match ReadString r₁ with
      | (str, r₂, readErr.EOF) => (batch ++ slc ++ str, r₂, true)
      | (str, r₂, _) => chunkLoop B n (batch ++ slc ++ str) r₂
    | (slc, r₁, readErr.ok) => chunkLoop B n (batch ++ slc) r₁

/-- The bound `1e5` of the loop of `Chunk`. -/
def chunkLines : Nat := 100000

/-- Transcription of `rdfChunker.Chunk`. -/
def Chunk (B : Nat) (r : List Nat) : List Nat × List Nat × Bool :=
  chunkLoop B chunkLines [] r

/-- The chunks the loop of `loader.mapStage` sends to `readerChunkCh`: `Chunk` is
called until it returns `io.EOF`, and every non-empty buffer is sent.  `none`
when the fuel runs out. -/
def mapStageChunks (B : Nat) : Nat → List Nat → Option (List (List Nat))
  | 0, _ => none
  | fuel + 1, r =>
    match Chunk B r with
    | (chunkBuf, r₁, eof) =>
      let sent := if chunkBuf.length > 0 then [chunkBuf] else []
      if eof then some sent
      else
        match mapStageChunks B fuel r₁ with
        | none => none
        | some chunks => some (sent ++ chunks)

/-- The lines of a byte sequence: it is cut after every `'\n'`; bytes after the
last `'\n'` form a last line. -/
def splitLines : List Nat → List (List Nat)
  | [] => []
  | b :: bs =>
    if b = 10 then [b] :: splitLines bs
    else
      match splitLines bs with
      | [] => [[b]]
      | l :: ls => (b :: l) :: ls

/-- A line with its terminator: bytes other than `'\n'` followed by one `'\n'`. -/
def IsLine (l : List Nat) : Prop := ∃ body, l = body ++ [10] ∧ 10 ∉ body

/-! ### Lemmas on `shardFor` -/

theorem shardFor_of_lookup_some {m : shardMap} {p : String} {s : Int}
    (h : m.predToShard.lookup p = some s) : m.shardFor p = some (s, m) := by
  simp [shardMap.shardFor, h]

theorem shardFor_of_lookup_none {m : shardMap} {p : String}
    (h : m.predToShard.lookup p = none) (hM : m.numShards ≠ 0) :
    m.shardFor p = some (m.nextShard,
      { m with
        predToShard := (p, m.nextShard) :: m.predToShard
        nextShard := Int.tmod (wrapInt64 (m.nextShard + 1)) m.numShards }) := by
  simp [shardMap.shardFor, h, hM]

theorem shardFor_lookup_self {m m' : shardMap} {p : String} {i : Int}
    (h : m.shardFor p = some (i, m')) : m'.predToShard.lookup p = some i := by
  cases hl : m.predToShard.lookup p with
  | some s =>
    rw [shardFor_of_lookup_some hl] at h
    simp only [Option.some.injEq, Prod.mk.injEq] at h
    obtain ⟨rfl, rfl⟩ := h
    exact hl
  | none =>
    by_cases hM : m.numShards = 0
    · simp [shardMap.shardFor, hl, hM] at h
    · rw [shardFor_of_lookup_none hl hM] at h
      simp only [Option.some.injEq, Prod.mk.injEq] at h
      obtain ⟨rfl, rfl⟩ := h
      simp [List.lookup]

theorem shardFor_lookup_preserved {m m' : shardMap} {p q : String} {i s : Int}
    (h : m.shardFor q = some (i, m')) (hp : m.predToShard.lookup p = some s) :
    m'.predToShard.lookup p = some s := by
  cases hl : m.predToShard.lookup q with
  | some t =>
    rw [shardFor_of_lookup_some hl] at h
    simp only [Option.some.injEq, Prod.mk.injEq] at h
    obtain ⟨_, rfl⟩ := h
    exact hp
  | none =>
    by_cases hM : m.numShards = 0
    · simp [shardMap.shardFor, hl, hM] at h
    · rw [shardFor_of_lookup_none hl hM] at h
      simp only [Option.some.injEq, Prod.mk.injEq] at h
      obtain ⟨_, rfl⟩ := h
      have hne : (p == q) = false := by
        by_contra hc
        simp only [Bool.not_eq_false, beq_iff_eq] at hc
        subst hc
        rw [hl] at hp
        cases hp
      simp [List.lookup, hne, hp]

theorem runShardFor_of_lookup_some (calls : List String) :
    ∀ (m : shardMap) (p : String) (s i : Int),
      m.predToShard.lookup p = some s → (p, i) ∈ runShardFor m calls → i = s := by
  induction calls with
  | nil => intro m p s i _ h; simp [runShardFor] at h
  | cons q qs ih =>
    intro m p s i hp h
    unfold runShardFor at h
    cases hq : m.shardFor q with
    | none => simp [hq] at h
    | some r =>
      obtain ⟨j, m'⟩ := r
      simp only [hq, List.mem_cons, Prod.mk.injEq] at h
      rcases h with ⟨rfl, rfl⟩ | h
      · have h1 := shardFor_lookup_self hq
        have h2 := shardFor_lookup_preserved hq hp
        rw [h1] at h2
        exact Option.some.inj h2
      · exact ih m' p s i (shardFor_lookup_preserved hq hp) h

theorem runShardFor_stable (calls : List String) :
    ∀ (m : shardMap) (p : String) (i j : Int),
      (p, i) ∈ runShardFor m calls → (p, j) ∈ runShardFor m calls → i = j := by
  induction calls with
  | nil => intro m p i j h; simp [runShardFor] at h
  | cons q qs ih =>
    intro m p i j hi hj
    unfold runShardFor at hi hj
    cases hq : m.shardFor q with
    | none => simp [hq] at hi
    | some r =>
      obtain ⟨k, m'⟩ := r
      simp only [hq, List.mem_cons, Prod.mk.injEq] at hi hj
      have hself := shardFor_lookup_self hq
      rcases hi with ⟨rfl, rfl⟩ | hi <;> rcases hj with ⟨hpq, rfl⟩ | hj
      · rfl
      · exact (runShardFor_of_lookup_some qs m' p i j hself hj).symm
      · subst hpq
        exact runShardFor_of_lookup_some qs m' p j i hself hi
      · exact ih m' p i j hi hj

/-! ### Round-robin allocation -/

theorem wrapInt64_of_isInt64 {x : Int} (h : isInt64 x) : wrapInt64 x = x := by
  obtain ⟨h1, h2⟩ := h
  unfold wrapInt64
  rw [Int.emod_eq_of_lt (by omega) (by omega)]
  omega

theorem firstSeenFrom_extends (calls : List String) :
    ∀ seen : List String, seen <+: firstSeenFrom seen calls := by
  induction calls with
  | nil => intro seen; exact List.prefix_refl seen
  | cons q qs ih =>
    intro seen
    unfold firstSeenFrom
    split
    · exact ih seen
    · exact (List.prefix_append seen [q]).trans (ih (seen ++ [q]))

theorem indexOf_of_extends {p : String} {seen l : List String}
    (hp : p ∈ seen) (hl : seen <+: l) : l.indexOf p = seen.indexOf p := by
  obtain ⟨t, rfl⟩ := hl
  exact List.indexOf_append_of_mem hp

theorem roundRobinState_step {M : Int} (hM : 1 ≤ M) (hM64 : M < 2 ^ 63)
    {seen : List String} {m : shardMap} (h : RoundRobinState M seen m) (q : String)
    (hq : q ∉ seen) :
    ∃ m', m.shardFor q = some (((seen.length : Int) % M), m') ∧
      RoundRobinState M (seen ++ [q]) m' := by
  obtain ⟨hn, hnext, hlook⟩ := h
  have hnone : m.predToShard.lookup q = none := by rw [hlook q]; simp [hq]
  have hM0 : m.numShards ≠ 0 := by rw [hn]; omega
  refine ⟨{ m with
      predToShard := (q, m.nextShard) :: m.predToShard
      nextShard := Int.tmod (wrapInt64 (m.nextShard + 1)) m.numShards }, ?_, ?_⟩
  · rw [shardFor_of_lookup_none hnone hM0, hnext]
  · have hlo : 0 ≤ (seen.length : Int) % M := Int.emod_nonneg _ (by omega)
    have hhi : (seen.length : Int) % M < M := Int.emod_lt_of_pos _ (by omega)
    refine ⟨hn, ?_, ?_⟩
    · show Int.tmod (wrapInt64 (m.nextShard + 1)) m.numShards = _
      rw [hnext, hn, wrapInt64_of_isInt64 ⟨by omega, by omega⟩,
        Int.tmod_eq_emod (by omega) (by omega), Int.emod_add_emod]
      simp
    · intro p
      show List.lookup p ((q, m.nextShard) :: m.predToShard) = _
      by_cases hpq : p = q
      · subst hpq
        simp [List.lookup, hnext, List.indexOf_append_of_not_mem hq]
      · have hne : (p == q) = false := by simpa using hpq
        simp only [List.lookup, hne, hlook p, List.mem_append, List.mem_singleton, hpq,
          or_false]
        by_cases hps : p ∈ seen
        · simp [hps, List.indexOf_append_of_mem hps]
        · simp [hps]

theorem runShardFor_roundRobin {M : Int} (hM : 1 ≤ M) (hM64 : M < 2 ^ 63)
    (calls : List String) :
    ∀ (seen : List String) (m : shardMap), RoundRobinState M seen m →
      runShardFor m calls =
        calls.map (fun p => (p, (((firstSeenFrom seen calls).indexOf p : Nat) : Int) % M)) := by
  induction calls with
  | nil => intro seen m _; simp [runShardFor]
  | cons q qs ih =>
    intro seen m h
    by_cases hq : q ∈ seen
    · have hl : m.predToShard.lookup q = some ((seen.indexOf q : Int) % M) := by
        rw [h.2.2 q]; simp [hq]
      simp only [runShardFor, shardFor_of_lookup_some hl, firstSeenFrom, hq, if_true,
        List.map_cons, ih seen m h]
      rw [indexOf_of_extends hq (firstSeenFrom_extends qs seen)]
    · obtain ⟨m', hs, hinv⟩ := roundRobinState_step hM hM64 h q hq
      have hq' : q ∈ seen ++ [q] := by simp
      simp only [runShardFor, hs, firstSeenFrom, hq, if_false, List.map_cons,
        ih (seen ++ [q]) m' hinv]
      rw [indexOf_of_extends hq' (firstSeenFrom_extends qs (seen ++ [q])),
        List.indexOf_append_of_not_mem hq]
      simp

theorem roundRobinState_fresh (M : Int) : RoundRobinState M [] (newShardMap M) := by
  refine ⟨rfl, ?_, ?_⟩
  · simp [newShardMap]
  · intro p; simp [newShardMap, List.lookup]

/-! ### Lemmas on `getWeight` -/

theorem getWeight_eq_occurring (line : String) : getWeight line = occurringWeight line := by
  unfold getWeight occurringWeight indexKinds
  simp only [List.filter]
  cases stringsContains line "hash" <;> cases stringsContains line "exact" <;>
    cases stringsContains line "term" <;> cases stringsContains line "fulltext" <;>
    cases stringsContains line "trigram" <;> simp

theorem getWeight_bounds (line : String) : 1 ≤ getWeight line ∧ getWeight line ≤ 16 := by
  unfold getWeight
  cases stringsContains line "hash" <;> cases stringsContains line "exact" <;>
    cases stringsContains line "term" <;> cases stringsContains line "fulltext" <;>
    cases stringsContains line "trigram" <;> simp

theorem ite_weight_mono {b b' : Bool} (h : b = true → b' = true) {w w' c : Int}
    (hw : w ≤ w') (hc : 0 ≤ c) :
    (if b = true then w + c else w) ≤ (if b' = true then w' + c else w') := by
  cases b <;> cases b' <;> simp at h ⊢ <;> omega

theorem getWeight_mono_of_kinds (s s' : String)
    (h : ∀ k ∈ indexKinds, stringsContains s k.1 = true → stringsContains s' k.1 = true) :
    getWeight s ≤ getWeight s' := by
  unfold getWeight
  have h1 := h ("hash", 1) (by simp [indexKinds])
  have h2 := h ("exact", 2) (by simp [indexKinds])
  have h3 := h ("term", 3) (by simp [indexKinds])
  have h4 := h ("fulltext", 4) (by simp [indexKinds])
  have h5 := h ("trigram", 5) (by simp [indexKinds])
  exact ite_weight_mono h5 (ite_weight_mono h4 (ite_weight_mono h3 (ite_weight_mono h2
    (ite_weight_mono h1 (le_refl 1) (by decide)) (by decide)) (by decide)) (by decide))
    (by decide)

theorem stringsContains_of_infix {s s' : String} (hs : s.toList <:+: s'.toList)
    (k : String) (h : stringsContains s k = true) : stringsContains s' k = true := by
  unfold stringsContains at h ⊢
  simp only [decide_eq_true_eq] at h ⊢
  exact h.trans hs

/-- A pattern that avoids the character `c` and occurs in `a ++ c :: b` occurs
in `a` or in `b`. -/
theorem infix_of_infix_around {c : Char} {pat a b : List Char} (hc : c ∉ pat)
    (h : pat <:+: a ++ c :: b) : pat <:+: a ∨ pat <:+: b := by
  obtain ⟨s, t, hst⟩ := h
  rw [List.append_assoc] at hst
  rcases List.append_eq_append_iff.1 hst with ⟨a', ha, hb⟩ | ⟨c', hs, hp⟩
  · -- `a = s ++ a'` and `pat ++ t = a' ++ c :: b`
    rcases List.append_eq_append_iff.1 hb with ⟨x, hx, hy⟩ | ⟨y, hy, _⟩
    · -- `a' = pat ++ x`
      left
      exact ⟨s, x, by rw [ha, hx, List.append_assoc]⟩
    · -- `pat = a' ++ y` and `c :: b = y ++ t`
      cases y with
      | nil =>
        left
        exact ⟨s, [], by rw [ha, hy]; simp⟩
      | cons d y' =>
        exfalso
        simp only [List.cons_append, List.cons.injEq] at *
        apply hc
        rw [hy]
        simp [← ‹c = d ∧ _›.1]
  · -- `s = a ++ c'` and `c :: b = c' ++ (pat ++ t)`
    cases c' with
    | nil =>
      cases pat with
      | nil => left; exact ⟨[], a, by simp⟩
      | cons d pat' =>
        exfalso
        simp only [List.nil_append, List.cons_append, List.cons.injEq] at hp
        exact hc (by simp [hp.1])
    | cons d c'' =>
      right
      simp only [List.cons_append, List.cons.injEq] at hp
      exact ⟨c'', t, by rw [hp.2, List.append_assoc]⟩

theorem dropWhile_head_not {p : Char → Bool} :
    ∀ {l : List Char} {c : Char} {rest : List Char},
      l.dropWhile p = c :: rest → p c = false := by
  intro l
  induction l with
  | nil => intro c rest h; simp at h
  | cons d l ih =>
    intro c rest h
    rw [List.dropWhile_cons] at h
    split at h
    · exact ih h
    · simp only [List.cons.injEq] at h
      rw [← h.1]
      simpa using ‹¬ p d = true›

theorem line_split (line : String) :
    (line.toList = predicatePart line ∧ declarationPart line = []) ∨
      line.toList = predicatePart line ++ ':' :: declarationPart line := by
  unfold predicatePart declarationPart
  have h := List.takeWhile_append_dropWhile (fun c => c != ':') line.toList
  cases hd : line.toList.dropWhile (fun c => c != ':') with
  | nil =>
    left
    rw [hd, List.append_nil] at h
    exact ⟨h.symm, rfl⟩
  | cons c rest =>
    right
    have hc : c = ':' := by
      simpa using dropWhile_head_not hd
    rw [hd, hc] at h
    simpa using h.symm

theorem declaration_infix_line (line : String) : declarationPart line <:+: line.toList := by
  rcases line_split line with ⟨_, h⟩ | h
  · rw [h]; exact ⟨[], line.toList, by simp⟩
  · exact ⟨predicatePart line ++ [':'], [], by rw [h]; simp⟩

theorem kind_occurs_iff_declared (line : String)
    (hpred : ∀ k ∈ indexKinds, ¬ k.1.toList <:+: predicatePart line)
    (k : String × Int) (hk : k ∈ indexKinds) :
    stringsContains line k.1 = decide (k.1.toList <:+: declarationPart line) := by
  unfold stringsContains
  have hcolon : ':' ∉ k.1.toList := by
    simp only [indexKinds, List.mem_cons, List.mem_singleton, List.not_mem_nil, or_false] at hk
    rcases hk with rfl | rfl | rfl | rfl | rfl <;> decide
  rw [decide_eq_decide]
  constructor
  · intro h
    rcases line_split line with ⟨h1, _⟩ | h1
    · rw [h1] at h
      exact absurd h (hpred k hk)
    · rw [h1] at h
      rcases infix_of_infix_around hcolon h with h2 | h2
      · exact absurd h2 (hpred k hk)
      · exact h2
  · intro h
    exact h.trans (declaration_infix_line line)

theorem getWeight_eq_declared (line : String)
    (hpred : ∀ k ∈ indexKinds, ¬ k.1.toList <:+: predicatePart line) :
    getWeight line = declaredWeight line := by
  rw [getWeight_eq_occurring]
  unfold occurringWeight declaredWeight
  congr 3
  apply List.filter_congr
  intro k hk
  exact kind_occurs_iff_declared line hpred k hk

/-! ### Lemmas on the spill writer and on `readSize` -/

theorem foldl_append_singleton {α β : Type} (f : α → β) (l : List α) :
    ∀ acc : List β, l.foldl (fun w a => w ++ [f a]) acc = acc ++ l.map f := by
  induction l with
  | nil => intro acc; simp
  | cons a l ih => intro acc; simp [ih]

theorem writeMapEntriesToFile_eq (entries : List String) :
    writeMapEntriesToFile entries = entries := by
  unfold writeMapEntriesToFile
  have h := foldl_append_singleton (fun s : String => s) entries []
  simpa using h

theorem readSize_eq (treeSize : String → Int) (dirs : List String) :
    readSize treeSize dirs =
      List.replicate dirs.length { dir := "", sz := 0 } ++
        dirs.map (fun d => { dir := d, sz := treeSize d }) := by
  unfold readSize
  exact foldl_append_singleton (fun d => ({ dir := d, sz := treeSize d } : sizedDir)) dirs _

/-! ### Lemmas on `getWeightedDirs` -/

theorem wrapInt64_add_wrap (a b : Int) :
    wrapInt64 (wrapInt64 a + wrapInt64 b) = wrapInt64 (a + b) := by
  unfold wrapInt64
  omega

theorem wrapInt64_isInt64 (a : Int) : isInt64 (wrapInt64 a) := by
  unfold wrapInt64 isInt64
  omega

theorem lookup_mapSet_self (m : List (String × Int)) (k : String) (v : Int) :
    (mapSet m k v).lookup k = some v := by
  induction m with
  | nil => simp [mapSet, List.lookup]
  | cons e rest ih =>
    obtain ⟨k', v'⟩ := e
    unfold mapSet
    by_cases h : k' = k
    · simp [h, List.lookup]
    · have h1 : (k' == k) = false := by simpa using h
      have h2 : (k == k') = false := by simpa using fun e => h e.symm
      simp [h1, List.lookup, h2, ih]

theorem lookup_mapSet_other (m : List (String × Int)) (k k2 : String) (v : Int)
    (hne : k2 ≠ k) : (mapSet m k v).lookup k2 = m.lookup k2 := by
  induction m with
  | nil =>
    have h2 : (k2 == k) = false := by simpa using hne
    simp [mapSet, List.lookup, h2]
  | cons e rest ih =>
    obtain ⟨k', v'⟩ := e
    unfold mapSet
    by_cases h : k' = k
    · subst h
      have h2 : (k2 == k') = false := by simpa using hne
      simp [List.lookup, h2]
    · have h1 : (k' == k) = false := by simpa using h
      simp only [h1, List.lookup]
      rw [ih]

theorem keys_mapSet (m : List (String × Int)) (k : String) (v : Int) :
    (mapSet m k v).map Prod.fst =
      if k ∈ m.map Prod.fst then m.map Prod.fst else m.map Prod.fst ++ [k] := by
  induction m with
  | nil => simp [mapSet]
  | cons e rest ih =>
    obtain ⟨k', v'⟩ := e
    unfold mapSet
    by_cases h : k' = k
    · subst h; simp
    · have h1 : (k' == k) = false := by simpa using h
      have h3 : ¬ k = k' := fun e => h e.symm
      have hm : (k ∈ k' :: List.map Prod.fst rest) ↔ k ∈ List.map Prod.fst rest := by
        simp [h3]
      simp only [h1, Bool.false_eq_true, if_false, List.map_cons, ih]
      by_cases hk : k ∈ List.map Prod.fst rest
      · rw [if_pos hk, if_pos (List.mem_cons_of_mem _ hk)]
      · rw [if_neg hk, if_neg (fun hc => hk (hm.1 hc))]
        simp

theorem nodup_keys_mapSet (m : List (String × Int)) (k : String) (v : Int)
    (h : (m.map Prod.fst).Nodup) : ((mapSet m k v).map Prod.fst).Nodup := by
  rw [keys_mapSet]
  split
  · exact h
  · rename_i hk
    exact List.Nodup.append h (List.nodup_singleton k) (by simpa using hk)

theorem routedTo_append_one (dirOf : Int → String) (l : List (String × Int))
    (x : String × Int) (d : String) :
    routedTo dirOf (l ++ [x]) d = (routedTo dirOf l d || (dirOf x.2 == d)) := by
  simp [routedTo]

theorem weightSum_append_one (dirOf : Int → String) (ps : List (String × String))
    (l : List (String × Int)) (x : String × Int) (d : String) :
    weightSum dirOf ps (l ++ [x]) d =
      weightSum dirOf ps l d + if dirOf x.2 == d then getWeight (schemaOf ps x.1) else 0 := by
  unfold weightSum
  rw [List.filter_append]
  by_cases h : (dirOf x.2 == d) = true
  · simp [List.filter, h]
  · simp [List.filter, h]

theorem weightSum_of_not_routed (dirOf : Int → String) (ps : List (String × String))
    (l : List (String × Int)) (d : String) (h : routedTo dirOf l d = false) :
    weightSum dirOf ps l d = 0 := by
  unfold weightSum
  have : l.filter (fun x => dirOf x.2 == d) = [] := by
    rw [List.filter_eq_nil_iff]
    intro x hx
    unfold routedTo at h
    rw [List.any_eq_false] at h
    exact h x hx
  rw [this]
  rfl

theorem weightedTemp_step (dirOf : Int → String) (treeSize : String → Int)
    (ps : List (String × String)) (visited : List (String × Int))
    (temp : List (String × Int)) (x : String × Int)
    (h : WeightedTemp dirOf treeSize ps visited temp) :
    WeightedTemp dirOf treeSize ps (visited ++ [x])
      (weightedStep dirOf treeSize ps temp x) := by
  obtain ⟨hnd, hl⟩ := h
  have key : ∃ v, weightedStep dirOf treeSize ps temp x = mapSet temp (dirOf x.2) v ∧
      v = wrapInt64 (treeSize (dirOf x.2) *
        (weightSum dirOf ps visited (dirOf x.2) + getWeight (schemaOf ps x.1))) := by
    unfold weightedStep
    have hd := hl (dirOf x.2)
    by_cases hr : routedTo dirOf visited (dirOf x.2) = true
    · rw [if_pos hr] at hd
      simp only [hd]
      refine ⟨_, rfl, ?_⟩
      rw [wrapInt64_add_wrap, mul_add]
    · rw [if_neg hr] at hd
      simp only [hd]
      refine ⟨_, rfl, ?_⟩
      rw [weightSum_of_not_routed dirOf ps visited _ (by simpa using hr), zero_add]
  obtain ⟨v, hstep, hv⟩ := key
  rw [hstep]
  refine ⟨nodup_keys_mapSet temp _ v hnd, ?_⟩
  intro d
  rw [routedTo_append_one, weightSum_append_one]
  by_cases hd : dirOf x.2 = d
  · subst hd
    simp [lookup_mapSet_self, hv]
  · have hb : (dirOf x.2 == d) = false := by simpa using hd
    rw [lookup_mapSet_other temp _ d v (fun e => hd e.symm), hl d, hb]
    simp

theorem weightedTemp_foldl (dirOf : Int → String) (treeSize : String → Int)
    (ps : List (String × String)) (l : List (String × Int)) :
    ∀ (visited : List (String × Int)) (temp : List (String × Int)),
      WeightedTemp dirOf treeSize ps visited temp →
      WeightedTemp dirOf treeSize ps (visited ++ l)
        (l.foldl (weightedStep dirOf treeSize ps) temp) := by
  induction l with
  | nil => intro visited temp h; simpa using h
  | cons x l ih =>
    intro visited temp h
    have := ih (visited ++ [x]) _ (weightedTemp_step dirOf treeSize ps visited temp x h)
    simpa using this

theorem weightedTemp_final (dirOf : Int → String) (treeSize : String → Int)
    (predToShard : List (String × Int)) (ps : List (String × String)) :
    WeightedTemp dirOf treeSize ps predToShard
      (predToShard.foldl (weightedStep dirOf treeSize ps) []) := by
  have h0 : WeightedTemp dirOf treeSize ps [] [] := by
    refine ⟨by simp, ?_⟩
    intro d
    simp [routedTo, List.lookup]
  simpa using weightedTemp_foldl dirOf treeSize ps predToShard [] [] h0

theorem getWeightedDirs_eq (dirOf : Int → String) (treeSize : String → Int)
    (predToShard : List (String × Int)) (ps : List (String × String)) :
    getWeightedDirs dirOf treeSize predToShard ps =
      (predToShard.foldl (weightedStep dirOf treeSize ps) []).map
        (fun e => { dir := e.1, sz := e.2 }) := by
  unfold getWeightedDirs
  simpa using foldl_append_singleton (fun e : String × Int => ({ dir := e.1, sz := e.2 } : sizedDir))
    (predToShard.foldl (weightedStep dirOf treeSize ps) []) []

theorem lookup_of_mem_nodup_keys :
    ∀ (m : List (String × Int)) (k : String) (v : Int),
      (m.map Prod.fst).Nodup → (k, v) ∈ m → m.lookup k = some v := by
  intro m
  induction m with
  | nil => intro k v _ h; simp at h
  | cons e rest ih =>
    intro k v hnd hmem
    obtain ⟨k', v'⟩ := e
    simp only [List.map_cons, List.nodup_cons] at hnd
    rcases List.mem_cons.1 hmem with heq | hin
    · cases heq
      simp [List.lookup]
    · have hne : k ≠ k' := by
        intro e
        subst e
        exact hnd.1 (List.mem_map.2 ⟨(k, v), hin, rfl⟩)
      have hb : (k == k') = false := by simpa using hne
      simp only [List.lookup, hb]
      exact ih k v hnd.2 hin

theorem lookup_isSome_iff_mem_keys :
    ∀ (m : List (String × Int)) (k : String),
      (m.lookup k).isSome = true ↔ k ∈ m.map Prod.fst := by
  intro m
  induction m with
  | nil => intro k; simp [List.lookup]
  | cons e rest ih =>
    intro k
    obtain ⟨k', v'⟩ := e
    by_cases h : k = k'
    · subst h; simp [List.lookup]
    · have hb : (k == k') = false := by simpa using h
      simp only [List.lookup, hb, ih k, List.map_cons, List.mem_cons, h, false_or]

/-! ### Lemmas on the placement loop -/

theorem sortBySzDesc_perm (l : List sizedDir) : (sortBySzDesc l).Perm l :=
  List.perm_insertionSort _ l

theorem sortBySzDesc_sorted (l : List sizedDir) :
    (sortBySzDesc l).Pairwise (fun a b => b.sz ≤ a.sz) :=
  List.sorted_insertionSort _ l

theorem placeOne_greedy (rs : List sizedDir) (sd : sizedDir) (hne : rs ≠ []) :
    ∃ rs', placeOne rs sd = some rs' ∧ rs'.length = rs.length ∧
      GreedyStep { before := rs, mapShard := sd, after := rs' } := by
  cases hlast : (sortBySzDesc rs).getLast? with
  | none =>
    exfalso
    rw [List.getLast?_eq_none_iff] at hlast
    have := (sortBySzDesc_perm rs).length_eq
    rw [hlast] at this
    exact hne (List.length_eq_zero.1 this.symm)
  | some last =>
    have hsplit : (sortBySzDesc rs).dropLast ++ [last] = sortBySzDesc rs :=
      List.dropLast_append_getLast? last hlast
    have hperm : rs.Perm ((sortBySzDesc rs).dropLast ++ [last]) := by
      rw [hsplit]; exact (sortBySzDesc_perm rs).symm
    refine ⟨(sortBySzDesc rs).dropLast ++ [{ last with sz := wrapInt64 (last.sz + sd.sz) }],
      by simp only [placeOne, hlast], ?_, (sortBySzDesc rs).dropLast, last, hperm, ?_, rfl,
      fun hfit => by rw [wrapInt64_of_isInt64 hfit]⟩
    · have := hperm.length_eq
      simp only [List.length_append, List.length_singleton] at this ⊢
      omega
    · intro r hr
      have hsorted := sortBySzDesc_sorted rs
      rw [← hsplit, List.pairwise_append] at hsorted
      have hr' : r ∈ (sortBySzDesc rs).dropLast ++ [last] := hperm.subset hr
      rcases List.mem_append.1 hr' with h1 | h1
      · exact hsorted.2.2 r h1 last (by simp)
      · simp only [List.mem_singleton] at h1
        rw [h1]

theorem placeAll_greedy (l : List sizedDir) :
    ∀ rs : List sizedDir, rs ≠ [] →
      ∃ trace, placeAll rs l = some trace ∧ trace.map (fun p => p.mapShard) = l ∧
        chained rs trace ∧
        ∀ p ∈ trace, p.before.length = rs.length ∧ GreedyStep p := by
  induction l with
  | nil =>
    intro rs _
    exact ⟨[], rfl, rfl, trivial, by simp⟩
  | cons sd rest ih =>
    intro rs hne
    obtain ⟨rs', h1, hlen, hstep⟩ := placeOne_greedy rs sd hne
    have hne' : rs' ≠ [] := by
      intro h
      rw [h] at hlen
      exact hne (List.length_eq_zero.1 hlen.symm)
    obtain ⟨trace, h2, hmap, hch, hall⟩ := ih rs' hne'
    refine ⟨{ before := rs, mapShard := sd, after := rs' } :: trace, ?_, ?_, ?_, ?_⟩
    · simp [placeAll, h1, h2]
    · simp [hmap]
    · exact ⟨rfl, hch⟩
    · intro p hp
      rcases List.mem_cons.1 hp with rfl | hp
      · exact ⟨rfl, hstep⟩
      · obtain ⟨ha, hb⟩ := hall p hp
        exact ⟨by rw [ha, hlen], hb⟩

theorem initialReduceShards_length (R : Int) (reduceDirOf : Nat → String) :
    (initialReduceShards R reduceDirOf).length = R.toNat := by
  simp [initialReduceShards]

/-! ### Lemmas on the byte order and on `less` -/

theorem bytesLess_irrefl (a : List Nat) : bytesLess a a = false := by
  induction a with
  | nil => rfl
  | cons x xs ih => simp [bytesLess, ih]

theorem bytesLess_nil_right (a : List Nat) : bytesLess a [] = false := by
  cases a <;> rfl

theorem bytesLess_trans :
    ∀ (a b c : List Nat), bytesLess a b = true → bytesLess b c = true → bytesLess a c = true := by
  intro a
  induction a with
  | nil =>
    intro b c hab hbc
    cases c with
    | nil => rw [bytesLess_nil_right] at hbc; cases hbc
    | cons z zs => rfl
  | cons x xs ih =>
    intro b c hab hbc
    cases b with
    | nil => simp [bytesLess] at hab
    | cons y ys =>
      cases c with
      | nil => simp [bytesLess] at hbc
      | cons z zs =>
        simp only [bytesLess] at hab hbc ⊢
        by_cases hxy : x < y
        · by_cases hyz : y < z
          · have : x < z := by omega
            simp [this]
          · simp only [hyz, if_false] at hbc
            by_cases hzy : z < y
            · simp [hzy] at hbc
            · have : x < z := by omega
              simp [this]
        · simp only [hxy, if_false] at hab
          by_cases hyx : y < x
          · simp [hyx] at hab
          · simp only [hyx, if_false] at hab
            have hxy' : x = y := by omega
            subst hxy'
            by_cases hxz : x < z
            · simp [hxz]
            · simp only [hxz, if_false] at hbc ⊢
              by_cases hzx : z < x
              · simp [hzx] at hbc
              · simp only [hzx, if_false] at hbc ⊢
                exact ih ys zs hab hbc

theorem bytesLess_asymm (a b : List Nat) (h : bytesLess a b = true) : bytesLess b a = false := by
  cases hba : bytesLess b a with
  | false => rfl
  | true =>
    have := bytesLess_trans a b a h hba
    rw [bytesLess_irrefl] at this
    cases this

theorem bytesLess_connex :
    ∀ (a b : List Nat), bytesLess a b = false → bytesLess b a = false → a = b := by
  intro a
  induction a with
  | nil =>
    intro b hab _
    cases b with
    | nil => rfl
    | cons y ys => simp [bytesLess] at hab
  | cons x xs ih =>
    intro b hab hba
    cases b with
    | nil => simp [bytesLess] at hba
    | cons y ys =>
      simp only [bytesLess] at hab hba
      by_cases hxy : x < y
      · simp [hxy] at hab
      · by_cases hyx : y < x
        · simp [hyx] at hba
        · simp only [hxy, hyx, if_false] at hab hba
          have : x = y := by omega
          subst this
          rw [ih ys hab hba]

/-- When `c` is not below `b` and `b` is not below `a`, `c` is not below `a`. -/
theorem bytesLess_false_trans (a b c : List Nat) (hba : bytesLess b a = false)
    (hcb : bytesLess c b = false) : bytesLess c a = false := by
  cases hca : bytesLess c a with
  | false => rfl
  | true =>
    -- `c < a`, `a ≤ b`, `b ≤ c`
    cases hab : bytesLess a b with
    | true =>
      have := bytesLess_trans c a b hca hab
      rw [hcb] at this
      cases this
    | false =>
      have : b = a := bytesLess_connex b a hba hab
      subst this
      rw [hcb] at hca
      cases hca

theorem lessById_false_iff (a b : MapEntry) :
    lessById a b = false ↔
      bytesLess (bytesOf a.Key) (bytesOf b.Key) = false ∧
        (bytesLess (bytesOf b.Key) (bytesOf a.Key) = false → entryId b ≤ entryId a) := by
  unfold lessById
  cases h1 : bytesLess (bytesOf a.Key) (bytesOf b.Key) <;>
    cases h2 : bytesLess (bytesOf b.Key) (bytesOf a.Key) <;> simp

theorem lessById_false_trans (a b c : MapEntry) (hba : lessById b a = false)
    (hcb : lessById c b = false) : lessById c a = false := by
  rw [lessById_false_iff] at hba hcb ⊢
  obtain ⟨h1, h2⟩ := hba
  obtain ⟨h3, h4⟩ := hcb
  refine ⟨bytesLess_false_trans _ _ _ h1 h3, ?_⟩
  intro hac
  -- `a ≤ b ≤ c ≤ a`: all keys are equal
  have hab : bytesLess (bytesOf a.Key) (bytesOf b.Key) = false :=
    bytesLess_false_trans _ _ _ h3 hac
  have hbc : bytesLess (bytesOf b.Key) (bytesOf c.Key) = false :=
    bytesLess_false_trans _ _ _ hac h1
  exact le_trans (h2 hab) (h4 hbc)

theorem pairwise_of_nonDecreasingBy (lt : MapEntry → MapEntry → Bool)
    (htrans : ∀ a b c, lt b a = false → lt c b = false → lt c a = false) :
    ∀ l : List MapEntry, nonDecreasingBy lt l = true →
      l.Pairwise (fun a b => lt b a = false) := by
  intro l
  induction l with
  | nil => intro _; exact List.Pairwise.nil
  | cons a rest ih =>
    intro h
    cases rest with
    | nil => exact List.pairwise_singleton _ a
    | cons b rest' =>
      simp only [nonDecreasingBy, Bool.and_eq_true, Bool.not_eq_true'] at h
      have hrest := ih h.2
      refine List.Pairwise.cons ?_ hrest
      intro c hc
      rcases List.mem_cons.1 hc with rfl | hc
      · exact h.1
      · exact htrans a b c h.1 ((List.pairwise_cons.1 hrest).1 c hc)

/-! ### Lemmas on `toList` -/

theorem entryId_eq (e : MapEntry) :
    (match e.Posting with
      | some p => p.Uid
      | none => e.Uid) = entryId e := rfl

theorem toListEntry_currentKey (st : toListState) (e : MapEntry) :
    (toListEntry st e).kvb.currentKey = e.Key := by
  cases hp : e.Posting <;> simp only [toListEntry, hp] <;> split_ifs <;> rfl

theorem toListEntry_finish (st : toListState) (e : MapEntry) :
    (toListEntry st e).kvb.finish = st.kvb.finish := by
  cases hp : e.Posting <;> simp only [toListEntry, appendToList, hp] <;> split_ifs <;> rfl

/-- Without a change of key (or on the first entry) the entry's id is added to
the current uids unless it repeats the last one. -/
theorem toListEntry_same_key (st : toListState) (e : MapEntry)
    (h : bytesEqual e.Key st.kvb.currentKey = true ∨ st.kvb.currentKey = none) :
    (toListEntry st e).emitted = st.emitted ∧
      (toListEntry st e).kvb.uids =
        if st.kvb.uids.getLast? = some (entryId e) then st.kvb.uids
        else st.kvb.uids ++ [entryId e] := by
  have hc : (!bytesEqual e.Key st.kvb.currentKey && st.kvb.currentKey.isSome) = false := by
    rcases h with h | h
    · simp [h]
    · simp [h]
  unfold toListEntry
  simp only [entryId_eq, hc, Bool.false_eq_true, if_false]
  by_cases hlast : st.kvb.uids.getLast? = some (entryId e)
  · have hne : st.kvb.uids.length > 0 := by
      cases hu : st.kvb.uids with
      | nil => rw [hu] at hlast; simp at hlast
      | cons a l => simp
    simp [hlast, hne]
  · have : (decide (st.kvb.uids.length > 0) && st.kvb.uids.getLast? == some (entryId e)) = false := by
      simp [hlast]
    simp only [this, Bool.false_eq_true, if_false, hlast]
    cases e.Posting <;> exact ⟨rfl, rfl⟩

/-- On a change of key the uids collected for the previous key are emitted as a
group and the entry's id starts the uids of the new key. -/
theorem toListEntry_new_key (st : toListState) (e : MapEntry)
    (h : bytesEqual e.Key st.kvb.currentKey = false) (hsome : st.kvb.currentKey ≠ none)
    (hu : st.kvb.uids ≠ []) :
    (toListEntry st e).emitted =
        st.emitted ++
          [{ key := st.kvb.currentKey, uids := st.kvb.uids, postings := st.kvb.postings }] ∧
      (toListEntry st e).kvb.uids = [entryId e] := by
  have hc : (!bytesEqual e.Key st.kvb.currentKey && st.kvb.currentKey.isSome) = true := by
    cases hk : st.kvb.currentKey with
    | none => exact absurd hk hsome
    | some k => rw [hk] at h; simp [h]
  have hlen : ¬ st.kvb.uids.length = 0 := fun h0 => hu (List.length_eq_zero.1 h0)
  unfold toListEntry appendToList
  simp only [entryId_eq, hc, if_true, hlen, if_false]
  simp only [List.length_nil, gt_iff_lt, lt_self_iff_false, decide_False, Bool.false_and,
    Bool.false_eq_true, if_false, List.nil_append]
  cases e.Posting <;> exact ⟨rfl, rfl⟩

theorem bytesEqual_iff_of_ne_none {a b : Option (List Nat)} (ha : a ≠ none) (hb : b ≠ none) :
    bytesEqual a b = true ↔ a = b := by
  cases a with
  | none => exact absurd rfl ha
  | some x =>
    cases b with
    | none => exact absurd rfl hb
    | some y => simp [bytesEqual, bytesOf]

theorem le_getLast_of_pairwise_lt (l : List Nat) (m : Nat) (hpw : l.Pairwise (fun a b => a < b))
    (hlast : l.getLast? = some m) : ∀ u ∈ l, u ≤ m := by
  intro u hu
  have hsplit : l.dropLast ++ [m] = l := List.dropLast_append_getLast? m hlast
  rw [← hsplit] at hpw hu
  rw [List.pairwise_append] at hpw
  rcases List.mem_append.1 hu with h | h
  · exact le_of_lt (hpw.2.2 u h m (by simp))
  · simp only [List.mem_singleton] at h
    rw [h]

theorem getLast_mem_of_some (l : List Nat) (m : Nat) (hlast : l.getLast? = some m) : m ∈ l := by
  have hsplit : l.dropLast ++ [m] = l := List.dropLast_append_getLast? m hlast
  rw [← hsplit]
  simp

/-- From the first entry on, the builder's invariant holds with the entry's id
as the only uid of the current key. -/
theorem builderInv_first (st : toListState) (e : MapEntry)
    (hinv : BuilderInv [] st) (hnone : st.kvb.currentKey = none) :
    BuilderInv ([] ++ [e]) (toListEntry st e) := by
  obtain ⟨_, hmem, _, _, hem, _, _⟩ := hinv
  have hu : st.kvb.uids = [] := by
    rw [List.eq_nil_iff_forall_not_mem]
    intro u hu
    obtain ⟨e', he', _⟩ := (hmem u).1 hu
    simp at he'
  have hemp : st.emitted = [] := by
    rw [List.eq_nil_iff_forall_not_mem]
    intro g hg
    have := (hem g hg).2.2
    rw [hnone] at this
    simp only [bytesOf, Option.getD_none] at this
    rw [bytesLess_nil_right] at this
    cases this
  obtain ⟨he, hu'⟩ := toListEntry_same_key st e (Or.inr hnone)
  rw [hu] at hu'
  simp only [List.getLast?_nil, List.nil_append, reduceCtorEq, if_false] at hu'
  rw [hemp] at he
  have hck := toListEntry_currentKey st e
  unfold BuilderInv
  rw [hck, he, hu']
  refine ⟨List.pairwise_singleton _ _, ?_, ?_, ?_, ?_, ?_, ?_⟩
  · intro u
    simp only [List.mem_singleton, List.nil_append]
    constructor
    · intro h; exact ⟨e, rfl, rfl, h.symm⟩
    · rintro ⟨e', rfl, _, h⟩; exact h.symm
  · right; exact ⟨e, by simp, rfl⟩
  · intro e' he'
    simp only [List.nil_append, List.mem_singleton] at he'
    rw [he', bytesLess_irrefl]
  · intro g hg; simp at hg
  · simp
  · intro e' he'
    simp only [List.nil_append, List.mem_singleton] at he'
    left; rw [he']

theorem builderInv_same_key (done : List MapEntry) (st : toListState) (e : MapEntry)
    (hinv : BuilderInv done st) (heq : e.Key = st.kvb.currentKey)
    (hs : ∀ e' ∈ done, lessById e e' = false) :
    BuilderInv (done ++ [e]) (toListEntry st e) := by
  obtain ⟨hpw, hmem, _, hmax, hem, hkeys, hcov⟩ := hinv
  have hbe : bytesEqual e.Key st.kvb.currentKey = true := by
    rw [heq]; simp [bytesEqual]
  obtain ⟨he, hu'⟩ := toListEntry_same_key st e (Or.inl hbe)
  have hck := toListEntry_currentKey st e
  rw [← heq] at hmem hmax hem hcov
  have hle : ∀ u ∈ st.kvb.uids, u ≤ entryId e := by
    intro u hu
    obtain ⟨e', he', hk', rfl⟩ := (hmem u).1 hu
    have := ((lessById_false_iff e e').1 (hs e' he')).2
    apply this
    rw [hk', bytesLess_irrefl]
  unfold BuilderInv
  rw [hck, he, hu']
  refine ⟨?_, ?_, ?_, ?_, ?_, hkeys, ?_⟩
  · split
    · exact hpw
    · rename_i hlast
      rw [List.pairwise_append]
      refine ⟨hpw, List.pairwise_singleton _ _, ?_⟩
      intro u hu b hb
      simp only [List.mem_singleton] at hb
      subst hb
      cases hl : st.kvb.uids.getLast? with
      | none =>
        rw [List.getLast?_eq_none_iff] at hl
        rw [hl] at hu
        simp at hu
      | some m =>
        have h1 := le_getLast_of_pairwise_lt _ m hpw hl u hu
        have h2 := hle m (getLast_mem_of_some _ m hl)
        have h3 : m ≠ entryId e := by
          intro hm
          rw [hl, hm] at hlast
          exact hlast rfl
        omega
  · intro u
    split
    · rename_i hlast
      constructor
      · intro hu
        obtain ⟨e', he', hk', hid⟩ := (hmem u).1 hu
        exact ⟨e', List.mem_append_left _ he', hk', hid⟩
      · rintro ⟨e', he', hk', hid⟩
        rcases List.mem_append.1 he' with h | h
        · exact (hmem u).2 ⟨e', h, hk', hid⟩
        · simp only [List.mem_singleton] at h
          subst h
          rw [← hid]
          exact getLast_mem_of_some _ _ hlast
    · constructor
      · intro hu
        rcases List.mem_append.1 hu with h | h
        · obtain ⟨e', he', hk', hid⟩ := (hmem u).1 h
          exact ⟨e', List.mem_append_left _ he', hk', hid⟩
        · simp only [List.mem_singleton] at h
          exact ⟨e, by simp, rfl, h.symm⟩
      · rintro ⟨e', he', hk', hid⟩
        rcases List.mem_append.1 he' with h | h
        · exact List.mem_append_left _ ((hmem u).2 ⟨e', h, hk', hid⟩)
        · simp only [List.mem_singleton] at h
          subst h
          rw [← hid]
          simp
  · right; exact ⟨e, by simp, rfl⟩
  · intro e' he'
    rcases List.mem_append.1 he' with h | h
    · exact hmax e' h
    · simp only [List.mem_singleton] at h
      rw [h, bytesLess_irrefl]
  · intro g hg
    obtain ⟨h1, h2, h3⟩ := hem g hg
    refine ⟨h1, ?_, h3⟩
    intro u
    rw [h2 u]
    constructor
    · rintro ⟨e', he', hk', hid⟩
      exact ⟨e', List.mem_append_left _ he', hk', hid⟩
    · rintro ⟨e', he', hk', hid⟩
      rcases List.mem_append.1 he' with h | h
      · exact ⟨e', h, hk', hid⟩
      · simp only [List.mem_singleton] at h
        subst h
        rw [hk', bytesLess_irrefl] at h3
        cases h3
  · intro e' he'
    rcases List.mem_append.1 he' with h | h
    · exact hcov e' h
    · simp only [List.mem_singleton] at h
      left; rw [h]

theorem builderInv_new_key (done : List MapEntry) (st : toListState) (e e0 : MapEntry)
    (hinv : BuilderInv done st) (he0 : e0 ∈ done) (hk0 : e0.Key = st.kvb.currentKey)
    (hne : e.Key ≠ st.kvb.currentKey) (hk : e.Key ≠ none)
    (hdk : ∀ e' ∈ done, e'.Key ≠ none) (hs : ∀ e' ∈ done, lessById e e' = false) :
    BuilderInv (done ++ [e]) (toListEntry st e) := by
  obtain ⟨hpw, hmem, _, hmax, hem, hkeys, hcov⟩ := hinv
  have hcur : st.kvb.currentKey ≠ none := by rw [← hk0]; exact hdk e0 he0
  have hbe : bytesEqual e.Key st.kvb.currentKey = false := by
    cases h : bytesEqual e.Key st.kvb.currentKey with
    | false => rfl
    | true => exact absurd ((bytesEqual_iff_of_ne_none hk hcur).1 h) hne
  have hu : st.kvb.uids ≠ [] := by
    intro h
    have := (hmem (entryId e0)).2 ⟨e0, he0, hk0, rfl⟩
    rw [h] at this
    simp at this
  have hlt : bytesLess (bytesOf st.kvb.currentKey) (bytesOf e.Key) = true := by
    have h1 := ((lessById_false_iff e e0).1 (hs e0 he0)).1
    rw [hk0] at h1
    cases h2 : bytesLess (bytesOf st.kvb.currentKey) (bytesOf e.Key) with
    | true => rfl
    | false =>
      exfalso
      have hb := bytesLess_connex _ _ h1 h2
      exact absurd ((bytesEqual_iff_of_ne_none hk hcur).1 (by simp [bytesEqual, hb])) hne
  have hbelow : ∀ e' ∈ done, e'.Key ≠ e.Key := by
    intro e' he' hkk
    have := hmax e' he'
    rw [hkk, hlt] at this
    cases this
  obtain ⟨he, hu'⟩ := toListEntry_new_key st e hbe hcur hu
  have hck := toListEntry_currentKey st e
  unfold BuilderInv
  rw [hck, he, hu']
  refine ⟨List.pairwise_singleton _ _, ?_, ?_, ?_, ?_, ?_, ?_⟩
  · intro u
    simp only [List.mem_singleton]
    constructor
    · intro h; exact ⟨e, by simp, rfl, h.symm⟩
    · rintro ⟨e', he', hk', hid⟩
      rcases List.mem_append.1 he' with h | h
      · exact absurd hk' (hbelow e' h)
      · simp only [List.mem_singleton] at h
        rw [← hid, h]
  · right; exact ⟨e, by simp, rfl⟩
  · intro e' he'
    rcases List.mem_append.1 he' with h | h
    · cases h2 : bytesLess (bytesOf e.Key) (bytesOf e'.Key) with
      | false => rfl
      | true =>
        have := bytesLess_trans _ _ _ hlt h2
        rw [hmax e' h] at this
        cases this
    · simp only [List.mem_singleton] at h
      rw [h, bytesLess_irrefl]
  · intro g hg
    rcases List.mem_append.1 hg with h | h
    · obtain ⟨h1, h2, h3⟩ := hem g h
      have h4 := bytesLess_trans _ _ _ h3 hlt
      refine ⟨h1, ?_, h4⟩
      intro u
      rw [h2 u]
      constructor
      · rintro ⟨e', he', hk', hid⟩
        exact ⟨e', List.mem_append_left _ he', hk', hid⟩
      · rintro ⟨e', he', hk', hid⟩
        rcases List.mem_append.1 he' with h' | h'
        · exact ⟨e', h', hk', hid⟩
        · simp only [List.mem_singleton] at h'
          subst h'
          rw [hk', bytesLess_irrefl] at h4
          cases h4
    · simp only [List.mem_singleton] at h
      subst h
      refine ⟨hpw, ?_, hlt⟩
      intro u
      show u ∈ st.kvb.uids ↔ ∃ e' ∈ done ++ [e], e'.Key = st.kvb.currentKey ∧ entryId e' = u
      rw [hmem u]
      constructor
      · rintro ⟨e', he', hk', hid⟩
        exact ⟨e', List.mem_append_left _ he', hk', hid⟩
      · rintro ⟨e', he', hk', hid⟩
        rcases List.mem_append.1 he' with h' | h'
        · exact ⟨e', h', hk', hid⟩
        · simp only [List.mem_singleton] at h'
          subst h'
          exact absurd hk' hne
  · rw [List.map_append, List.pairwise_append]
    refine ⟨hkeys, by simp, ?_⟩
    intro a ha b hb
    simp only [List.map_cons, List.map_nil, List.mem_singleton] at hb
    subst hb
    obtain ⟨g, hg, rfl⟩ := List.mem_map.1 ha
    exact (hem g hg).2.2
  · intro e' he'
    rcases List.mem_append.1 he' with h | h
    · right
      rw [List.map_append]
      rcases hcov e' h with h1 | h1
      · apply List.mem_append_right
        simp [h1]
      · exact List.mem_append_left _ h1
    · simp only [List.mem_singleton] at h
      left; rw [h]

theorem builderInv_step (done : List MapEntry) (st : toListState) (e : MapEntry)
    (hinv : BuilderInv done st) (hk : e.Key ≠ none)
    (hdk : ∀ e' ∈ done, e'.Key ≠ none) (hs : ∀ e' ∈ done, lessById e e' = false) :
    BuilderInv (done ++ [e]) (toListEntry st e) := by
  rcases hinv.2.2.1 with ⟨hd, hnone⟩ | ⟨e0, he0, hk0⟩
  · subst hd
    exact builderInv_first st e hinv hnone
  · by_cases heq : e.Key = st.kvb.currentKey
    · exact builderInv_same_key done st e hinv heq hs
    · exact builderInv_new_key done st e e0 hinv he0 hk0 heq hk hdk hs

theorem builderInv_foldl (l : List MapEntry) :
    ∀ (done : List MapEntry) (st : toListState), BuilderInv done st →
      (∀ e ∈ done ++ l, e.Key ≠ none) →
      (done ++ l).Pairwise (fun a b => lessById b a = false) →
      BuilderInv (done ++ l) (l.foldl toListEntry st) := by
  induction l with
  | nil => intro done st h _ _; simpa using h
  | cons e rest ih =>
    intro done st hinv hkeys hsorted
    have hsplit : done ++ e :: rest = (done ++ [e]) ++ rest := by simp
    rw [hsplit] at hkeys hsorted ⊢
    have hstep : BuilderInv (done ++ [e]) (toListEntry st e) := by
      apply builderInv_step done st e hinv
      · exact hkeys e (by simp)
      · intro e' he'; exact hkeys e' (by simp [he'])
      · intro e' he'
        have h1 := (List.pairwise_append.1 hsorted).1
        exact (List.pairwise_append.1 h1).2.2 e' he' e (by simp)
    exact ih (done ++ [e]) (toListEntry st e) hstep hkeys hsorted

theorem builderInv_initial : BuilderInv [] initialToListState := by
  unfold BuilderInv initialToListState
  simp

theorem foldl_toListEntry_finish (l : List MapEntry) :
    ∀ st : toListState, (l.foldl toListEntry st).kvb.finish = st.kvb.finish := by
  induction l with
  | nil => intro st; rfl
  | cons e rest ih =>
    intro st
    rw [List.foldl_cons, ih, toListEntry_finish]

theorem toList_of_not_finish (st : toListState) (l : List MapEntry)
    (h : st.kvb.finish = false) : toList st l = l.foldl toListEntry st := by
  unfold toList
  simp [foldl_toListEntry_finish, h]

theorem foldl_toList_flatten (batches : List (List MapEntry)) :
    ∀ st : toListState, st.kvb.finish = false →
      batches.foldl toList st = batches.flatten.foldl toListEntry st := by
  induction batches with
  | nil => intro st _; rfl
  | cons b rest ih =>
    intro st h
    rw [List.foldl_cons, toList_of_not_finish st b h, List.flatten_cons, List.foldl_append]
    apply ih
    rw [foldl_toListEntry_finish, h]

/-- The groups `encodeAndWrite` emits: those emitted while the stream is read,
then the uids of the last key, if any. -/
theorem encodeAndWrite_emitted (batches : List (List MapEntry)) :
    (encodeAndWrite batches).emitted =
      (batches.flatten.foldl toListEntry initialToListState).emitted ++
        if (batches.flatten.foldl toListEntry initialToListState).kvb.uids = [] then []
        else
          [{ key := (batches.flatten.foldl toListEntry initialToListState).kvb.currentKey
             uids := (batches.flatten.foldl toListEntry initialToListState).kvb.uids
             postings := (batches.flatten.foldl toListEntry initialToListState).kvb.postings }] := by
  unfold encodeAndWrite
  rw [foldl_toList_flatten batches initialToListState rfl]
  generalize batches.flatten.foldl toListEntry initialToListState = st
  simp only [toList, List.foldl_nil, if_true, appendToList]
  by_cases hu : st.kvb.uids = []
  · simp [hu]
  · have : ¬ st.kvb.uids.length = 0 := fun h => hu (List.length_eq_zero.1 h)
    simp [hu, this]

/-- The groups emitted for a stream with non-nil keys that is non-decreasing by
key and id. -/
theorem encodeAndWrite_groups (batches : List (List MapEntry))
    (hkeys : ∀ e ∈ batches.flatten, e.Key ≠ none)
    (hsorted : nonDecreasingBy lessById batches.flatten = true) :
    (∀ g ∈ (encodeAndWrite batches).emitted,
        g.uids.Pairwise (fun a b => a < b) ∧
          ∀ u, u ∈ g.uids ↔ ∃ e ∈ batches.flatten, e.Key = g.key ∧ entryId e = u) ∧
      ((encodeAndWrite batches).emitted.map (fun g => g.key)).Pairwise
        (fun a b => bytesLess (bytesOf a) (bytesOf b) = true) ∧
      ∀ e ∈ batches.flatten, e.Key ∈ (encodeAndWrite batches).emitted.map (fun g => g.key) := by
  have hpw := pairwise_of_nonDecreasingBy lessById lessById_false_trans _ hsorted
  have hinv := builderInv_foldl batches.flatten [] initialToListState builderInv_initial
    (by simpa using hkeys) (by simpa using hpw)
  rw [List.nil_append] at hinv
  rw [encodeAndWrite_emitted]
  generalize batches.flatten.foldl toListEntry initialToListState = st at hinv
  obtain ⟨h1, h2, h3, _, h5, h6, h7⟩ := hinv
  by_cases hu : st.kvb.uids = []
  · simp only [hu, if_true, List.append_nil]
    refine ⟨fun g hg => ⟨(h5 g hg).1, (h5 g hg).2.1⟩, h6, ?_⟩
    intro e he
    rcases h7 e he with h | h
    · exfalso
      have := (h2 (entryId e)).2 ⟨e, he, h, rfl⟩
      rw [hu] at this
      simp at this
    · exact h
  · simp only [hu, if_false]
    refine ⟨?_, ?_, ?_⟩
    · intro g hg
      rcases List.mem_append.1 hg with h | h
      · exact ⟨(h5 g h).1, (h5 g h).2.1⟩
      · simp only [List.mem_singleton] at h
        subst h
        exact ⟨h1, h2⟩
    · rw [List.map_append, List.pairwise_append]
      refine ⟨h6, by simp, ?_⟩
      intro a ha b hb
      simp only [List.map_cons, List.map_nil, List.mem_singleton] at hb
      subst hb
      obtain ⟨g, hg, rfl⟩ := List.mem_map.1 ha
      exact (h5 g hg).2.2
    · intro e he
      rw [List.map_append]
      rcases h7 e he with h | h
      · apply List.mem_append_right
        simp [h]
      · exact List.mem_append_left _ h

theorem nodup_of_pairwise_bytesLess (l : List (Option (List Nat)))
    (h : l.Pairwise (fun a b => bytesLess (bytesOf a) (bytesOf b) = true)) : l.Nodup := by
  refine List.Pairwise.imp ?_ h
  intro a b hab heq
  rw [heq, bytesLess_irrefl] at hab
  cases hab

theorem nodup_of_pairwise_lt (l : List Nat) (h : l.Pairwise (fun a b => a < b)) : l.Nodup := by
  refine List.Pairwise.imp ?_ h
  intro a b hab heq
  omega

/-! ### Lemmas on the heap functions -/

theorem replace_perm {α : Type} (x b : α) :
    ∀ (xs : List α) (k : Nat), xs[k]? = some b → (b :: xs.set k x).Perm (x :: xs) := by
  intro xs
  induction xs with
  | nil => intro k h; simp at h
  | cons y ys ih =>
    intro k h
    cases k with
    | zero =>
      simp only [List.getElem?_cons_zero, Option.some.injEq] at h
      subst h
      simp only [List.set_cons_zero]
      exact List.Perm.swap x y ys
    | succ k' =>
      simp only [List.getElem?_cons_succ] at h
      simp only [List.set_cons_succ]
      exact (List.Perm.swap y b _).trans (((ih k' h).cons y).trans (List.Perm.swap x y ys))

theorem swap_perm {α : Type} :
    ∀ (l : List α) (i j : Nat) (a b : α), l[i]? = some a → l[j]? = some b →
      ((l.set i b).set j a).Perm l := by
  intro l
  induction l with
  | nil => intro i j a b h; simp at h
  | cons x xs ih =>
    intro i j a b hi hj
    cases i with
    | zero =>
      simp only [List.getElem?_cons_zero, Option.some.injEq] at hi
      subst hi
      cases j with
      | zero =>
        simp only [List.getElem?_cons_zero, Option.some.injEq] at hj
        subst hj
        simp
      | succ j' =>
        simp only [List.getElem?_cons_succ] at hj
        simp only [List.set_cons_zero, List.set_cons_succ]
        exact replace_perm x b xs j' hj
    | succ i' =>
      simp only [List.getElem?_cons_succ] at hi
      cases j with
      | zero =>
        simp only [List.getElem?_cons_zero, Option.some.injEq] at hj
        subst hj
        simp only [List.set_cons_succ, List.set_cons_zero]
        exact replace_perm x a xs i' hi
      | succ j' =>
        simp only [List.getElem?_cons_succ] at hj
        simp only [List.set_cons_succ]
        exact (ih i' j' a b hi hj).cons x

theorem heapSwap_spec {α : Type} (l : List α) (i j : Nat) (a b : α)
    (hi : l[i]? = some a) (hj : l[j]? = some b) :
    ∃ l', heapSwap l i j = some l' ∧ l'.length = l.length ∧ l'.Perm l ∧
      l'[i]? = some b ∧ l'[j]? = some a ∧ ∀ k, k ≠ i → k ≠ j → l'[k]? = l[k]? := by
  have hil : i < l.length := by
    by_contra h
    rw [List.getElem?_eq_none (by omega)] at hi
    cases hi
  have hjl : j < l.length := by
    by_contra h
    rw [List.getElem?_eq_none (by omega)] at hj
    cases hj
  refine ⟨(l.set i b).set j a, by simp [heapSwap, hi, hj], by simp, swap_perm l i j a b hi hj,
    ?_, ?_, ?_⟩
  · by_cases hij : j = i
    · subst hij
      rw [hi] at hj
      cases hj
      rw [List.getElem?_set_self (by simpa using hil)]
    · rw [List.getElem?_set_ne hij, List.getElem?_set_self hil]
  · rw [List.getElem?_set_self (by simpa using hjl)]
  · intro k hki hkj
    rw [List.getElem?_set_ne (fun h => hkj h.symm), List.getElem?_set_ne (fun h => hki h.symm)]

theorem getElem?_some_of_lt {α : Type} (l : List α) (k : Nat) (h : k < l.length) :
    ∃ a, l[k]? = some a :=
  ⟨l[k], List.getElem?_eq_getElem h⟩

theorem lt_length_of_getElem? {α : Type} {l : List α} {k : Nat} {a : α}
    (h : l[k]? = some a) : k < l.length := by
  by_contra hc
  rw [List.getElem?_eq_none (by omega)] at h
  cases h

theorem strictWeak_irrefl {α : Type} {lt : α → α → Bool} (hlt : StrictWeak lt) (a : α) :
    lt a a = false := by
  cases h : lt a a with
  | false => rfl
  | true => have := hlt.1 a a h; rw [h] at this; cases this

theorem heapLess_of_get {α : Type} (lt : α → α → Bool) (l : List α) (i j : Nat) (a b : α)
    (hi : l[i]? = some a) (hj : l[j]? = some b) : heapLess lt l i j = some (lt a b) := by
  simp [heapLess, hi, hj]

/-- The child `heap.down` picks is the smaller of the children of `i` below
`n`. -/
theorem pick_child {α : Type} (lt : α → α → Bool) (hlt : StrictWeak lt) (l : List α)
    (i n : Nat) (hn : n ≤ l.length) (h1 : 2 * i + 1 < n) :
    ∃ (right : Bool) (aj : α),
      (if 2 * i + 1 + 1 < n then heapLess lt l (2 * i + 1 + 1) (2 * i + 1) else some false) =
          some right ∧
        (if right = true then 2 * i + 1 + 1 else 2 * i + 1) < n ∧
        l[if right = true then 2 * i + 1 + 1 else 2 * i + 1]? = some aj ∧
        ∀ c ac, c < n → 0 < c → (c - 1) / 2 = i → l[c]? = some ac → lt ac aj = false := by
  obtain ⟨a1, ha1⟩ := getElem?_some_of_lt l (2 * i + 1) (by omega)
  by_cases h2 : 2 * i + 1 + 1 < n
  · obtain ⟨a2, ha2⟩ := getElem?_some_of_lt l (2 * i + 1 + 1) (by omega)
    cases hr : lt a2 a1 with
    | true =>
      refine ⟨true, a2, by simp [h2, heapLess_of_get lt l _ _ a2 a1 ha2 ha1, hr], by simpa using h2,
        by simpa using ha2, ?_⟩
      intro c ac hc hc0 hpar hac
      have hcases : c = 2 * i + 1 ∨ c = 2 * i + 1 + 1 := by omega
      rcases hcases with rfl | rfl
      · rw [ha1] at hac; cases hac
        exact hlt.1 _ _ hr
      · rw [ha2] at hac; cases hac
        exact strictWeak_irrefl hlt _
    | false =>
      refine ⟨false, a1, by simp [h2, heapLess_of_get lt l _ _ a2 a1 ha2 ha1, hr], by simpa using h1,
        by simpa using ha1, ?_⟩
      intro c ac hc hc0 hpar hac
      have hcases : c = 2 * i + 1 ∨ c = 2 * i + 1 + 1 := by omega
      rcases hcases with rfl | rfl
      · rw [ha1] at hac; cases hac
        exact strictWeak_irrefl hlt _
      · rw [ha2] at hac; cases hac
        exact hr
  · refine ⟨false, a1, by simp [h2], by simpa using h1, by simpa using ha1, ?_⟩
    intro c ac hc hc0 hpar hac
    have hcases : c = 2 * i + 1 := by omega
    subst hcases
    rw [ha1] at hac; cases hac
    exact strictWeak_irrefl hlt _

theorem heapDownLoop_spec {α : Type} (lt : α → α → Bool) (hlt : StrictWeak lt) :
    ∀ (fuel : Nat) (l : List α) (i n : Nat), n ≤ l.length → 0 < fuel → n ≤ i + fuel →
      DownPre lt l n i →
      ∃ l' i', heapDownLoop lt fuel l i n = some (l', i') ∧ l'.length = l.length ∧
        l'.Perm l ∧ (∀ k, n ≤ k → l'[k]? = l[k]?) ∧ HeapOn lt l' n := by
  intro fuel
  induction fuel with
  | zero => intro l i n _ h0; omega
  | succ fuel ih =>
    intro l i n hn _ hfuel hpre
    by_cases h1 : 2 * i + 1 ≥ n
    · refine ⟨l, i, by simp [heapDownLoop, h1], rfl, List.Perm.refl _, fun _ _ => rfl, ?_⟩
      intro k a b hk0 hkn ha hb
      by_cases hp : (k - 1) / 2 = i
      · omega
      · exact hpre.1 k a b hk0 hkn hp ha hb
    · have h1' : 2 * i + 1 < n := by omega
      obtain ⟨right, aj, hpick, hjn, haj, hmin⟩ := pick_child lt hlt l i n hn h1'
      obtain ⟨ai, hai⟩ := getElem?_some_of_lt l i (by omega)
      have hless := heapLess_of_get lt l _ i aj ai haj hai
      cases hcmp : lt aj ai with
      | false =>
        refine ⟨l, i, ?_, rfl, List.Perm.refl _, fun _ _ => rfl, ?_⟩
        · simp only [heapDownLoop, ge_iff_le, h1, if_false, hpick, hless, hcmp]
        · intro k a b hk0 hkn ha hb
          by_cases hp : (k - 1) / 2 = i
          · rw [hp, hai] at hb
            cases hb
            exact hlt.2 _ _ _ hcmp (hmin k a hkn hk0 hp ha)
          · exact hpre.1 k a b hk0 hkn hp ha hb
      | true =>
        obtain ⟨l', hswap, hlen, hperm, hgi, hgj, hgo⟩ := heapSwap_spec l i _ ai aj hai haj
        have hj_par : ((if right = true then 2 * i + 1 + 1 else 2 * i + 1) - 1) / 2 = i := by
          split <;> omega
        have hj_gt : i < (if right = true then 2 * i + 1 + 1 else 2 * i + 1) := by
          split <;> omega
        have hpre' : DownPre lt l' n (if right = true then 2 * i + 1 + 1 else 2 * i + 1) := by
          constructor
          · intro k a b hk0 hkn hp ha hb
            by_cases hpi : (k - 1) / 2 = i
            · rw [hpi, hgi] at hb
              cases hb
              by_cases hkj : k = (if right = true then 2 * i + 1 + 1 else 2 * i + 1)
              · rw [hkj, hgj] at ha
                cases ha
                exact hlt.1 _ _ hcmp
              · rw [hgo k (by omega) hkj] at ha
                exact hmin k a hkn hk0 hpi ha
            · have hpj : (k - 1) / 2 ≠ (if right = true then 2 * i + 1 + 1 else 2 * i + 1) := hp
              rw [hgo _ hpi hpj] at hb
              by_cases hki : k = i
              · rw [hki, hgi] at ha
                cases ha
                rw [hki] at hb
                exact hpre.2 _ _ _ (by omega) (by omega) hjn hj_par haj hb
              · have hkj : k ≠ (if right = true then 2 * i + 1 + 1 else 2 * i + 1) := by
                  intro h
                  rw [h] at hpi
                  exact hpi hj_par
                rw [hgo k hki hkj] at ha
                exact hpre.1 k a b hk0 hkn hpi ha hb
          · intro c a b _ hc0 hcn hcp ha hb
            rw [hj_par, hgi] at hb
            cases hb
            have hci : c ≠ i := by omega
            have hcj : c ≠ (if right = true then 2 * i + 1 + 1 else 2 * i + 1) := by omega
            rw [hgo c hci hcj] at ha
            exact hpre.1 c _ _ hc0 hcn (by rw [hcp]; omega) ha (by rw [hcp]; exact haj)
        obtain ⟨l'', i'', hrec, hlen', hperm', hout, hheap⟩ :=
          ih l' _ n (by omega) (by omega) (by omega) hpre'
        refine ⟨l'', i'', ?_, by omega, hperm'.trans hperm, ?_, hheap⟩
        · simp only [heapDownLoop, ge_iff_le, h1, if_false, hpick, hless, hcmp, hswap]
          exact hrec
        · intro k hk
          rw [hout k hk, hgo k (by omega) (by omega)]

theorem heapUpLoop_spec {α : Type} (lt : α → α → Bool) (hlt : StrictWeak lt) :
    ∀ (fuel : Nat) (l : List α) (j : Nat), j < l.length → j < fuel → UpPre lt l j →
      ∃ l', heapUpLoop lt fuel l j = some l' ∧ l'.length = l.length ∧ l'.Perm l ∧
        HeapOn lt l' l.length := by
  intro fuel
  induction fuel with
  | zero => intro l j _ h0; omega
  | succ fuel ih =>
    intro l j hj hfuel hpre
    by_cases h0 : (j - 1) / 2 = j
    · refine ⟨l, by simp [heapUpLoop, h0], rfl, List.Perm.refl _, ?_⟩
      intro k a b hk0 _ ha hb
      exact hpre.1 k a b hk0 (by omega) ha hb
    · have hj0 : 0 < j := by omega
      obtain ⟨aj, haj⟩ := getElem?_some_of_lt l j hj
      obtain ⟨ai, hai⟩ := getElem?_some_of_lt l ((j - 1) / 2) (by omega)
      have hless := heapLess_of_get lt l j _ aj ai haj hai
      cases hcmp : lt aj ai with
      | false =>
        refine ⟨l, by simp [heapUpLoop, h0, hless, hcmp], rfl, List.Perm.refl _, ?_⟩
        intro k a b hk0 _ ha hb
        by_cases hkj : k = j
        · subst hkj
          rw [haj] at ha
          rw [hai] at hb
          cases ha
          cases hb
          exact hcmp
        · exact hpre.1 k a b hk0 hkj ha hb
      | true =>
        obtain ⟨l', hswap, hlen, hperm, hgi, hgj, hgo⟩ := heapSwap_spec l _ j ai aj hai haj
        have hpre' : UpPre lt l' ((j - 1) / 2) := by
          constructor
          · intro k a b hk0 hki ha hb
            by_cases hkj : k = j
            · subst hkj
              rw [hgj] at ha
              rw [hgi] at hb
              cases ha
              cases hb
              exact hlt.1 _ _ hcmp
            · rw [hgo k hki hkj] at ha
              by_cases hpi : (k - 1) / 2 = (j - 1) / 2
              · rw [hpi, hgi] at hb
                cases hb
                -- a sibling of `j`: it is not below the old parent, which is above `aj`
                have h1 := hpre.1 k a ai hk0 hkj ha (by rw [hpi]; exact hai)
                exact hlt.2 _ _ _ (hlt.1 _ _ hcmp) h1
              · by_cases hpj : (k - 1) / 2 = j
                · rw [hpj, hgj] at hb
                  cases hb
                  exact hpre.2 k a _ hj0 hk0 hpj ha hai
                · rw [hgo _ hpi hpj] at hb
                  exact hpre.1 k a b hk0 hkj ha hb
          · intro c a b hi0 hc0 hcp ha hb
            have hgne : ((j - 1) / 2 - 1) / 2 ≠ (j - 1) / 2 := by omega
            have hgnj : ((j - 1) / 2 - 1) / 2 ≠ j := by omega
            rw [hgo _ hgne hgnj] at hb
            have hpar := hpre.1 ((j - 1) / 2) ai b hi0 (by omega) hai hb
            by_cases hcj : c = j
            · subst hcj
              rw [hgj] at ha
              cases ha
              exact hpar
            · rw [hgo c (by omega) hcj] at ha
              have h1 := hpre.1 c a ai hc0 hcj ha (by rw [hcp]; exact hai)
              exact hlt.2 _ _ _ hpar h1
        obtain ⟨l'', hrec, hlen', hperm', hheap⟩ :=
          ih l' _ (by omega) (by omega) hpre'
        refine ⟨l'', ?_, by omega, hperm'.trans hperm, ?_⟩
        · simp only [heapUpLoop, h0, if_false, hless, hcmp, hswap]
          exact hrec
        · rw [← hlen]
          exact hheap

theorem heapOn_root_min {α : Type} (lt : α → α → Bool) (hlt : StrictWeak lt) (l : List α)
    (n : Nat) (hn : n ≤ l.length) (hheap : HeapOn lt l n) (r : α) (hr : l[0]? = some r) :
    ∀ k a, k < n → l[k]? = some a → lt a r = false := by
  intro k
  induction k using Nat.strong_induction_on with
  | _ k ih =>
    intro a hk ha
    by_cases hk0 : k = 0
    · subst hk0
      rw [hr] at ha
      cases ha
      exact strictWeak_irrefl hlt _
    · obtain ⟨b, hb⟩ := getElem?_some_of_lt l ((k - 1) / 2) (by omega)
      have h1 := ih ((k - 1) / 2) (by omega) b (by omega) hb
      have h2 := hheap k a b (by omega) hk ha hb
      exact hlt.2 _ _ _ h1 h2

theorem heapUp_zero {α : Type} (lt : α → α → Bool) (l : List α) : heapUp lt l 0 = some l := by
  simp [heapUp, heapUpLoop]

theorem heapPush_spec {α : Type} (lt : α → α → Bool) (hlt : StrictWeak lt) (l : List α) (x : α)
    (hheap : HeapOn lt l l.length) :
    ∃ l', heapPush lt l x = some l' ∧ l'.Perm (x :: l) ∧ HeapOn lt l' l'.length := by
  have hpre : UpPre lt (l ++ [x]) l.length := by
    constructor
    · intro k a b hk0 hkj ha hb
      have hk : k < l.length := by
        have := lt_length_of_getElem? ha
        simp only [List.length_append, List.length_singleton] at this
        omega
      rw [List.getElem?_append_left hk] at ha
      rw [List.getElem?_append_left (by omega)] at hb
      exact hheap k a b hk0 hk ha hb
    · intro c a b _ hc0 hcp ha _
      have := lt_length_of_getElem? ha
      simp only [List.length_append, List.length_singleton] at this
      omega
  obtain ⟨l', h1, h2, h3, h4⟩ :=
    heapUpLoop_spec lt hlt (l.length + 1) (l ++ [x]) l.length (by simp) (by omega) hpre
  refine ⟨l', ?_, h3.trans (by simp), ?_⟩
  · simpa [heapPush, heapUp] using h1
  · rw [h2]; exact h4

theorem heapFix_root_spec {α : Type} (lt : α → α → Bool) (hlt : StrictWeak lt) (l : List α)
    (hpre : DownPre lt l l.length 0) :
    ∃ l', heapFix lt l 0 = some l' ∧ l'.Perm l ∧ HeapOn lt l' l'.length := by
  obtain ⟨l', i', h1, h2, h3, _, h5⟩ :=
    heapDownLoop_spec lt hlt (l.length + 1) l 0 l.length (le_refl _) (by omega) (by omega) hpre
  refine ⟨l', ?_, h3, by rw [h2]; exact h5⟩
  simp only [heapFix, heapDown, h1]
  split
  · exact heapUp_zero lt l'
  · rfl

theorem downPre_set_root {α : Type} (lt : α → α → Bool) (l : List α) (x : α)
    (hheap : HeapOn lt l l.length) : DownPre lt (l.set 0 x) (l.set 0 x).length 0 := by
  constructor
  · intro k a b hk0 hkn hp ha hb
    rw [List.getElem?_set_ne (by omega)] at ha
    rw [List.getElem?_set_ne (by omega)] at hb
    exact hheap k a b hk0 (by simpa using hkn) ha hb
  · intro c a b h0
    omega

theorem heapPop_spec {α : Type} (lt : α → α → Bool) (hlt : StrictWeak lt) (l : List α) (r : α)
    (hr : l[0]? = some r) (hheap : HeapOn lt l l.length) :
    ∃ l', heapPop lt l = some (l', r) ∧ (r :: l').Perm l ∧ HeapOn lt l' l'.length := by
  have hlen : 0 < l.length := lt_length_of_getElem? hr
  obtain ⟨an, han⟩ := getElem?_some_of_lt l (l.length - 1) (by omega)
  obtain ⟨sw, hswap, hswlen, hswperm, hsw0, hswn, hswo⟩ :=
    heapSwap_spec l 0 (l.length - 1) r an hr han
  have hpre : DownPre lt sw (l.length - 1) 0 := by
    constructor
    · intro k a b hk0 hkn hp ha hb
      rw [hswo k (by omega) (by omega)] at ha
      rw [hswo _ hp (by omega)] at hb
      exact hheap k a b hk0 (by omega) ha hb
    · intro c a b h0
      omega
  obtain ⟨l', i', h1, h2, h3, h4, h5⟩ :=
    heapDownLoop_spec lt hlt (l.length - 1 + 1) sw 0 (l.length - 1) (by omega) (by omega)
      (by omega) hpre
  have hlast : l'.getLast? = some r := by
    rw [List.getLast?_eq_getElem?, h2, hswlen, h4 _ (le_refl _), hswn]
  have hsplit : l'.dropLast ++ [r] = l' := List.dropLast_append_getLast? r hlast
  refine ⟨l'.dropLast, ?_, ?_, ?_⟩
  · simp only [heapPop, hswap, heapDown, h1, hlast]
  · have : (r :: l'.dropLast).Perm (l'.dropLast ++ [r]) := by
      simpa using (List.perm_append_comm : ([r] ++ l'.dropLast).Perm (l'.dropLast ++ [r]))
    rw [hsplit] at this
    exact this.trans (h3.trans hswperm)
  · intro k a b hk0 hkn ha hb
    have hdl : l'.dropLast.length = l.length - 1 := by
      simp only [List.length_dropLast, h2, hswlen]
    rw [hdl] at hkn
    have hget : ∀ m, m < l.length - 1 → l'.dropLast[m]? = l'[m]? := by
      intro m hm
      conv_rhs => rw [← hsplit]
      rw [List.getElem?_append_left (by omega)]
    rw [hget k hkn] at ha
    rw [hget _ (by omega)] at hb
    exact h5 k a b hk0 hkn ha hb

/-! ### Lemmas on `reduce` -/

theorem strictWeak_nodeLess (lt : MapEntry → MapEntry → Bool) (hlt : StrictWeak lt) :
    StrictWeak (nodeLess lt) :=
  ⟨fun a b h => hlt.1 a.mapEntry b.mapEntry h,
    fun a b c h1 h2 => hlt.2 a.mapEntry b.mapEntry c.mapEntry h1 h2⟩

theorem pending_cons (nd : heapNode) (nodes : List heapNode) :
    pending (nd :: nodes) = nd.mapEntry :: nd.itr ++ pending nodes := by
  simp [pending, nodeEntries]

theorem pending_perm {a b : List heapNode} (h : a.Perm b) : (pending a).Perm (pending b) :=
  List.Perm.flatMap_right nodeEntries h

theorem reduceEmit_output (st : reduceState) (me : MapEntry) (nodes' : List heapNode) :
    (reduceEmit st me nodes').output = st.output ++ [me] := by
  simp only [reduceEmit, reduceState.output]
  cases decide (st.batch.length ≥ batchSize) <;> simp

theorem reduceEmit_nodes (st : reduceState) (me : MapEntry) (nodes' : List heapNode) :
    (reduceEmit st me nodes').nodes = nodes' := rfl

/-- One iteration of the loop of `reduce` on a non-empty heap: it returns, keeps
the invariant, and takes one entry from the pending ones. -/
theorem reduceStep_spec (lt : MapEntry → MapEntry → Bool) (hlt : StrictWeak lt)
    (all : List MapEntry) (st : reduceState) (hne : st.nodes ≠ [])
    (hinv : ReduceInv lt all st) :
    ∃ st', reduceStep lt st = some st' ∧ ReduceInv lt all st' ∧
      (pending st'.nodes).length + 1 = (pending st.nodes).length := by
  obtain ⟨hheap, hsorted, hout, hbelow, hperm⟩ := hinv
  cases hnodes : st.nodes with
  | nil => exact absurd hnodes hne
  | cons node0 tl =>
    rw [hnodes] at hheap hsorted hbelow hperm
    have h0 : (node0 :: tl)[0]? = some node0 := by simp
    have hroot : ∀ nd ∈ node0 :: tl, lt nd.mapEntry node0.mapEntry = false := by
      intro nd hnd
      obtain ⟨k, hk⟩ := List.getElem?_of_mem hnd
      exact heapOn_root_min (nodeLess lt) (strictWeak_nodeLess lt hlt) (node0 :: tl) _
        (le_refl _) hheap node0 h0 k nd (lt_length_of_getElem? hk) hk
    have hlast : ∀ x ∈ st.output, lt node0.mapEntry x = false :=
      fun x hx => hbelow x hx node0 (by simp)
    have hout' : (st.output ++ [node0.mapEntry]).Pairwise (fun a b => lt b a = false) := by
      rw [List.pairwise_append]
      refine ⟨hout, List.pairwise_singleton _ _, ?_⟩
      intro x hx y hy
      simp only [List.mem_singleton] at hy
      subst hy
      exact hlast x hx
    cases hitr : node0.itr with
    | nil =>
      obtain ⟨nodes', hpop, hpp, hheap'⟩ :=
        heapPop_spec (nodeLess lt) (strictWeak_nodeLess lt hlt) (node0 :: tl) node0 h0 hheap
      have hsub : ∀ nd ∈ nodes', nd ∈ node0 :: tl :=
        fun nd hnd => hpp.subset (List.mem_cons_of_mem _ hnd)
      refine ⟨reduceEmit st node0.mapEntry nodes',
        by simp only [reduceStep, hnodes, hitr, hpop, Option.map_some'], ?_, ?_⟩
      · unfold ReduceInv
        rw [reduceEmit_output, reduceEmit_nodes]
        refine ⟨hheap', fun nd hnd => hsorted nd (hsub nd hnd), hout', ?_, ?_⟩
        · intro x hx nd hnd
          rcases List.mem_append.1 hx with h | h
          · exact hbelow x h nd (hsub nd hnd)
          · simp only [List.mem_singleton] at h
            subst h
            exact hroot nd (hsub nd hnd)
        · refine List.Perm.trans ?_ hperm
          rw [List.append_assoc]
          apply List.Perm.append_left
          have h1 := pending_perm hpp
          rw [pending_cons, hitr] at h1
          simpa using h1
      · rw [reduceEmit_nodes]
        have h1 := (pending_perm hpp).length_eq
        rw [pending_cons, hitr] at h1
        simp only [List.append_nil, List.cons_append, List.nil_append, List.length_cons] at h1
        simpa using h1
    | cons next rest =>
      have hset : (node0 :: tl).set 0 { mapEntry := next, itr := rest } =
          { mapEntry := next, itr := rest } :: tl := rfl
      obtain ⟨nodes', hfix, hfp, hheap'⟩ :=
        heapFix_root_spec (nodeLess lt) (strictWeak_nodeLess lt hlt) _
          (downPre_set_root (nodeLess lt) (node0 :: tl) { mapEntry := next, itr := rest } hheap)
      have hn0 := hsorted node0 (by simp)
      simp only [nodeEntries, hitr] at hn0
      have hnext : lt next node0.mapEntry = false :=
        (List.pairwise_cons.1 hn0).1 next (by simp)
      have hmem : ∀ nd ∈ nodes', nd = { mapEntry := next, itr := rest } ∨ nd ∈ tl := by
        intro nd hnd
        have := hfp.subset hnd
        rw [hset] at this
        exact List.mem_cons.1 this
      refine ⟨reduceEmit st node0.mapEntry nodes',
        by simp only [reduceStep, hnodes, hitr, hfix], ?_, ?_⟩
      · unfold ReduceInv
        rw [reduceEmit_output, reduceEmit_nodes]
        refine ⟨hheap', ?_, hout', ?_, ?_⟩
        · intro nd hnd
          rcases hmem nd hnd with rfl | h
          · exact (List.pairwise_cons.1 hn0).2
          · exact hsorted nd (List.mem_cons_of_mem _ h)
        · intro x hx nd hnd
          rcases List.mem_append.1 hx with h | h
          · rcases hmem nd hnd with rfl | h'
            · exact hlt.2 _ _ _ (hlast x h) hnext
            · exact hbelow x h nd (List.mem_cons_of_mem _ h')
          · simp only [List.mem_singleton] at h
            subst h
            rcases hmem nd hnd with rfl | h'
            · exact hnext
            · exact hroot nd (List.mem_cons_of_mem _ h')
        · refine List.Perm.trans ?_ hperm
          rw [List.append_assoc]
          apply List.Perm.append_left
          have h1 := pending_perm hfp
          rw [hset, pending_cons] at h1
          rw [pending_cons, hitr]
          simpa using h1
      · rw [reduceEmit_nodes]
        have h1 := (pending_perm hfp).length_eq
        rw [hset, pending_cons] at h1
        rw [pending_cons, hitr]
        simp only [List.cons_append, List.length_cons, List.length_append] at h1 ⊢
        omega

theorem nodes_nil_of_pending_nil (nodes : List heapNode) (h : (pending nodes).length = 0) :
    nodes = [] := by
  cases nodes with
  | nil => rfl
  | cons nd tl => rw [pending_cons] at h; simp at h

/-- With as much fuel as there are pending entries the loop of `reduce` runs
until the heap is empty and keeps the invariant. -/
theorem reduceLoop_spec (lt : MapEntry → MapEntry → Bool) (hlt : StrictWeak lt)
    (all : List MapEntry) :
    ∀ (fuel : Nat) (st : reduceState), ReduceInv lt all st →
      (pending st.nodes).length ≤ fuel →
      ∃ st', reduceLoop lt fuel st = some st' ∧ ReduceInv lt all st' ∧ st'.nodes = [] := by
  intro fuel
  induction fuel with
  | zero =>
    intro st hinv hfuel
    have hnil := nodes_nil_of_pending_nil st.nodes (by omega)
    exact ⟨st, by simp [reduceLoop, hnil], hinv, hnil⟩
  | succ fuel ih =>
    intro st hinv hfuel
    by_cases hne : st.nodes = []
    · exact ⟨st, by simp [reduceLoop, hne], hinv, hne⟩
    · obtain ⟨st1, h1, hinv1, hlen⟩ := reduceStep_spec lt hlt all st hne hinv
      obtain ⟨st2, h2, hinv2, hnil⟩ := ih st1 hinv1 (by omega)
      refine ⟨st2, ?_, hinv2, hnil⟩
      have hpos : st.nodes.length > 0 := List.length_pos.2 hne
      simp only [reduceLoop, hpos, if_true, h1]
      exact h2

/-- The first loop of `reduce` builds a heap of the first entries of the
non-empty iterators. -/
theorem reduceSeed_spec (lt : MapEntry → MapEntry → Bool) (hlt : StrictWeak lt) :
    ∀ (itrs : List (List MapEntry)) (nodes : List heapNode),
      HeapOn (nodeLess lt) nodes nodes.length →
      (∀ nd ∈ nodes, (nodeEntries nd).Pairwise (fun a b => lt b a = false)) →
      (∀ itr ∈ itrs, itr.Pairwise (fun a b => lt b a = false)) →
      ∃ nodes', reduceSeed lt nodes itrs = some nodes' ∧
        HeapOn (nodeLess lt) nodes' nodes'.length ∧
        (∀ nd ∈ nodes', (nodeEntries nd).Pairwise (fun a b => lt b a = false)) ∧
        (pending nodes').Perm (pending nodes ++ itrs.flatten) := by
  intro itrs
  induction itrs with
  | nil =>
    intro nodes hheap hsorted _
    exact ⟨nodes, rfl, hheap, hsorted, by simp⟩
  | cons itr rest ih =>
    intro nodes hheap hsorted hitrs
    have hrest : ∀ i ∈ rest, i.Pairwise (fun a b => lt b a = false) :=
      fun i hi => hitrs i (List.mem_cons_of_mem _ hi)
    cases itr with
    | nil =>
      obtain ⟨nodes', h1, h2, h3, h4⟩ := ih nodes hheap hsorted hrest
      exact ⟨nodes', by simpa [reduceSeed] using h1, h2, h3, by simpa using h4⟩
    | cons me tail =>
      obtain ⟨pushed, hpush, hpp, hph⟩ :=
        heapPush_spec (nodeLess lt) (strictWeak_nodeLess lt hlt) nodes
          { mapEntry := me, itr := tail } hheap
      have hps : ∀ nd ∈ pushed, (nodeEntries nd).Pairwise (fun a b => lt b a = false) := by
        intro nd hnd
        rcases List.mem_cons.1 (hpp.subset hnd) with rfl | h
        · exact hitrs (me :: tail) (by simp)
        · exact hsorted nd h
      obtain ⟨nodes', h1, h2, h3, h4⟩ := ih pushed hph hps hrest
      refine ⟨nodes', by simp only [reduceSeed, hpush]; exact h1, h2, h3, ?_⟩
      refine h4.trans ?_
      have h5 := pending_perm hpp
      rw [pending_cons] at h5
      simp only [List.flatten_cons]
      refine (List.Perm.append_right _ h5).trans ?_
      simp only [List.cons_append, List.append_assoc]
      rw [← List.cons_append, ← List.cons_append]
      rw [← List.append_assoc, ← List.append_assoc]
      exact List.Perm.append_right _ List.perm_append_comm

theorem nonDecreasingBy_of_pairwise (lt : MapEntry → MapEntry → Bool) :
    ∀ l : List MapEntry, l.Pairwise (fun a b => lt b a = false) →
      nonDecreasingBy lt l = true := by
  intro l
  induction l with
  | nil => intro _; rfl
  | cons a rest ih =>
    intro h
    cases rest with
    | nil => rfl
    | cons b rest' =>
      obtain ⟨h1, h2⟩ := List.pairwise_cons.1 h
      simp only [nonDecreasingBy, Bool.and_eq_true, Bool.not_eq_true']
      exact ⟨h1 b (by simp), ih h2⟩

/-- For iterators that are non-decreasing under a strict weak order, `reduce`
returns, and the batches it sends are, put end to end, non-decreasing and a
permutation of the entries of the iterators. -/
theorem reduce_spec (lt : MapEntry → MapEntry → Bool) (hlt : StrictWeak lt)
    (mapItrs : List (List MapEntry))
    (hsorted : ∀ itr ∈ mapItrs, nonDecreasingBy lt itr = true) :
    ∃ out, reduce lt mapItrs = some out ∧ nonDecreasingBy lt out.1.flatten = true ∧
      out.1.flatten.Perm mapItrs.flatten := by
  have hpw : ∀ itr ∈ mapItrs, itr.Pairwise (fun a b => lt b a = false) :=
    fun itr h => pairwise_of_nonDecreasingBy lt hlt.2 itr (hsorted itr h)
  obtain ⟨nodes, hseed, hheap, hnodes, hperm⟩ :=
    reduceSeed_spec lt hlt mapItrs [] (by intro k a b _ hk; simp at hk) (by simp) hpw
  have hinv : ReduceInv lt mapItrs.flatten
      { nodes := nodes, batch := [], sent := [], prevKey := none, plistLen := 0,
        addUidCalls := [], events := [] } := by
    refine ⟨hheap, hnodes, by simp [reduceState.output], by simp [reduceState.output], ?_⟩
    simpa [reduceState.output, pending] using hperm
  obtain ⟨st, hloop, hinv', hnil⟩ :=
    reduceLoop_spec lt hlt mapItrs.flatten mapItrs.flatten.length _ hinv
      (by
        have := hperm.length_eq
        simp only [pending, List.flatMap_nil, List.nil_append] at this
        exact le_of_eq this)
  obtain ⟨_, _, hout, _, hall⟩ := hinv'
  rw [hnil] at hall
  simp only [pending, List.flatMap_nil, List.append_nil] at hall
  have hflat : (if st.batch.length > 0 then st.sent ++ [st.batch] else st.sent).flatten =
      st.output := by
    unfold reduceState.output
    by_cases hb : st.batch.length > 0
    · simp [hb]
    · have : st.batch = [] := List.length_eq_zero.1 (by omega)
      simp [this]
  refine ⟨(if st.batch.length > 0 then st.sent ++ [st.batch] else st.sent,
      if st.plistLen > 0 then st.addUidCalls ++ [(st.prevKey, st.plistLen)]
      else st.addUidCalls), by simp only [reduce, hseed, hloop], ?_, ?_⟩
  · show nonDecreasingBy lt (if st.batch.length > 0 then st.sent ++ [st.batch]
      else st.sent).flatten = true
    rw [hflat]
    exact nonDecreasingBy_of_pairwise lt _ hout
  · show (if st.batch.length > 0 then st.sent ++ [st.batch] else st.sent).flatten.Perm _
    rw [hflat]
    exact hall

theorem less_false_iff (a b : MapEntry) :
    less a b = false ↔
      bytesLess (bytesOf a.Key) (bytesOf b.Key) = false ∧
        (bytesLess (bytesOf b.Key) (bytesOf a.Key) = false → b.Uid ≤ a.Uid) := by
  unfold less
  cases h1 : bytesLess (bytesOf a.Key) (bytesOf b.Key) <;>
    cases h2 : bytesLess (bytesOf b.Key) (bytesOf a.Key) <;> simp

theorem strictWeak_less : StrictWeak less := by
  constructor
  · intro a b h
    rw [less_false_iff]
    unfold less at h
    by_cases h1 : bytesLess (bytesOf a.Key) (bytesOf b.Key) = true
    · refine ⟨bytesLess_asymm _ _ h1, ?_⟩
      intro h2
      rw [h1] at h2
      cases h2
    · simp only [h1, Bool.false_eq_true, if_false] at h
      by_cases h2 : bytesLess (bytesOf b.Key) (bytesOf a.Key) = true
      · simp [h2] at h
      · simp only [h2, Bool.false_eq_true, if_false, decide_eq_true_eq] at h
        exact ⟨by simpa using h2, fun _ => le_of_lt h⟩
  · intro a b c hba hcb
    rw [less_false_iff] at hba hcb ⊢
    obtain ⟨h1, h2⟩ := hba
    obtain ⟨h3, h4⟩ := hcb
    refine ⟨bytesLess_false_trans _ _ _ h1 h3, ?_⟩
    intro hac
    have hab : bytesLess (bytesOf a.Key) (bytesOf b.Key) = false :=
      bytesLess_false_trans _ _ _ h3 hac
    have hbc : bytesLess (bytesOf b.Key) (bytesOf c.Key) = false :=
      bytesLess_false_trans _ _ _ hac h1
    exact le_trans (h2 hab) (h4 hbc)

/-! ### Lemmas on batches and on the progress counters -/

theorem encodeAndWrite_flatten (batches : List (List MapEntry)) :
    encodeAndWrite batches = encodeAndWrite [batches.flatten] := by
  unfold encodeAndWrite
  rw [foldl_toList_flatten batches initialToListState rfl,
    foldl_toList_flatten [batches.flatten] initialToListState rfl]
  simp

theorem appendToList_edgeCount (st : toListState) :
    (appendToList st).reduceEdgeCount = st.reduceEdgeCount := by
  unfold appendToList
  simp only
  split <;> rfl

theorem toListEntry_edgeCount (st : toListState) (e : MapEntry) :
    (toListEntry st e).reduceEdgeCount = st.reduceEdgeCount + 1 := by
  cases hp : e.Posting <;> simp only [toListEntry, appendToList, hp] <;> split_ifs <;> rfl

theorem foldl_toListEntry_edgeCount (l : List MapEntry) :
    ∀ st : toListState,
      (l.foldl toListEntry st).reduceEdgeCount = st.reduceEdgeCount + l.length := by
  induction l with
  | nil => intro st; simp
  | cons e rest ih =>
    intro st
    rw [List.foldl_cons, ih, toListEntry_edgeCount, List.length_cons]
    push_cast
    ring

theorem encodeAndWrite_edgeCount (batches : List (List MapEntry)) :
    (encodeAndWrite batches).reduceEdgeCount = batches.flatten.length := by
  unfold encodeAndWrite
  rw [foldl_toList_flatten batches initialToListState rfl]
  simp only [toList, List.foldl_nil, if_true, appendToList_edgeCount]
  rw [foldl_toListEntry_edgeCount]
  simp [initialToListState]

theorem toListEntry_same_key_count (st : toListState) (e : MapEntry)
    (h : bytesEqual e.Key st.kvb.currentKey = true ∨ st.kvb.currentKey = none) :
    (toListEntry st e).reduceKeyCount = st.reduceKeyCount := by
  have hc : (!bytesEqual e.Key st.kvb.currentKey && st.kvb.currentKey.isSome) = false := by
    rcases h with h | h
    · simp [h]
    · simp [h]
  cases hp : e.Posting <;>
    simp only [toListEntry, hp, hc, Bool.false_eq_true, if_false] <;> split_ifs <;> rfl

theorem toListEntry_new_key_count (st : toListState) (e : MapEntry)
    (h : bytesEqual e.Key st.kvb.currentKey = false) (hsome : st.kvb.currentKey ≠ none) :
    (toListEntry st e).reduceKeyCount = st.reduceKeyCount + 1 := by
  have hc : (!bytesEqual e.Key st.kvb.currentKey && st.kvb.currentKey.isSome) = true := by
    cases hk : st.kvb.currentKey with
    | none => exact absurd hk hsome
    | some k => rw [hk] at h; simp [h]
  cases hp : e.Posting <;>
    simp only [toListEntry, appendToList, hp, hc, if_true] <;> split_ifs <;> rfl

theorem toListEntry_uids_ne_nil (st : toListState) (e : MapEntry) :
    (toListEntry st e).kvb.uids ≠ [] := by
  cases hp : e.Posting <;> simp only [toListEntry, hp] <;> split_ifs with h1 h2 h2 <;>
    first
    | (simp; done)
    | (simp only [Bool.and_eq_true, decide_eq_true_eq] at h2
       intro hnil
       rw [hnil] at h2
       simp at h2)

theorem keyLess_false_trans (a b c : MapEntry) (hba : keyLess b a = false)
    (hcb : keyLess c b = false) : keyLess c a = false :=
  bytesLess_false_trans _ _ _ hba hcb

theorem keyCountInv_step (done : List MapEntry) (st : toListState) (e : MapEntry)
    (hinv : KeyCountInv done st) (hk : e.Key ≠ none)
    (hdk : ∀ e' ∈ done, e'.Key ≠ none) (hs : ∀ e' ∈ done, keyLess e e' = false) :
    KeyCountInv (done ++ [e]) (toListEntry st e) := by
  obtain ⟨hcount, hcur, hmax, hem, hkeys, hcov⟩ := hinv
  have hck := toListEntry_currentKey st e
  have hune := toListEntry_uids_ne_nil st e
  have hright : (toListEntry st e).kvb.uids ≠ [] ∧
      ∃ e' ∈ done ++ [e], e'.Key = (toListEntry st e).kvb.currentKey :=
    ⟨hune, e, by simp, hck.symm⟩
  rcases hcur with ⟨hd, hnone, _⟩ | ⟨hu, e0, he0, hk0⟩
  · subst hd
    have hemp : st.emitted = [] := by
      rw [List.eq_nil_iff_forall_not_mem]
      intro g hg
      have := (hem g hg).1
      rw [hnone] at this
      simp only [bytesOf, Option.getD_none] at this
      rw [bytesLess_nil_right] at this
      cases this
    obtain ⟨he, _⟩ := toListEntry_same_key st e (Or.inr hnone)
    have hc := toListEntry_same_key_count st e (Or.inr hnone)
    refine ⟨by rw [hc, he, hcount], Or.inr hright, ?_, ?_, ?_, ?_⟩
    · intro e' he'
      simp only [List.nil_append, List.mem_singleton] at he'
      rw [hck, he', bytesLess_irrefl]
    · intro g hg
      rw [he, hemp] at hg
      simp at hg
    · rw [he, hemp]; simp
    · intro e' he'
      simp only [List.nil_append, List.mem_singleton] at he'
      left; rw [hck, he']
  · have hcurne : st.kvb.currentKey ≠ none := by rw [← hk0]; exact hdk e0 he0
    by_cases heq : e.Key = st.kvb.currentKey
    · have hbe : bytesEqual e.Key st.kvb.currentKey = true := by
        rw [heq]; simp [bytesEqual]
      obtain ⟨he, _⟩ := toListEntry_same_key st e (Or.inl hbe)
      have hc := toListEntry_same_key_count st e (Or.inl hbe)
      rw [← heq] at hmax hem hcov
      refine ⟨by rw [hc, he, hcount], Or.inr hright, ?_, ?_, ?_, ?_⟩
      · intro e' he'
        rw [hck]
        rcases List.mem_append.1 he' with h | h
        · exact hmax e' h
        · simp only [List.mem_singleton] at h
          rw [h, bytesLess_irrefl]
      · intro g hg
        rw [he] at hg
        rw [hck]
        obtain ⟨h1, e1, he1, hk1⟩ := hem g hg
        exact ⟨h1, e1, List.mem_append_left _ he1, hk1⟩
      · rw [he]; exact hkeys
      · intro e' he'
        rw [hck, he]
        rcases List.mem_append.1 he' with h | h
        · exact hcov e' h
        · simp only [List.mem_singleton] at h
          left; rw [h]
    · have hbe : bytesEqual e.Key st.kvb.currentKey = false := by
        cases h : bytesEqual e.Key st.kvb.currentKey with
        | false => rfl
        | true => exact absurd ((bytesEqual_iff_of_ne_none hk hcurne).1 h) heq
      have hlt : bytesLess (bytesOf st.kvb.currentKey) (bytesOf e.Key) = true := by
        have h1 : bytesLess (bytesOf e.Key) (bytesOf st.kvb.currentKey) = false := by
          have := hs e0 he0
          rw [keyLess, hk0] at this
          exact this
        cases h2 : bytesLess (bytesOf st.kvb.currentKey) (bytesOf e.Key) with
        | true => rfl
        | false =>
          exfalso
          have hb := bytesLess_connex _ _ h1 h2
          exact absurd ((bytesEqual_iff_of_ne_none hk hcurne).1 (by simp [bytesEqual, hb])) heq
      obtain ⟨he, _⟩ := toListEntry_new_key st e hbe hcurne hu
      have hc := toListEntry_new_key_count st e hbe hcurne
      refine ⟨by rw [hc, he, hcount]; simp, Or.inr hright, ?_, ?_, ?_, ?_⟩
      · intro e' he'
        rw [hck]
        rcases List.mem_append.1 he' with h | h
        · cases h2 : bytesLess (bytesOf e.Key) (bytesOf e'.Key) with
          | false => rfl
          | true =>
            have := bytesLess_trans _ _ _ hlt h2
            rw [hmax e' h] at this
            cases this
        · simp only [List.mem_singleton] at h
          rw [h, bytesLess_irrefl]
      · intro g hg
        rw [he] at hg
        rw [hck]
        rcases List.mem_append.1 hg with h | h
        · obtain ⟨h1, e1, he1, hk1⟩ := hem g h
          exact ⟨bytesLess_trans _ _ _ h1 hlt, e1, List.mem_append_left _ he1, hk1⟩
        · simp only [List.mem_singleton] at h
          subst h
          exact ⟨hlt, e0, List.mem_append_left _ he0, hk0⟩
      · rw [he, List.map_append, List.pairwise_append]
        refine ⟨hkeys, by simp, ?_⟩
        intro a ha b hb
        simp only [List.map_cons, List.map_nil, List.mem_singleton] at hb
        subst hb
        obtain ⟨g, hg, rfl⟩ := List.mem_map.1 ha
        exact (hem g hg).1
      · intro e' he'
        rw [hck, he, List.map_append]
        rcases List.mem_append.1 he' with h | h
        · right
          rcases hcov e' h with h1 | h1
          · apply List.mem_append_right
            simp [h1]
          · exact List.mem_append_left _ h1
        · simp only [List.mem_singleton] at h
          left; rw [h]

theorem keyCountInv_foldl (l : List MapEntry) :
    ∀ (done : List MapEntry) (st : toListState), KeyCountInv done st →
      (∀ e ∈ done ++ l, e.Key ≠ none) →
      (done ++ l).Pairwise (fun a b => keyLess b a = false) →
      KeyCountInv (done ++ l) (l.foldl toListEntry st) := by
  induction l with
  | nil => intro done st h _ _; simpa using h
  | cons e rest ih =>
    intro done st hinv hkeys hsorted
    have hsplit : done ++ e :: rest = (done ++ [e]) ++ rest := by simp
    rw [hsplit] at hkeys hsorted ⊢
    have hstep : KeyCountInv (done ++ [e]) (toListEntry st e) := by
      apply keyCountInv_step done st e hinv
      · exact hkeys e (by simp)
      · intro e' he'; exact hkeys e' (by simp [he'])
      · intro e' he'
        have h1 := (List.pairwise_append.1 hsorted).1
        exact (List.pairwise_append.1 h1).2.2 e' he' e (by simp)
    exact ih (done ++ [e]) (toListEntry st e) hstep hkeys hsorted

theorem keyCountInv_initial : KeyCountInv [] initialToListState := by
  unfold KeyCountInv initialToListState
  simp

theorem encodeAndWrite_keyCount_eq (batches : List (List MapEntry)) :
    (encodeAndWrite batches).reduceKeyCount =
      (batches.flatten.foldl toListEntry initialToListState).reduceKeyCount + 1 := by
  unfold encodeAndWrite
  rw [foldl_toList_flatten batches initialToListState rfl]
  generalize batches.flatten.foldl toListEntry initialToListState = st
  simp only [toList, List.foldl_nil, if_true, appendToList]
  split <;> rfl

/-- For a non-empty stream with non-nil keys that is non-decreasing by key,
`reduceKeyCount` ends at the number of distinct keys. -/
theorem encodeAndWrite_keyCount (batches : List (List MapEntry))
    (hkeys : ∀ e ∈ batches.flatten, e.Key ≠ none)
    (hsorted : nonDecreasingBy keyLess batches.flatten = true)
    (hne : batches.flatten ≠ []) :
    (encodeAndWrite batches).reduceKeyCount = distinctKeys batches.flatten := by
  have hpw := pairwise_of_nonDecreasingBy keyLess keyLess_false_trans _ hsorted
  have hinv := keyCountInv_foldl batches.flatten [] initialToListState keyCountInv_initial
    (by simpa using hkeys) (by simpa using hpw)
  rw [List.nil_append] at hinv
  rw [encodeAndWrite_keyCount_eq]
  generalize batches.flatten.foldl toListEntry initialToListState = st at hinv
  obtain ⟨hcount, hcur, _, hem, hpk, hcov⟩ := hinv
  rcases hcur with ⟨hd, _, _⟩ | ⟨_, e0, he0, hk0⟩
  · exact absurd hd hne
  · have hnd : (st.emitted.map (fun g => g.key) ++ [st.kvb.currentKey]).Nodup := by
      apply nodup_of_pairwise_bytesLess
      rw [List.pairwise_append]
      refine ⟨hpk, by simp, ?_⟩
      intro a ha b hb
      simp only [List.mem_singleton] at hb
      subst hb
      obtain ⟨g, hg, rfl⟩ := List.mem_map.1 ha
      exact (hem g hg).1
    have hperm : (st.emitted.map (fun g => g.key) ++ [st.kvb.currentKey]).Perm
        (batches.flatten.map (fun e => e.Key)).dedup := by
      rw [List.perm_ext_iff_of_nodup hnd (List.nodup_dedup _)]
      intro k
      rw [List.mem_dedup, List.mem_append, List.mem_singleton]
      constructor
      · rintro (h | h)
        · obtain ⟨g, hg, rfl⟩ := List.mem_map.1 h
          obtain ⟨e1, he1, hk1⟩ := (hem g hg).2
          exact List.mem_map.2 ⟨e1, he1, hk1⟩
        · exact List.mem_map.2 ⟨e0, he0, by rw [h, hk0]⟩
      · intro h
        obtain ⟨e1, he1, rfl⟩ := List.mem_map.1 h
        rcases hcov e1 he1 with h | h
        · exact Or.inr h
        · exact Or.inl h
    have hlen := hperm.length_eq
    simp only [List.length_append, List.length_map, List.length_singleton] at hlen
    unfold distinctKeys
    rw [hcount, ← hlen]
    push_cast
    ring

theorem keyLess_false_of_less_false (a b : MapEntry) (h : less a b = false) :
    keyLess a b = false :=
  ((less_false_iff a b).1 h).1

theorem nonDecreasingBy_keyLess_of_less :
    ∀ l : List MapEntry, nonDecreasingBy less l = true → nonDecreasingBy keyLess l = true := by
  intro l
  induction l with
  | nil => intro _; rfl
  | cons a rest ih =>
    intro h
    cases rest with
    | nil => rfl
    | cons b rest' =>
      simp only [nonDecreasingBy, Bool.and_eq_true, Bool.not_eq_true'] at h ⊢
      exact ⟨keyLess_false_of_less_false b a h.1, ih h.2⟩

/-! ### Lemmas on the count-index calls of `reduce` -/

theorem runKey_append_one (cur : List MapEntry) (me : MapEntry) :
    runKey (cur ++ [me]) = me.Key := by
  simp [runKey]

theorem runKey_singleton (me : MapEntry) : runKey [me] = me.Key := by
  simp [runKey]

theorem bytesEqual_eq_true_iff (a b : Option (List Nat)) :
    bytesEqual a b = true ↔ bytesOf a = bytesOf b := by
  simp [bytesEqual]

theorem bytesEqual_eq_false_iff (a b : Option (List Nat)) :
    bytesEqual a b = false ↔ bytesOf a ≠ bytesOf b := by
  simp [bytesEqual]

/-- The second half of the loop body when no count is published. -/
theorem reduceEmit_no_flush (st : reduceState) (me : MapEntry) (nodes' : List heapNode)
    (h : (!bytesEqual st.prevKey me.Key && decide (st.plistLen > 0)) = false) :
    (reduceEmit st me nodes').plistLen = st.plistLen + 1 ∧
      (reduceEmit st me nodes').prevKey = me.Key ∧
      (reduceEmit st me nodes').addUidCalls = st.addUidCalls ∧
      (reduceEmit st me nodes').events = st.events ++ [reduceEvent.added me] := by
  simp [reduceEmit, h]

/-- The second half of the loop body when the count of the previous key is
published. -/
theorem reduceEmit_flush (st : reduceState) (me : MapEntry) (nodes' : List heapNode)
    (h : (!bytesEqual st.prevKey me.Key && decide (st.plistLen > 0)) = true) :
    (reduceEmit st me nodes').plistLen = 1 ∧
      (reduceEmit st me nodes').prevKey = me.Key ∧
      (reduceEmit st me nodes').addUidCalls = st.addUidCalls ++ [(st.prevKey, st.plistLen)] ∧
      (reduceEmit st me nodes').events =
        st.events ++ [reduceEvent.addUid st.prevKey st.plistLen] ++ [reduceEvent.added me] := by
  simp [reduceEmit, h]

theorem isKeyRuns_append_one (runs : List (List MapEntry)) (cur : List MapEntry)
    (hruns : IsKeyRuns runs) (hne : cur ≠ [])
    (hkeys : ∀ a ∈ cur, bytesOf a.Key = bytesOf (runKey cur))
    (hlast : ∀ r ∈ runs.getLast?, bytesOf (runKey r) ≠ bytesOf (runKey cur)) :
    IsKeyRuns (runs ++ [cur]) := by
  obtain ⟨h1, h2⟩ := hruns
  constructor
  · intro r hr
    rcases List.mem_append.1 hr with h | h
    · exact h1 r h
    · simp only [List.mem_singleton] at h
      subst h
      exact ⟨hne, hkeys⟩
  · rw [List.chain'_append]
    refine ⟨h2, List.chain'_singleton _, ?_⟩
    intro x hx y hy
    simp only [List.head?_cons, Option.mem_def, Option.some.injEq] at hy
    subst hy
    exact hlast x hx

theorem reduceEmit_traceInv (st : reduceState) (me : MapEntry) (nodes' : List heapNode)
    (hinv : TraceInv st) : TraceInv (reduceEmit st me nodes') := by
  obtain ⟨runs, cur, hruns, hout, hlen, hnil, hcons, hcalls, hev⟩ := hinv
  by_cases hcur : cur = []
  · subst hcur
    obtain ⟨hr, hp⟩ := hnil rfl
    subst hr
    have hflush : (!bytesEqual st.prevKey me.Key && decide (st.plistLen > 0)) = false := by
      rw [hlen]; simp
    obtain ⟨e1, e2, e3, e4⟩ := reduceEmit_no_flush st me nodes' hflush
    refine ⟨[], [me], hruns, ?_, ?_, ?_, ?_, ?_, ?_⟩
    · rw [reduceEmit_output, hout]
      simp
    · rw [e1, hlen]; rfl
    · intro h; cases h
    · intro _
      refine ⟨by rw [e2, runKey_singleton], ?_, ?_⟩
      · intro a ha
        simp only [List.mem_singleton] at ha
        rw [ha, runKey_singleton]
      · intro r hr
        simp at hr
    · rw [e3, hcalls]
    · rw [e4, hev]
      rfl
  · obtain ⟨hp, hk, hl⟩ := hcons hcur
    have hpos : st.plistLen > 0 := by
      rw [hlen]
      exact List.length_pos.2 hcur
    by_cases hsame : bytesEqual st.prevKey me.Key = true
    · have hflush : (!bytesEqual st.prevKey me.Key && decide (st.plistLen > 0)) = false := by
        simp [hsame]
      obtain ⟨e1, e2, e3, e4⟩ := reduceEmit_no_flush st me nodes' hflush
      have hb : bytesOf (runKey cur) = bytesOf me.Key := by
        rw [← hp]; exact (bytesEqual_eq_true_iff _ _).1 hsame
      refine ⟨runs, cur ++ [me], hruns, ?_, ?_, ?_, ?_, ?_, ?_⟩
      · rw [reduceEmit_output, hout, List.append_assoc]
      · rw [e1, hlen]; simp
      · intro h; simp at h
      · intro _
        rw [runKey_append_one]
        refine ⟨e2, ?_, ?_⟩
        · intro a ha
          rcases List.mem_append.1 ha with h | h
          · rw [hk a h, hb]
          · simp only [List.mem_singleton] at h
            rw [h]
        · intro r hr
          rw [← hb]
          exact hl r hr
      · rw [e3, hcalls]
      · rw [e4, hev, List.map_append, List.append_assoc]
        rfl
    · have hdiff : bytesEqual st.prevKey me.Key = false := by
        simpa using hsame
      have hflush : (!bytesEqual st.prevKey me.Key && decide (st.plistLen > 0)) = true := by
        simp [hdiff, hpos]
      obtain ⟨e1, e2, e3, e4⟩ := reduceEmit_flush st me nodes' hflush
      refine ⟨runs ++ [cur], [me], isKeyRuns_append_one runs cur hruns hcur hk hl, ?_, ?_, ?_,
        ?_, ?_, ?_⟩
      · rw [reduceEmit_output, hout]
        simp
      · rw [e1]; rfl
      · intro h; cases h
      · intro _
        rw [runKey_singleton]
        refine ⟨e2, ?_, ?_⟩
        · intro a ha
          simp only [List.mem_singleton] at ha
          rw [ha]
        · intro r hr
          have hr' : r = cur := by
            simp only [List.getLast?_append, List.getLast?_singleton, Option.mem_def] at hr
            cases hr
            rfl
          subst hr'
          rw [← hp]
          exact (bytesEqual_eq_false_iff _ _).1 hdiff
      · rw [e3, hcalls, hp, hlen]
        simp
      · rw [e4, hev, hp, hlen]
        simp [runEvents]

/-- One iteration of the loop of `reduce` on a heap-ordered, non-empty heap
returns, whatever the iterators hold: it takes the root's entry, keeps the heap
ordering and takes one entry from the pending ones. -/
theorem reduceStep_heap (lt : MapEntry → MapEntry → Bool) (hlt : StrictWeak lt)
    (st : reduceState) (hne : st.nodes ≠ [])
    (hheap : HeapOn (nodeLess lt) st.nodes st.nodes.length) :
    ∃ me nodes', reduceStep lt st = some (reduceEmit st me nodes') ∧
      HeapOn (nodeLess lt) nodes' nodes'.length ∧
      (pending nodes').length + 1 = (pending st.nodes).length := by
  cases hnodes : st.nodes with
  | nil => exact absurd hnodes hne
  | cons node0 tl =>
    rw [hnodes] at hheap
    have h0 : (node0 :: tl)[0]? = some node0 := by simp
    cases hitr : node0.itr with
    | nil =>
      obtain ⟨nodes', hpop, hpp, hheap'⟩ :=
        heapPop_spec (nodeLess lt) (strictWeak_nodeLess lt hlt) (node0 :: tl) node0 h0 hheap
      refine ⟨node0.mapEntry, nodes',
        by simp only [reduceStep, hnodes, hitr, hpop, Option.map_some'], hheap', ?_⟩
      have h1 := (pending_perm hpp).length_eq
      rw [pending_cons, hitr] at h1
      simp only [List.append_nil, List.cons_append, List.nil_append, List.length_cons] at h1
      simpa using h1
    | cons next rest =>
      have hset : (node0 :: tl).set 0 { mapEntry := next, itr := rest } =
          { mapEntry := next, itr := rest } :: tl := rfl
      obtain ⟨nodes', hfix, hfp, hheap'⟩ :=
        heapFix_root_spec (nodeLess lt) (strictWeak_nodeLess lt hlt) _
          (downPre_set_root (nodeLess lt) (node0 :: tl) { mapEntry := next, itr := rest } hheap)
      refine ⟨node0.mapEntry, nodes', by simp only [reduceStep, hnodes, hitr, hfix], hheap', ?_⟩
      have h1 := (pending_perm hfp).length_eq
      rw [hset, pending_cons] at h1
      rw [pending_cons, hitr]
      simp only [List.cons_append, List.length_cons, List.length_append] at h1 ⊢
      omega

theorem reduceLoop_traceInv (lt : MapEntry → MapEntry → Bool) (hlt : StrictWeak lt) :
    ∀ (fuel : Nat) (st : reduceState), HeapOn (nodeLess lt) st.nodes st.nodes.length →
      TraceInv st → (pending st.nodes).length ≤ fuel →
      ∃ st', reduceLoop lt fuel st = some st' ∧ TraceInv st' ∧ st'.nodes = [] := by
  intro fuel
  induction fuel with
  | zero =>
    intro st _ hinv hfuel
    have hnil := nodes_nil_of_pending_nil st.nodes (by omega)
    exact ⟨st, by simp [reduceLoop, hnil], hinv, hnil⟩
  | succ fuel ih =>
    intro st hheap hinv hfuel
    by_cases hne : st.nodes = []
    · exact ⟨st, by simp [reduceLoop, hne], hinv, hne⟩
    · obtain ⟨me, nodes', h1, hheap', hlen⟩ := reduceStep_heap lt hlt st hne hheap
      obtain ⟨st2, h2, hinv2, hnil⟩ :=
        ih (reduceEmit st me nodes') hheap' (reduceEmit_traceInv st me nodes' hinv)
          (by rw [reduceEmit_nodes]; omega)
      refine ⟨st2, ?_, hinv2, hnil⟩
      have hpos : st.nodes.length > 0 := List.length_pos.2 hne
      simp only [reduceLoop, hpos, if_true, h1]
      exact h2

theorem reduceSeed_heap (lt : MapEntry → MapEntry → Bool) (hlt : StrictWeak lt) :
    ∀ (itrs : List (List MapEntry)) (nodes : List heapNode),
      HeapOn (nodeLess lt) nodes nodes.length →
      ∃ nodes', reduceSeed lt nodes itrs = some nodes' ∧
        HeapOn (nodeLess lt) nodes' nodes'.length ∧
        (pending nodes').length = (pending nodes).length + itrs.flatten.length := by
  intro itrs
  induction itrs with
  | nil =>
    intro nodes hheap
    exact ⟨nodes, rfl, hheap, by simp⟩
  | cons itr rest ih =>
    intro nodes hheap
    cases itr with
    | nil =>
      obtain ⟨nodes', h1, h2, h3⟩ := ih nodes hheap
      exact ⟨nodes', by simpa [reduceSeed] using h1, h2, by simpa using h3⟩
    | cons me tail =>
      obtain ⟨pushed, hpush, hpp, hph⟩ :=
        heapPush_spec (nodeLess lt) (strictWeak_nodeLess lt hlt) nodes
          { mapEntry := me, itr := tail } hheap
      obtain ⟨nodes', h1, h2, h3⟩ := ih pushed hph
      refine ⟨nodes', by simp only [reduceSeed, hpush]; exact h1, h2, ?_⟩
      have h5 := (pending_perm hpp).length_eq
      rw [pending_cons] at h5
      simp only [List.cons_append, List.length_cons, List.length_append] at h5
      rw [h3, h5]
      simp only [List.flatten_cons, List.length_append, List.length_cons]
      omega

/-- The count-index calls of `reduce`: for every list of iterators `reduce`
returns, and there is a cut of its output stream into maximal runs of equal key
such that the calls of `ci.addUid` are one per run, in order, with the run's key
and length, each made after the entries of its run were added to a batch and
before any entry of the next run is. -/
theorem reduce_trace_spec (lt : MapEntry → MapEntry → Bool) (hlt : StrictWeak lt)
    (mapItrs : List (List MapEntry)) :
    ∃ out events runs, reduce lt mapItrs = some out ∧ reduceTrace lt mapItrs = some events ∧
      IsKeyRuns runs ∧ out.1.flatten = runs.flatten ∧
      out.2 = runs.map (fun r => (runKey r, r.length)) ∧
      events = runs.flatMap runEvents := by
  obtain ⟨nodes, hseed, hheap, hplen⟩ :=
    reduceSeed_heap lt hlt mapItrs [] (by intro k a b _ hk; simp at hk)
  have hinv : TraceInv
      { nodes := nodes, batch := [], sent := [], prevKey := none, plistLen := 0,
        addUidCalls := [], events := [] } :=
    ⟨[], [], ⟨by simp, List.chain'_nil⟩, by simp [reduceState.output], rfl,
      fun _ => ⟨rfl, rfl⟩, fun h => absurd rfl h, rfl, rfl⟩
  obtain ⟨st, hloop, hinv', _⟩ :=
    reduceLoop_traceInv lt hlt mapItrs.flatten.length _ hheap hinv
      (by
        simp only [pending, List.flatMap_nil, List.length_nil, Nat.zero_add] at hplen
        exact le_of_eq hplen)
  obtain ⟨runs, cur, hruns, hout, hlen, hnil, hcons, hcalls, hev⟩ := hinv'
  have hflat : (if st.batch.length > 0 then st.sent ++ [st.batch] else st.sent).flatten =
      st.output := by
    unfold reduceState.output
    by_cases hb : st.batch.length > 0
    · simp [hb]
    · have : st.batch = [] := List.length_eq_zero.1 (by omega)
      simp [this]
  by_cases hcur : cur = []
  · subst hcur
    have hp0 : ¬ st.plistLen > 0 := by rw [hlen]; simp
    refine ⟨(if st.batch.length > 0 then st.sent ++ [st.batch] else st.sent,
        if st.plistLen > 0 then st.addUidCalls ++ [(st.prevKey, st.plistLen)]
        else st.addUidCalls), st.events, runs,
      by simp only [reduce, hseed, hloop],
      by simp only [reduceTrace, hseed, hloop, hp0, if_false], hruns, ?_, ?_, ?_⟩
    · show (if st.batch.length > 0 then st.sent ++ [st.batch] else st.sent).flatten = _
      rw [hflat, hout]
      simp
    · show (if st.plistLen > 0 then st.addUidCalls ++ [(st.prevKey, st.plistLen)]
        else st.addUidCalls) = _
      rw [if_neg hp0, hcalls]
    · rw [hev]
      simp
  · obtain ⟨hp, hk, hl⟩ := hcons hcur
    have hp1 : st.plistLen > 0 := by
      rw [hlen]
      exact List.length_pos.2 hcur
    refine ⟨(if st.batch.length > 0 then st.sent ++ [st.batch] else st.sent,
        if st.plistLen > 0 then st.addUidCalls ++ [(st.prevKey, st.plistLen)]
        else st.addUidCalls), st.events ++ [reduceEvent.addUid st.prevKey st.plistLen],
      runs ++ [cur],
      by simp only [reduce, hseed, hloop],
      by simp only [reduceTrace, hseed, hloop, hp1, if_true],
      isKeyRuns_append_one runs cur hruns hcur hk hl, ?_, ?_, ?_⟩
    · show (if st.batch.length > 0 then st.sent ++ [st.batch] else st.sent).flatten = _
      rw [hflat, hout]
      simp
    · show (if st.plistLen > 0 then st.addUidCalls ++ [(st.prevKey, st.plistLen)]
        else st.addUidCalls) = _
      rw [if_pos hp1, hcalls, hp, hlen]
      simp
    · rw [hev, hp, hlen]
      simp [runEvents]

/-! ### Lemmas on `streamIdFor` -/

theorem mem_firstSeenFrom (calls : List String) :
    ∀ (seen : List String) (p : String),
      p ∈ firstSeenFrom seen calls ↔ p ∈ seen ∨ p ∈ calls := by
  induction calls with
  | nil => intro seen p; simp [firstSeenFrom]
  | cons q qs ih =>
    intro seen p
    unfold firstSeenFrom
    split
    · rename_i hq
      rw [ih seen p]
      constructor
      · rintro (h | h)
        · exact Or.inl h
        · exact Or.inr (List.mem_cons_of_mem _ h)
      · rintro (h | h)
        · exact Or.inl h
        · rcases List.mem_cons.1 h with rfl | h
          · exact Or.inl hq
          · exact Or.inr h
    · rw [ih (seen ++ [q]) p]
      simp only [List.mem_append, List.mem_singleton, List.mem_cons]
      tauto

theorem streamIdState_step (s0 : Nat) (seen : List String) (r : reducer)
    (h : StreamIdState s0 seen r) (q : String) (hq : q ∉ seen) :
    (r.streamIdFor q).1 = (s0 + seen.length + 1) % 2 ^ 32 ∧
      StreamIdState s0 (seen ++ [q]) (r.streamIdFor q).2 := by
  obtain ⟨hc, hl⟩ := h
  have hnone : r.streamIds.lookup q = none := by rw [hl q]; simp [hq]
  have hid : (r.streamId + 1) % 2 ^ 32 = (s0 + seen.length + 1) % 2 ^ 32 := by
    rw [hc]; omega
  simp only [reducer.streamIdFor, hnone]
  refine ⟨hid, ?_, ?_⟩
  · simp only [List.length_append, List.length_singleton]
    rw [hid]
    rfl
  · intro p
    by_cases hpq : p = q
    · subst hpq
      simp only [List.lookup, beq_self_eq_true, List.mem_append, List.mem_singleton, or_true,
        if_true, List.indexOf_append_of_not_mem hq, List.indexOf_cons_self, Nat.add_zero, hid]
    · have hne : (p == q) = false := by simpa using hpq
      simp only [List.lookup, hne, hl p, List.mem_append, List.mem_singleton, hpq, or_false]
      by_cases hps : p ∈ seen
      · simp [hps, List.indexOf_append_of_mem hps]
      · simp [hps]

theorem runStreamIdFor_spec (s0 : Nat) (calls : List String) :
    ∀ (seen : List String) (r : reducer), StreamIdState s0 seen r →
      runStreamIdFor r calls =
        calls.map (fun p => (p, (s0 + (firstSeenFrom seen calls).indexOf p + 1) % 2 ^ 32)) := by
  induction calls with
  | nil => intro seen r _; simp [runStreamIdFor]
  | cons q qs ih =>
    intro seen r h
    by_cases hq : q ∈ seen
    · have hl : r.streamIds.lookup q = some ((s0 + seen.indexOf q + 1) % 2 ^ 32) := by
        rw [h.2 q]; simp [hq]
      have hs : r.streamIdFor q = ((s0 + seen.indexOf q + 1) % 2 ^ 32, r) := by
        simp [reducer.streamIdFor, hl]
      simp only [runStreamIdFor, hs, firstSeenFrom, hq, if_true, List.map_cons, ih seen r h]
      rw [indexOf_of_extends hq (firstSeenFrom_extends qs seen)]
    · obtain ⟨hid, hinv⟩ := streamIdState_step s0 seen r h q hq
      have hq' : q ∈ seen ++ [q] := by simp
      simp only [runStreamIdFor, hid, firstSeenFrom, hq, if_false, List.map_cons,
        ih (seen ++ [q]) _ hinv]
      rw [indexOf_of_extends hq' (firstSeenFrom_extends qs (seen ++ [q])),
        List.indexOf_append_of_not_mem hq]
      simp

theorem streamIdState_fresh (s0 : Nat) (h0 : s0 < 2 ^ 32) :
    StreamIdState s0 [] (freshReducer s0) := by
  refine ⟨?_, ?_⟩
  · simp only [freshReducer, List.length_nil, Nat.add_zero]
    omega
  · intro p; simp [freshReducer, List.lookup]

theorem indexOf_inj_of_mem {l : List String} {p q : String} (hp : p ∈ l)
    (h : l.indexOf p = l.indexOf q) : p = q := by
  have h1 : l.indexOf p < l.length := List.indexOf_lt_length.2 hp
  have hq : q ∈ l := by
    rw [← List.indexOf_lt_length, ← h]
    exact h1
  have e1 := List.indexOf_get (l := l) (a := p) h1
  have e2 := List.indexOf_get (l := l) (a := q) (by rw [← h]; exact h1)
  rw [← e1, ← e2]
  congr 1
  exact Fin.ext h

/-! ### Lemmas on `processNQuad` -/

theorem scanTokens_cons (uid : String → Nat) (d : Char) (rest cur : List Char)
    (inString : Bool) (count : Nat) (temp : List String) (hcount : count < 3) :
    scanTokens uid (d :: rest) cur inString count temp =
      if d = ' ' ∨ d = '\t' then
        if !inString then
          scanTokens uid rest [] inString (count + 1)
            (if count = 0 then
              (temp.set count (String.mk cur)).set 0 (hexId (uid (String.mk cur)))
             else if count = 2 then
               if internsObject cur then
                 (temp.set count (String.mk cur)).set 2 (hexId (uid (String.mk cur)))
               else temp.set count (String.mk cur)
             else temp.set count (String.mk cur))
        else scanTokens uid rest (cur ++ [d]) inString count temp
      else if d = '"' then scanTokens uid rest (cur ++ [d]) (!inString) count temp
      else scanTokens uid rest (cur ++ [d]) inString count temp := by
  have hge : ¬ count ≥ 3 := by omega
  rw [scanTokens]
  simp only [hge, if_false]

theorem scanTokens_token (uid : String → Nat) (d : Char) (rest : List Char) (count : Nat)
    (temp : List String) (hcount : count < 3) :
    ∀ (t cur : List Char) (inString : Bool), closedTokenFrom t inString = true →
      scanTokens uid (t ++ d :: rest) cur inString count temp =
        scanTokens uid (d :: rest) (cur ++ t) false count temp := by
  intro t
  induction t with
  | nil =>
    intro cur inString h
    simp only [closedTokenFrom, Bool.not_eq_true'] at h
    subst h
    simp
  | cons c cs ih =>
    intro cur inString h
    simp only [closedTokenFrom] at h
    rw [List.cons_append, scanTokens_cons uid c _ cur inString count temp hcount]
    by_cases hd : c = ' ' ∨ c = '\t'
    · simp only [hd, if_true, Bool.and_eq_true] at h ⊢
      obtain ⟨h1, h2⟩ := h
      subst h1
      simp only [Bool.not_true, Bool.false_eq_true, if_false]
      rw [ih (cur ++ [c]) true h2]
      simp
    · simp only [hd, if_false] at h ⊢
      by_cases hq : c = '"'
      · simp only [hq, if_true] at h ⊢
        rw [ih _ _ h]
        simp
      · simp only [hq, if_false] at h ⊢
        rw [ih _ _ h]
        simp

theorem scanTokens_delim (uid : String → Nat) (d : Char) (hd : d = ' ' ∨ d = '\t')
    (rest cur : List Char) (count : Nat) (temp : List String) (hcount : count < 3) :
    scanTokens uid (d :: rest) cur false count temp =
      scanTokens uid rest [] false (count + 1)
        (if count = 0 then (temp.set count (String.mk cur)).set 0 (hexId (uid (String.mk cur)))
         else if count = 2 then
           if internsObject cur then
             (temp.set count (String.mk cur)).set 2 (hexId (uid (String.mk cur)))
           else temp.set count (String.mk cur)
         else temp.set count (String.mk cur)) := by
  rw [scanTokens_cons uid d rest cur false count temp hcount]
  simp only [hd, if_true, Bool.not_false]

theorem scanTokens_done (uid : String → Nat) (rest cur : List Char) (inString : Bool)
    (temp : List String) : scanTokens uid rest cur inString 3 temp = (rest, cur, 3, temp) := by
  cases rest with
  | nil => rfl
  | cons d rest' => simp [scanTokens]

/-- The token loop on a line made of three tokens, each followed by a space or
a tab, and a trailing part. -/
theorem scanTokens_three (uid : String → Nat) (s p o trailing : List Char) (d1 d2 d3 : Char)
    (hd1 : d1 = ' ' ∨ d1 = '\t') (hd2 : d2 = ' ' ∨ d2 = '\t') (hd3 : d3 = ' ' ∨ d3 = '\t')
    (hs : isToken s = true) (hp : isToken p = true) (ho : isToken o = true) :
    scanTokens uid (s ++ d1 :: (p ++ d2 :: (o ++ d3 :: trailing))) [] false 0 ["", "", "", ""] =
      (trailing, [], 3,
        [hexId (uid (String.mk s)), String.mk p,
          if internsObject o then hexId (uid (String.mk o)) else String.mk o, ""]) := by
  rw [scanTokens_token uid d1 _ 0 _ (by omega) s [] false hs, List.nil_append,
    scanTokens_delim uid d1 hd1 _ s 0 _ (by omega),
    scanTokens_token uid d2 _ 1 _ (by omega) p [] false hp, List.nil_append,
    scanTokens_delim uid d2 hd2 _ p 1 _ (by omega),
    scanTokens_token uid d3 _ 2 _ (by omega) o [] false ho, List.nil_append,
    scanTokens_delim uid d3 hd3 _ o 2 _ (by omega), scanTokens_done]
  by_cases hi : internsObject o = true <;> simp [hi]

theorem utf8ByteSize_pos_of_cons (c : Char) (cs : List Char) :
    (String.mk (c :: cs)).utf8ByteSize ≠ 0 := by
  have := Char.utf8Size_pos c
  simp only [String.utf8ByteSize, String.utf8ByteSize.go]
  omega

theorem intercalate_four (a b c d : String) :
    " ".intercalate [a, b, c, d] = a ++ " " ++ b ++ " " ++ c ++ " " ++ d := by
  simp [String.intercalate, String.intercalate.go]

theorem utf8ByteSize_ne_zero_of_ne_nil (l : List Char) (h : l ≠ []) :
    (String.mk l).utf8ByteSize ≠ 0 := by
  cases l with
  | nil => exact absurd rfl h
  | cons c cs => exact utf8ByteSize_pos_of_cons c cs

/-- In reassign-ids mode a line made of three tokens, each followed by a space
or a tab, and a trailing part is rewritten and routed by its predicate. -/
theorem processNQuad_reassign_spec (uid : String → Nat) (m : mapperState)
    (s p o trailing : List Char) (d1 d2 d3 : Char)
    (hd1 : d1 = ' ' ∨ d1 = '\t') (hd2 : d2 = ' ' ∨ d2 = '\t') (hd3 : d3 = ' ' ∨ d3 = '\t')
    (hs : isToken s = true) (hp : isToken p = true) (ho : isToken o = true) :
    processNQuad true uid m (String.mk (s ++ d1 :: (p ++ d2 :: (o ++ d3 :: trailing)))) =
      match routeEntry m (String.mk p)
          (hexId (uid (String.mk s)) ++ " " ++ String.mk p ++ " " ++
            (if internsObject o then hexId (uid (String.mk o)) else String.mk o) ++ " " ++
            String.mk trailing) with
      | none => none
      | some m' => some (m', processResult.ok) := by
  have hlen : (String.mk (s ++ d1 :: (p ++ d2 :: (o ++ d3 :: trailing)))).utf8ByteSize ≠ 0 :=
    utf8ByteSize_ne_zero_of_ne_nil _ (by simp)
  have hscan := scanTokens_three uid s p o trailing d1 d2 d3 hd1 hd2 hd3 hs hp ho
  have htemp : (if trailing ≠ [] then
        [hexId (uid (String.mk s)), String.mk p,
          if internsObject o then hexId (uid (String.mk o)) else String.mk o, ""].set 3
          (String.mk ([] ++ trailing))
      else
        [hexId (uid (String.mk s)), String.mk p,
          if internsObject o then hexId (uid (String.mk o)) else String.mk o, ""]) =
      [hexId (uid (String.mk s)), String.mk p,
        if internsObject o then hexId (uid (String.mk o)) else String.mk o,
        String.mk trailing] := by
    by_cases ht : trailing = []
    · subst ht
      simp
    · simp [ht]
  simp only [processNQuad, Bool.not_true, Bool.false_eq_true, if_false, hlen, String.toList,
    hscan, if_true, htemp, intercalate_four]
  rfl

theorem utf8ByteSize_go_pos (c : Char) (cs : List Char) :
    0 < String.utf8ByteSize.go (c :: cs) := by
  have := Char.utf8Size_pos c
  simp only [String.utf8ByteSize.go]
  omega

/-- The object token is interned exactly when it is the marker `_:` followed by
at least one more character. -/
theorem internsObject_iff (o : List Char) :
    internsObject o = true ↔ ∃ c rest, o = '_' :: ':' :: c :: rest := by
  unfold internsObject
  simp only [Bool.and_eq_true, decide_eq_true_eq, beq_iff_eq]
  constructor
  · rintro ⟨hlen, htake⟩
    match o, hlen, htake with
    | [], _, h => simp at h
    | [_], _, h => simp at h
    | [a, b], hlen, h =>
      simp only [List.take, List.cons.injEq, and_true] at h
      obtain ⟨rfl, rfl⟩ := h
      exact absurd hlen (by decide)
    | a :: b :: c :: rest, _, h =>
      simp only [List.take, List.cons.injEq, and_true] at h
      obtain ⟨rfl, rfl⟩ := h
      exact ⟨c, rest, rfl⟩
  · rintro ⟨c, rest, rfl⟩
    refine ⟨?_, by simp [List.take]⟩
    have h1 := utf8ByteSize_go_pos c rest
    have h2 : Char.utf8Size '_' = 1 := by decide
    have h3 : Char.utf8Size ':' = 1 := by decide
    simp only [String.utf8ByteSize, String.utf8ByteSize.go, h2, h3] at h1 ⊢
    omega

/-! ### Lemmas on the balance of the reduce shards -/

theorem costSum_append (l₁ l₂ : List sizedDir) : costSum (l₁ ++ l₂) = costSum l₁ + costSum l₂ := by
  simp [costSum]

theorem costSum_perm {l₁ l₂ : List sizedDir} (h : l₁.Perm l₂) : costSum l₁ = costSum l₂ :=
  (h.map _).sum_eq

theorem costSum_nonneg {l : List sizedDir} (h : ∀ r ∈ l, 0 ≤ r.sz) : 0 ≤ costSum l := by
  apply List.sum_nonneg
  intro x hx
  obtain ⟨d, hd, rfl⟩ := List.mem_map.1 hx
  exact h d hd

theorem le_maxCost {l : List sizedDir} {d : sizedDir} (h : d ∈ l) : d.sz ≤ maxCost l := by
  induction l with
  | nil => cases h
  | cons x xs ih =>
    simp only [maxCost, List.foldr_cons]
    rcases List.mem_cons.1 h with rfl | h
    · exact le_max_left _ _
    · exact le_trans (ih h) (le_max_right _ _)

theorem maxCost_nonneg (l : List sizedDir) : 0 ≤ maxCost l := by
  cases l with
  | nil => simp [maxCost]
  | cons x xs => simp only [maxCost, List.foldr_cons]; exact le_trans (by
      induction xs with
      | nil => simp
      | cons y ys ih => simp only [List.foldr_cons]; exact le_trans ih (le_max_right _ _)) (le_max_right _ _)

theorem greedyStep_balanced {p : placement} {C : Int} (h : GreedyStep p)
    (hbal : Balanced C p.before) (h0 : 0 ≤ p.mapShard.sz) (hC : p.mapShard.sz ≤ C)
    (hfit : costSum p.before + p.mapShard.sz < 2 ^ 63) :
    Balanced C p.after ∧ costSum p.after = costSum p.before + p.mapShard.sz := by
  obtain ⟨others, chosen, hperm, hmin, _, hexact⟩ := h
  obtain ⟨hnn, hdiff⟩ := hbal
  have hmem : ∀ r, r ∈ p.before ↔ r ∈ others ∨ r = chosen := by
    intro r
    rw [hperm.mem_iff]
    simp
  have hcn : 0 ≤ chosen.sz := hnn chosen ((hmem chosen).2 (Or.inr rfl))
  have hon : ∀ r ∈ others, 0 ≤ r.sz := fun r hr => hnn r ((hmem r).2 (Or.inl hr))
  have hsum : costSum p.before = costSum others + chosen.sz := by
    rw [costSum_perm hperm, costSum_append]
    simp [costSum]
  have hothers := costSum_nonneg hon
  have hafter := hexact ⟨by omega, by omega⟩
  have hmem' : ∀ r, r ∈ p.after ↔
      r ∈ others ∨ r = { chosen with sz := chosen.sz + p.mapShard.sz } := by
    intro r
    rw [hafter]
    simp
  refine ⟨⟨?_, ?_⟩, ?_⟩
  · intro r hr
    rcases (hmem' r).1 hr with h1 | rfl
    · exact hon r h1
    · show 0 ≤ chosen.sz + p.mapShard.sz
      omega
  · intro a ha b hb
    rcases (hmem' a).1 ha with h1 | rfl <;> rcases (hmem' b).1 hb with h2 | rfl
    · exact hdiff a ((hmem a).2 (Or.inl h1)) b ((hmem b).2 (Or.inl h2))
    · have := hdiff a ((hmem a).2 (Or.inl h1)) chosen ((hmem chosen).2 (Or.inr rfl))
      show a.sz - (chosen.sz + p.mapShard.sz) ≤ C
      omega
    · have := hmin b ((hmem b).2 (Or.inl h2))
      show chosen.sz + p.mapShard.sz - b.sz ≤ C
      omega
    · show chosen.sz + p.mapShard.sz - (chosen.sz + p.mapShard.sz) ≤ C
      omega
  · rw [hafter, costSum_append, hsum]
    simp only [costSum, List.map_cons, List.map_nil, List.sum_cons, List.sum_nil]
    omega

theorem placeAll_balanced (C : Int) (l : List sizedDir) :
    ∀ rs : List sizedDir, rs ≠ [] → Balanced C rs →
      (∀ sd ∈ l, 0 ≤ sd.sz ∧ sd.sz ≤ C) → costSum rs + costSum l < 2 ^ 63 →
      ∃ trace, placeAll rs l = some trace ∧
        (finalReduceShards rs trace).length = rs.length ∧
        Balanced C (finalReduceShards rs trace) ∧
        costSum (finalReduceShards rs trace) = costSum rs + costSum l := by
  induction l with
  | nil =>
    intro rs _ hbal _ _
    exact ⟨[], rfl, rfl, hbal, by simp [finalReduceShards, costSum]⟩
  | cons sd rest ih =>
    intro rs hne hbal hl hfit
    obtain ⟨rs', h1, hlen, hstep⟩ := placeOne_greedy rs sd hne
    have hne' : rs' ≠ [] := by
      intro h
      rw [h] at hlen
      exact hne (List.length_eq_zero.1 hlen.symm)
    have hrest : ∀ sd ∈ rest, 0 ≤ sd.sz ∧ sd.sz ≤ C := fun d hd => hl d (List.mem_cons_of_mem _ hd)
    have hrn : 0 ≤ costSum rest := costSum_nonneg (fun d hd => (hrest d hd).1)
    have hcons : costSum (sd :: rest) = sd.sz + costSum rest := by simp [costSum]
    obtain ⟨hsd0, hsdC⟩ := hl sd (List.mem_cons_self _ _)
    obtain ⟨hbal', hsum'⟩ :=
      greedyStep_balanced (p := { before := rs, mapShard := sd, after := rs' }) hstep hbal
        hsd0 hsdC (by show costSum rs + sd.sz < 2 ^ 63; omega)
    have hsum'' : costSum rs' = costSum rs + sd.sz := hsum'
    obtain ⟨trace, h2, hlen2, hbal2, hsum2⟩ := ih rs' hne' hbal' hrest (by omega)
    refine ⟨{ before := rs, mapShard := sd, after := rs' } :: trace, ?_, ?_, ?_, ?_⟩
    · simp [placeAll, h1, h2]
    · show (finalReduceShards rs' trace).length = rs.length
      rw [hlen2, hlen]
    · exact hbal2
    · show costSum (finalReduceShards rs' trace) = costSum rs + costSum (sd :: rest)
      rw [hsum2, hsum'', hcons]
      omega

theorem initialReduceShards_balanced (R : Int) (reduceDirOf : Nat → String) {C : Int}
    (hC : 0 ≤ C) : Balanced C (initialReduceShards R reduceDirOf) ∧
      costSum (initialReduceShards R reduceDirOf) = 0 := by
  have hz : ∀ r ∈ initialReduceShards R reduceDirOf, r.sz = 0 := by
    intro r hr
    simp only [initialReduceShards, List.mem_map] at hr
    obtain ⟨i, _, rfl⟩ := hr
    rfl
  refine ⟨⟨fun r hr => by rw [hz r hr], fun a ha b hb => by rw [hz a ha, hz b hb]; simpa using hC⟩, ?_⟩
  unfold costSum
  apply List.sum_eq_zero
  intro x hx
  obtain ⟨d, hd, rfl⟩ := List.mem_map.1 hx
  exact hz d hd

/-! ### Lemmas on the chunker -/

theorem cutLine_some : ∀ (s l r : List Nat), cutLine s = some (l, r) → s = l ++ r ∧ IsLine l := by
  intro s
  induction s with
  | nil => intro l r h; simp [cutLine] at h
  | cons b bs ih =>
    intro l r h
    by_cases hb : b = 10
    · simp only [cutLine, hb, if_true, Option.some.injEq, Prod.mk.injEq] at h
      obtain ⟨rfl, rfl⟩ := h
      exact ⟨by simp [hb], [], by simp, by simp⟩
    · cases hc : cutLine bs with
      | none => simp [cutLine, hb, hc] at h
      | some p =>
        obtain ⟨l', r'⟩ := p
        simp only [cutLine, hb, if_false, hc, Option.some.injEq, Prod.mk.injEq] at h
        obtain ⟨rfl, rfl⟩ := h
        obtain ⟨h1, body, h2, h3⟩ := ih l' r' hc
        refine ⟨by rw [h1]; simp, b :: body, by rw [h2]; simp, ?_⟩
        simp only [List.mem_cons, not_or]
        exact ⟨fun h => hb h.symm, h3⟩

theorem cutLine_none : ∀ s : List Nat, cutLine s = none → 10 ∉ s := by
  intro s
  induction s with
  | nil => intro _; simp
  | cons b bs ih =>
    intro h
    by_cases hb : b = 10
    · simp [cutLine, hb] at h
    · cases hc : cutLine bs with
      | none =>
        simp only [List.mem_cons, not_or]
        exact ⟨fun h => hb h.symm, ih hc⟩
      | some p =>
        obtain ⟨l', r'⟩ := p
        simp [cutLine, hb, hc] at h

theorem readSlice_spec (B : Nat) (r slc r₁ : List Nat) (e : readErr)
    (h : ReadSlice B r = (slc, r₁, e)) :
    r = slc ++ r₁ ∧ (e = readErr.ok → IsLine slc) ∧ (e ≠ readErr.ok → 10 ∉ slc) ∧
      (e = readErr.EOF → r₁ = []) := by
  unfold ReadSlice at h
  cases hc : cutLine (r.take B) with
  | some p =>
    obtain ⟨line, x⟩ := p
    simp only [hc, Prod.mk.injEq] at h
    obtain ⟨rfl, rfl, rfl⟩ := h
    obtain ⟨h1, h2⟩ := cutLine_some _ _ _ hc
    have h3 : r = line ++ (x ++ r.drop B) := by
      rw [← List.append_assoc, ← h1, List.take_append_drop]
    refine ⟨?_, fun _ => h2, fun h => absurd rfl h, (fun h => by cases h)⟩
    conv_rhs => rw [h3, List.drop_left]
    exact h3
  | none =>
    have hn := cutLine_none _ hc
    by_cases hB : B ≤ r.length
    · simp only [hc, hB, if_true, Prod.mk.injEq] at h
      obtain ⟨rfl, rfl, rfl⟩ := h
      exact ⟨(List.take_append_drop B r).symm, (fun h => by cases h), fun _ => hn,
        (fun h => by cases h)⟩
    · simp only [hc, hB, if_false, Prod.mk.injEq] at h
      obtain ⟨rfl, rfl, rfl⟩ := h
      have : List.take B r = r := List.take_of_length_le (by omega)
      rw [this] at hn
      exact ⟨by simp, (fun h => by cases h), fun _ => hn, fun _ => rfl⟩

theorem readString_spec (r str r₂ : List Nat) (e : readErr)
    (h : ReadString r = (str, r₂, e)) :
    r = str ++ r₂ ∧ (e = readErr.EOF → 10 ∉ str ∧ r₂ = []) ∧ (e ≠ readErr.EOF → IsLine str) := by
  unfold ReadString at h
  cases hc : cutLine r with
  | some p =>
    obtain ⟨line, x⟩ := p
    simp only [hc, Prod.mk.injEq] at h
    obtain ⟨rfl, rfl, rfl⟩ := h
    obtain ⟨h1, h2⟩ := cutLine_some _ _ _ hc
    exact ⟨h1, (fun h => by cases h), fun _ => h2⟩
  | none =>
    simp only [hc, Prod.mk.injEq] at h
    obtain ⟨rfl, rfl, rfl⟩ := h
    exact ⟨by simp, fun _ => ⟨cutLine_none _ hc, rfl⟩, fun h => absurd rfl h⟩

theorem isLine_append {a l : List Nat} (ha : 10 ∉ a) (hl : IsLine l) : IsLine (a ++ l) := by
  obtain ⟨body, rfl, hb⟩ := hl
  refine ⟨a ++ body, by simp, ?_⟩
  simp only [List.mem_append, not_or]
  exact ⟨ha, hb⟩

theorem chunkLoop_spec (B : Nat) : ∀ (n : Nat) (batch r : List Nat),
    ∃ (lines : List (List Nat)) (tail : List Nat),
      (chunkLoop B n batch r).1 = batch ++ lines.flatten ++ tail ∧
      r = lines.flatten ++ tail ++ (chunkLoop B n batch r).2.1 ∧
      (∀ l ∈ lines, IsLine l) ∧ 10 ∉ tail ∧
      ((chunkLoop B n batch r).2.2 = true →
        (chunkLoop B n batch r).2.1 = [] ∧ lines.length < n) ∧
      ((chunkLoop B n batch r).2.2 = false → tail = [] ∧ lines.length = n) := by
  intro n
  induction n with
  | zero =>
    intro batch r
    exact ⟨[], [], by simp [chunkLoop], by simp [chunkLoop], by simp, by simp,
      by simp [chunkLoop], by simp [chunkLoop]⟩
  | succ n ih =>
    intro batch r
    have step : ∀ (line r' : List Nat), IsLine line → r = line ++ r' →
        chunkLoop B (n + 1) batch r = chunkLoop B n (batch ++ line) r' →
        ∃ (lines : List (List Nat)) (tail : List Nat),
          (chunkLoop B (n + 1) batch r).1 = batch ++ lines.flatten ++ tail ∧
          r = lines.flatten ++ tail ++ (chunkLoop B (n + 1) batch r).2.1 ∧
          (∀ l ∈ lines, IsLine l) ∧ 10 ∉ tail ∧
          ((chunkLoop B (n + 1) batch r).2.2 = true →
            (chunkLoop B (n + 1) batch r).2.1 = [] ∧ lines.length < n + 1) ∧
          ((chunkLoop B (n + 1) batch r).2.2 = false → tail = [] ∧ lines.length = n + 1) := by
      intro line r' hline hr heq
      obtain ⟨lines, tail, h1, h2, h3, h4, h5, h6⟩ := ih (batch ++ line) r'
      rw [heq]
      refine ⟨line :: lines, tail, ?_, ?_, ?_, h4, ?_, ?_⟩
      · rw [h1]; simp
      · rw [hr]
        conv_lhs => rw [h2]
        simp
      · intro l hl
        rcases List.mem_cons.1 hl with rfl | hl
        · exact hline
        · exact h3 l hl
      · intro h
        obtain ⟨ha, hb⟩ := h5 h
        exact ⟨ha, by simp only [List.length_cons]; omega⟩
      · intro h
        obtain ⟨ha, hb⟩ := h6 h
        exact ⟨ha, by simp only [List.length_cons]; omega⟩
    have stop : ∀ (tail : List Nat), 10 ∉ tail → r = tail →
        chunkLoop B (n + 1) batch r = (batch ++ tail, [], true) →
        ∃ (lines : List (List Nat)) (tail : List Nat),
          (chunkLoop B (n + 1) batch r).1 = batch ++ lines.flatten ++ tail ∧
          r = lines.flatten ++ tail ++ (chunkLoop B (n + 1) batch r).2.1 ∧
          (∀ l ∈ lines, IsLine l) ∧ 10 ∉ tail ∧
          ((chunkLoop B (n + 1) batch r).2.2 = true →
            (chunkLoop B (n + 1) batch r).2.1 = [] ∧ lines.length < n + 1) ∧
          ((chunkLoop B (n + 1) batch r).2.2 = false → tail = [] ∧ lines.length = n + 1) := by
      intro tail htail hr heq
      rw [heq]
      exact ⟨[], tail, by simp, by simp [hr], by simp, htail, by simp, by simp⟩
    rcases hrs : ReadSlice B r with ⟨slc, r₁, e⟩
    obtain ⟨s1, s2, s3, s4⟩ := readSlice_spec B r slc r₁ e hrs
    cases e with
    | ok =>
      exact step slc r₁ (s2 rfl) s1 (by simp only [chunkLoop, hrs])
    | EOF =>
      have hr₁ := s4 rfl
      subst hr₁
      exact stop slc (s3 (by simp)) (by simpa using s1) (by simp only [chunkLoop, hrs])
    | ErrBufferFull =>
      have hslc : 10 ∉ slc := s3 (by simp)
      rcases hst : ReadString r₁ with ⟨str, r₂, e₂⟩
      obtain ⟨t1, t2, t3⟩ := readString_spec r₁ str r₂ e₂ hst
      cases e₂ with
      | EOF =>
        obtain ⟨t4, t5⟩ := t2 rfl
        subst t5
        refine stop (slc ++ str) ?_ ?_ ?_
        · simp only [List.mem_append, not_or]; exact ⟨hslc, t4⟩
        · rw [s1, t1]; simp
        · simp only [chunkLoop, hrs, hst, List.append_assoc]
      | ok =>
        refine step (slc ++ str) r₂ (isLine_append hslc (t3 (by simp))) ?_ ?_
        · rw [s1, t1]; simp
        · simp only [chunkLoop, hrs, hst, List.append_assoc]
      | ErrBufferFull =>
        refine step (slc ++ str) r₂ (isLine_append hslc (t3 (by simp))) ?_ ?_
        · rw [s1, t1]; simp
        · simp only [chunkLoop, hrs, hst, List.append_assoc]

theorem splitLines_cons_of_ne (b : Nat) (bs : List Nat) (hb : ¬ b = 10) :
    splitLines (b :: bs) =
      match splitLines bs with
      | [] => [[b]]
      | l :: ls => (b :: l) :: ls := by
  simp only [splitLines, hb, if_false]

theorem splitLines_line (body rest : List Nat) (h : 10 ∉ body) :
    splitLines (body ++ [10] ++ rest) = (body ++ [10]) :: splitLines rest := by
  induction body with
  | nil => simp [splitLines]
  | cons b bs ih =>
    simp only [List.mem_cons, not_or] at h
    have hb : ¬ b = 10 := fun e => h.1 e.symm
    have := ih h.2
    rw [List.cons_append, List.cons_append, splitLines_cons_of_ne _ _ hb, this]

theorem splitLines_tail (tail : List Nat) (h : 10 ∉ tail) (hne : tail ≠ []) :
    splitLines tail = [tail] := by
  induction tail with
  | nil => exact absurd rfl hne
  | cons b bs ih =>
    simp only [List.mem_cons, not_or] at h
    have hb : ¬ b = 10 := fun e => h.1 e.symm
    cases bs with
    | nil => simp [splitLines, hb]
    | cons c cs =>
      have := ih h.2 (by simp)
      rw [splitLines_cons_of_ne _ _ hb, this]

theorem splitLines_lines (lines : List (List Nat)) (tail : List Nat)
    (hl : ∀ l ∈ lines, IsLine l) (ht : 10 ∉ tail) :
    splitLines (lines.flatten ++ tail) = lines ++ (if tail = [] then [] else [tail]) := by
  induction lines with
  | nil =>
    by_cases hne : tail = []
    · simp [hne, splitLines]
    · simp [hne, splitLines_tail tail ht hne]
  | cons l ls ih =>
    obtain ⟨body, rfl, hb⟩ := hl l (List.mem_cons_self _ _)
    have := ih (fun x hx => hl x (List.mem_cons_of_mem _ hx))
    simp only [List.flatten_cons, List.cons_append]
    rw [← this, List.append_assoc (body ++ [10]), splitLines_line body _ hb]

theorem flatten_lines_getLast (lines : List (List Nat)) (hl : ∀ l ∈ lines, IsLine l)
    (hne : lines ≠ []) : lines.flatten.getLast? = some 10 := by
  obtain ⟨init, l, rfl⟩ : ∃ init l, lines = init ++ [l] :=
    ⟨lines.dropLast, lines.getLast hne, (List.dropLast_append_getLast hne).symm⟩
  obtain ⟨body, rfl, _⟩ := hl l (by simp)
  simp [← List.append_assoc]

theorem isLine_length_pos {l : List Nat} (h : IsLine l) : 0 < l.length := by
  obtain ⟨body, rfl, _⟩ := h
  simp

theorem chunkLines_pos : 0 < chunkLines := by decide

theorem Chunk_spec (B : Nat) (r : List Nat) :
    r = (Chunk B r).1 ++ (Chunk B r).2.1 ∧
      (splitLines (Chunk B r).1).length ≤ chunkLines ∧
      ((Chunk B r).2.2 = true → (Chunk B r).2.1 = []) ∧
      ((Chunk B r).2.2 = false →
        (Chunk B r).1.getLast? = some 10 ∧ (Chunk B r).2.1.length < r.length) := by
  obtain ⟨lines, tail, h1, h2, h3, h4, h5, h6⟩ := chunkLoop_spec B chunkLines [] r
  change (chunkLoop B chunkLines [] r).1 = _ at h1
  have hc : Chunk B r = chunkLoop B chunkLines [] r := rfl
  rw [hc]
  generalize chunkLoop B chunkLines [] r = res at h1 h2 h5 h6
  obtain ⟨buf, r₁, eof⟩ := res
  simp only [List.nil_append] at h1
  simp only at h1 h2 h5 h6 ⊢
  subst h1
  refine ⟨h2, ?_, fun h => (h5 h).1, ?_⟩
  · rw [splitLines_lines lines tail h3 h4]
    cases eof with
    | true =>
      have := (h5 rfl).2
      split_ifs <;> simp <;> omega
    | false =>
      obtain ⟨ha, hb⟩ := h6 rfl
      simp [ha, hb]
  · intro h
    obtain ⟨ha, hb⟩ := h6 h
    subst ha
    have hpos := chunkLines_pos
    have hne : lines ≠ [] := by
      intro e
      rw [e] at hb
      simp only [List.length_nil] at hb
      omega
    refine ⟨by simpa using flatten_lines_getLast lines h3 hne, ?_⟩
    obtain ⟨l, ls, rfl⟩ := List.exists_cons_of_ne_nil hne
    have := isLine_length_pos (h3 l (List.mem_cons_self _ _))
    rw [h2]
    simp only [List.flatten_cons, List.append_nil, List.length_append]
    omega

theorem mapStageChunks_spec (B : Nat) : ∀ (fuel : Nat) (r : List Nat), r.length < fuel →
    ∃ chunks, mapStageChunks B fuel r = some chunks ∧ chunks.flatten = r ∧
      (∀ c ∈ chunks, c ≠ [] ∧ (splitLines c).length ≤ chunkLines) ∧
      ∀ c ∈ chunks.dropLast, c.getLast? = some 10 := by
  intro fuel
  induction fuel with
  | zero => intro r h; omega
  | succ fuel ih =>
    intro r hfuel
    obtain ⟨h1, h2, h3, h4⟩ := Chunk_spec B r
    rcases hck : Chunk B r with ⟨buf, r₁, eof⟩
    rw [hck] at h1 h2 h3 h4
    simp only at h1 h2 h3 h4
    cases eof with
    | true =>
      have hr₁ := h3 rfl
      subst hr₁
      simp only [List.append_nil] at h1
      subst h1
      by_cases hne : r = []
      · subst hne
        exact ⟨[], by simp [mapStageChunks, hck], rfl, by simp, by simp⟩
      · have hpos : r.length > 0 := List.length_pos.2 hne
        exact ⟨[r], by simp [mapStageChunks, hck, hpos], by simp,
          by simpa using ⟨hne, h2⟩, by simp⟩
    | false =>
      obtain ⟨h5, h6⟩ := h4 rfl
      obtain ⟨chunks, k1, k2, k3, k4⟩ := ih r₁ (by omega)
      have hne : buf ≠ [] := by
        intro e
        rw [e] at h5
        simp at h5
      have hpos : buf.length > 0 := List.length_pos.2 hne
      refine ⟨buf :: chunks, by simp [mapStageChunks, hck, hpos, k1], ?_, ?_, ?_⟩
      · rw [List.flatten_cons, k2, ← h1]
      · intro c hc
        rcases List.mem_cons.1 hc with rfl | hc
        · exact ⟨hne, h2⟩
        · exact k3 c hc
      · intro c hc
        cases chunks with
        | nil => simp at hc
        | cons d ds =>
          rw [List.dropLast_cons₂] at hc
          rcases List.mem_cons.1 hc with rfl | hc
          · exact h5
          · exact k4 c hc

/-! ## Shard router -/

/-- C3 (shard stability): on any `shardMap`, in any sequence of `shardFor`
calls, two calls that request the same predicate `p` return the same index. -/
theorem shardFor_index_stable (m : shardMap) (calls : List String) (p : String)
    (i j : Int) (hi : (p, i) ∈ runShardFor m calls) (hj : (p, j) ∈ runShardFor m calls) :
    i = j :=
  runShardFor_stable calls m p i j hi hj

/-- Witness of C3: three calls on a two-shard map, the predicate `a` requested
twice. -/
theorem shardFor_index_stable_witness :
    ("a", (0 : Int)) ∈ runShardFor (newShardMap 2) ["a", "b", "a"] ∧ (0 : Int) = 0 :=
  ⟨by decide,
    shardFor_index_stable (newShardMap 2) ["a", "b", "a"] "a" 0 0 (by decide) (by decide)⟩

/-- C4 (round robin): on a fresh map with `M ≥ 1` shards every call returns,
the call for the predicate that is the `k`-th distinct one requested returns
`k mod M`, and so every returned index lies in `[0, M)`. -/
theorem shardFor_round_robin (M : Int) (hM : 1 ≤ M) (hM64 : M < 2 ^ 63)
    (calls : List String) :
    runShardFor (newShardMap M) calls =
        calls.map (fun p => (p, (((firstSeen calls).indexOf p : Nat) : Int) % M)) ∧
      ∀ x ∈ runShardFor (newShardMap M) calls, 0 ≤ x.2 ∧ x.2 < M := by
  have h := runShardFor_roundRobin hM hM64 calls [] (newShardMap M) (roundRobinState_fresh M)
  refine ⟨h, ?_⟩
  intro x hx
  rw [h] at hx
  obtain ⟨p, _, rfl⟩ := List.mem_map.1 hx
  exact ⟨Int.emod_nonneg _ (by omega), Int.emod_lt_of_pos _ (by omega)⟩

/-- Witness of C4: four calls naming three distinct predicates on two shards. -/
theorem shardFor_round_robin_witness :
    (1 : Int) ≤ 2 ∧ (2 : Int) < 2 ^ 63 ∧
      (runShardFor (newShardMap 2) ["a", "b", "c", "a"] =
          ["a", "b", "c", "a"].map
            (fun p => (p, (((firstSeen ["a", "b", "c", "a"]).indexOf p : Nat) : Int) % 2)) ∧
        ∀ x ∈ runShardFor (newShardMap 2) ["a", "b", "c", "a"], 0 ≤ x.2 ∧ x.2 < (2 : Int)) :=
  ⟨by decide, by decide, shardFor_round_robin 2 (by decide) (by decide) ["a", "b", "c", "a"]⟩

/-! ## Schema weights -/

/-- C8, as stated, fails: the line `hashtag: string .` declares no index kind,
so the specification's weight is 1, but `getWeight` finds `hash` inside the
predicate name and returns 2. -/
theorem getWeight_declared_counterexample :
    (∀ k ∈ indexKinds, ¬ k.1.toList <:+: declarationPart "hashtag: string .") ∧
      declaredWeight "hashtag: string ." = 1 ∧ getWeight "hashtag: string ." = 2 ∧
      getWeight "hashtag: string ." ≠ declaredWeight "hashtag: string ." := by
  decide

/-- C8, amended: `getWeight` is 1 plus the contributions of the index-kind
names occurring anywhere in the line, it lies between 1 and 16, and when no
index-kind name occurs in the predicate part of the line it is 1 plus the
contributions of the kinds named in the schema declaration. -/
theorem getWeight_occurring_kinds (line : String) :
    getWeight line = occurringWeight line ∧ 1 ≤ getWeight line ∧ getWeight line ≤ 16 ∧
      ((∀ k ∈ indexKinds, ¬ k.1.toList <:+: predicatePart line) →
        getWeight line = declaredWeight line) :=
  ⟨getWeight_eq_occurring line, (getWeight_bounds line).1, (getWeight_bounds line).2,
    getWeight_eq_declared line⟩

/-- Witness of the amended C8: a line declaring `term` and `hash` has weight
1 + 3 + 1. -/
theorem getWeight_occurring_kinds_witness :
    (∀ k ∈ indexKinds, ¬ k.1.toList <:+: predicatePart "name: string @index(term, hash) .") ∧
      getWeight "name: string @index(term, hash) ." =
        declaredWeight "name: string @index(term, hash) ." ∧
      declaredWeight "name: string @index(term, hash) ." = 5 :=
  ⟨by decide,
    (getWeight_occurring_kinds "name: string @index(term, hash) .").2.2.2 (by decide),
    by decide⟩

/-- C9 (weight monotonicity): `getWeight` is at least 1, and if every
index-kind name occurring in `s` also occurs in `s'` then
`getWeight s ≤ getWeight s'`. -/
theorem getWeight_monotone (s s' : String)
    (h : ∀ k ∈ indexKinds, stringsContains s k.1 = true → stringsContains s' k.1 = true) :
    1 ≤ getWeight s ∧ getWeight s ≤ getWeight s' :=
  ⟨(getWeight_bounds s).1, getWeight_mono_of_kinds s s' h⟩

/-- Witness of C9: a schema line and an extension of it that adds the `term`
index. -/
theorem getWeight_monotone_witness :
    "name: string @index(hash".toList <:+: "name: string @index(hash, term) .".toList ∧
      1 ≤ getWeight "name: string @index(hash" ∧
      getWeight "name: string @index(hash" ≤ getWeight "name: string @index(hash, term) ." :=
  ⟨by decide,
    getWeight_monotone "name: string @index(hash" "name: string @index(hash, term) ."
      (fun k _ => stringsContains_of_infix (by decide) k.1)⟩

/-! ## Spill files and shard costs -/

/-- C1 fails on the code: `writeMapEntriesToFile` writes every buffer in the
order in which the entries were appended, and for the two-entry buffer below
the written sequence is not non-decreasing. -/
theorem writeMapEntriesToFile_unsorted :
    (∀ entries : List String, writeMapEntriesToFile entries = entries) ∧
      ((addMapEntry [⟨[], 0⟩] "<0x2> <name> \"bob\" .\n" 0).bind
          (fun shards => addMapEntry shards "<0x1> <name> \"alice\" .\n" 0)).bind
          (fun shards => (shards.get? 0).bind flushShard) =
        some ["<0x2> <name> \"bob\" .\n", "<0x1> <name> \"alice\" .\n"] ∧
      nonDecreasing
          (writeMapEntriesToFile ["<0x2> <name> \"bob\" .\n", "<0x1> <name> \"alice\" .\n"]) =
        false :=
  ⟨writeMapEntriesToFile_eq, by decide, by decide⟩

/-- C6 fails on the code: `readSize` returns `len(dirs)` zero-valued entries
followed by one entry per directory, so for one directory it returns two
entries, the first with an empty name. -/
theorem readSize_leading_zero_entries :
    (∀ (treeSize : String → Int) (dirs : List String),
        readSize treeSize dirs =
          List.replicate dirs.length { dir := "", sz := 0 } ++
            dirs.map (fun d => { dir := d, sz := treeSize d })) ∧
      readSize (fun _ => 4096) ["tmp/map_shards/000"] =
        [{ dir := "", sz := 0 }, { dir := "tmp/map_shards/000", sz := 4096 }] ∧
      (readSize (fun _ => 4096) ["tmp/map_shards/000"]).length ≠
        ["tmp/map_shards/000"].length :=
  ⟨readSize_eq, by decide, by decide⟩

/-! ## K-way merge -/

/-- C2 (merge totality): for every list of map iterators, each yielding a
sequence that is non-decreasing under `less`, `reduce` returns, and the batches
it sends on `entryCh`, put end to end, are non-decreasing under `less` and a
permutation of the entries of all the iterators. -/
theorem reduce_merge_sorted_perm (mapItrs : List (List MapEntry))
    (hsorted : ∀ itr ∈ mapItrs, nonDecreasingBy less itr = true) :
    ∃ out, reduce less mapItrs = some out ∧ nonDecreasingBy less out.1.flatten = true ∧
      out.1.flatten.Perm mapItrs.flatten :=
  reduce_spec less strictWeak_less mapItrs hsorted

/-- Witness of C2: three iterators, one of them empty, with an entry that occurs
in two of them. -/
theorem reduce_merge_sorted_perm_witness :
    reduce less
        [[{ Key := some [1], Uid := 1, Posting := none },
          { Key := some [1], Uid := 3, Posting := none },
          { Key := some [2], Uid := 1, Posting := none }],
          [],
          [{ Key := some [0, 7], Uid := 9, Posting := none },
            { Key := some [1], Uid := 3, Posting := none }]] =
      some
        ([[{ Key := some [0, 7], Uid := 9, Posting := none },
            { Key := some [1], Uid := 1, Posting := none },
            { Key := some [1], Uid := 3, Posting := none },
            { Key := some [1], Uid := 3, Posting := none },
            { Key := some [2], Uid := 1, Posting := none }]],
          [(some [0, 7], 1), (some [1], 3), (some [2], 1)]) ∧
    ∃ out,
      reduce less
          [[{ Key := some [1], Uid := 1, Posting := none },
            { Key := some [1], Uid := 3, Posting := none },
            { Key := some [2], Uid := 1, Posting := none }],
            [],
            [{ Key := some [0, 7], Uid := 9, Posting := none },
              { Key := some [1], Uid := 3, Posting := none }]] = some out ∧
        nonDecreasingBy less out.1.flatten = true ∧
        out.1.flatten.Perm
          [[{ Key := some [1], Uid := 1, Posting := none },
            { Key := some [1], Uid := 3, Posting := none },
            { Key := some [2], Uid := 1, Posting := none }],
            [],
            [{ Key := some [0, 7], Uid := 9, Posting := none },
              { Key := some [1], Uid := 3, Posting := none }]].flatten :=
  ⟨by decide, reduce_merge_sorted_perm _ (by decide)⟩

/-! ## Count-index calls -/

/-- C11: for every list of iterators `reduce` returns, and its output stream
cuts into maximal runs of consecutive entries with equal key such that
`ci.addUid` is called exactly once per run, in stream order, with the run's key
and the number of entries of the run; in program order each call comes after
the entries of its run were added to a batch and before any entry of the next
run is, the call for the last run coming at the end of the stream. -/
theorem reduce_addUid_per_run (mapItrs : List (List MapEntry)) :
    ∃ out events runs, reduce less mapItrs = some out ∧
      reduceTrace less mapItrs = some events ∧
      IsKeyRuns runs ∧ out.1.flatten = runs.flatten ∧
      out.2 = runs.map (fun r => (runKey r, r.length)) ∧
      events = runs.flatMap runEvents :=
  reduce_trace_spec less strictWeak_less mapItrs

/-- A run of `reduce` on two iterators with three keys: the record of its
events and the statement of C11 for it. -/
theorem reduce_addUid_per_run_witness :
    reduceTrace less
        [[{ Key := some [1], Uid := 1, Posting := none },
          { Key := some [2], Uid := 1, Posting := none }],
          [{ Key := some [1], Uid := 2, Posting := none },
            { Key := some [3], Uid := 4, Posting := none }]] =
      some
        [reduceEvent.added { Key := some [1], Uid := 1, Posting := none },
          reduceEvent.added { Key := some [1], Uid := 2, Posting := none },
          reduceEvent.addUid (some [1]) 2,
          reduceEvent.added { Key := some [2], Uid := 1, Posting := none },
          reduceEvent.addUid (some [2]) 1,
          reduceEvent.added { Key := some [3], Uid := 4, Posting := none },
          reduceEvent.addUid (some [3]) 1] ∧
    ∃ out events runs,
      reduce less
          [[{ Key := some [1], Uid := 1, Posting := none },
            { Key := some [2], Uid := 1, Posting := none }],
            [{ Key := some [1], Uid := 2, Posting := none },
              { Key := some [3], Uid := 4, Posting := none }]] = some out ∧
        reduceTrace less
          [[{ Key := some [1], Uid := 1, Posting := none },
            { Key := some [2], Uid := 1, Posting := none }],
            [{ Key := some [1], Uid := 2, Posting := none },
              { Key := some [3], Uid := 4, Posting := none }]] = some events ∧
        IsKeyRuns runs ∧ out.1.flatten = runs.flatten ∧
        out.2 = runs.map (fun r => (runKey r, r.length)) ∧
        events = runs.flatMap runEvents :=
  ⟨by decide, reduce_addUid_per_run _⟩

/-! ## Stream ids -/

/-- C12 (stream-id uniqueness): on a reducer that has registered no predicate
and whose counter stands at `streamId0`, for calls naming fewer than 2^32
distinct predicates, the `n`-th distinct predicate requested (from 1) receives
the `uint32` sum `streamId0 + n` at every call for it, two calls return the same
id if and only if they name the same predicate, and the sum is exact when
`streamId0` plus the number of distinct predicates stays below 2^32, as it does
for the counter's initial value 0. -/
theorem streamIdFor_unique (streamId0 : Nat) (h0 : streamId0 < 2 ^ 32) (calls : List String)
    (hfew : (firstSeen calls).length < 2 ^ 32) :
    runStreamIdFor (freshReducer streamId0) calls =
        calls.map (fun p => (p, (streamId0 + (firstSeen calls).indexOf p + 1) % 2 ^ 32)) ∧
      (∀ x ∈ runStreamIdFor (freshReducer streamId0) calls,
        ∀ y ∈ runStreamIdFor (freshReducer streamId0) calls, x.2 = y.2 ↔ x.1 = y.1) ∧
      (streamId0 + (firstSeen calls).length < 2 ^ 32 →
        runStreamIdFor (freshReducer streamId0) calls =
          calls.map (fun p => (p, streamId0 + ((firstSeen calls).indexOf p + 1)))) := by
  have hrun : runStreamIdFor (freshReducer streamId0) calls =
      calls.map (fun p => (p, (streamId0 + (firstSeen calls).indexOf p + 1) % 2 ^ 32)) :=
    runStreamIdFor_spec streamId0 calls [] (freshReducer streamId0)
      (streamIdState_fresh streamId0 h0)
  have hmem : ∀ p ∈ calls, p ∈ firstSeen calls := fun p hp =>
    (mem_firstSeenFrom calls [] p).2 (Or.inr hp)
  have hidx : ∀ p ∈ calls, (firstSeen calls).indexOf p < (firstSeen calls).length :=
    fun p hp => List.indexOf_lt_length.2 (hmem p hp)
  refine ⟨hrun, ?_, ?_⟩
  · intro x hx y hy
    rw [hrun] at hx hy
    obtain ⟨p, hp, rfl⟩ := List.mem_map.1 hx
    obtain ⟨q, hq, rfl⟩ := List.mem_map.1 hy
    have hp' : (firstSeen calls).indexOf p < (firstSeen calls).length := hidx p hp
    have hq' : (firstSeen calls).indexOf q < (firstSeen calls).length := hidx q hq
    constructor
    · intro h
      simp only at h
      apply indexOf_inj_of_mem (hmem p hp)
      show (firstSeen calls).indexOf p = (firstSeen calls).indexOf q
      omega
    · intro h
      simp only at h
      rw [h]
  · intro hsmall
    rw [hrun]
    apply List.map_congr_left
    intro p hp
    have hp' := hidx p hp
    have : (streamId0 + (firstSeen calls).indexOf p + 1) % 2 ^ 32 =
        streamId0 + ((firstSeen calls).indexOf p + 1) := by
      rw [Nat.mod_eq_of_lt (by omega)]
      omega
    exact congrArg (Prod.mk p) this

/-- Witness of C12: a reducer with counter 0, four calls naming three
predicates. -/
theorem streamIdFor_unique_witness :
    (0 : Nat) < 2 ^ 32 ∧ (firstSeen ["name", "age", "name", "friend"]).length < 2 ^ 32 ∧
      runStreamIdFor (freshReducer 0) ["name", "age", "name", "friend"] =
        [("name", 1), ("age", 2), ("name", 1), ("friend", 3)] ∧
      ∀ x ∈ runStreamIdFor (freshReducer 0) ["name", "age", "name", "friend"],
        ∀ y ∈ runStreamIdFor (freshReducer 0) ["name", "age", "name", "friend"],
          x.2 = y.2 ↔ x.1 = y.1 :=
  ⟨by decide, by decide, by decide,
    (streamIdFor_unique 0 (by decide) ["name", "age", "name", "friend"] (by decide)).2.1⟩

/-! ## Weighted costs -/

/-- C7, as stated, fails: for a map shard of 2^62 bytes whose only predicate
has weight 2, the cost entry is the wrapped `int64` product -2^63 and not the
product 2^63 of size and weight. -/
theorem getWeightedDirs_overflow_counterexample :
    getWeightedDirs (fun _ => "tmp/map_shards/000") (fun _ => 2 ^ 62) [("<name>", 0)]
        [("<name>", "name: string @index(hash) .")] =
      [{ dir := "tmp/map_shards/000", sz := -(2 ^ 63) }] ∧
    (2 ^ 62 : Int) * getWeight "name: string @index(hash) ." = 2 ^ 63 := by
  decide

/-- C7, amended: `getWeightedDirs` returns exactly one entry for each map-shard
directory that received at least one predicate and no other entry; the cost of
an entry is the `int64` (wrapping) product of the directory's on-disk size and
the sum of `getWeight` over the schema lines of the predicates routed there,
which is the exact product whenever that fits in `int64`; a predicate without a
schema line counts with weight 1. -/
theorem getWeightedDirs_costs (dirOf : Int → String) (treeSize : String → Int)
    (predToShard : List (String × Int)) (pred2Schema : List (String × String)) :
    ((getWeightedDirs dirOf treeSize predToShard pred2Schema).map (fun e => e.dir)).Nodup ∧
      (∀ d, d ∈ (getWeightedDirs dirOf treeSize predToShard pred2Schema).map (fun e => e.dir) ↔
        routedTo dirOf predToShard d = true) ∧
      (∀ e ∈ getWeightedDirs dirOf treeSize predToShard pred2Schema,
        e.sz = wrapInt64 (treeSize e.dir * weightSum dirOf pred2Schema predToShard e.dir) ∧
        (isInt64 (treeSize e.dir * weightSum dirOf pred2Schema predToShard e.dir) →
          e.sz = treeSize e.dir * weightSum dirOf pred2Schema predToShard e.dir)) ∧
      (∀ pred, pred2Schema.lookup pred = none → getWeight (schemaOf pred2Schema pred) = 1) := by
  obtain ⟨hnd, hl⟩ := weightedTemp_final dirOf treeSize predToShard pred2Schema
  rw [getWeightedDirs_eq]
  have hkeys : ((predToShard.foldl (weightedStep dirOf treeSize pred2Schema) []).map
      (fun e => ({ dir := e.1, sz := e.2 } : sizedDir))).map (fun e => e.dir) =
      (predToShard.foldl (weightedStep dirOf treeSize pred2Schema) []).map Prod.fst := by
    rw [List.map_map]; rfl
  refine ⟨by rw [hkeys]; exact hnd, ?_, ?_, ?_⟩
  · intro d
    rw [hkeys, ← lookup_isSome_iff_mem_keys, hl d]
    by_cases hr : routedTo dirOf predToShard d = true <;> simp [hr]
  · intro e he
    obtain ⟨x, hx, rfl⟩ := List.mem_map.1 he
    have h1 := lookup_of_mem_nodup_keys _ x.1 x.2 hnd hx
    rw [hl x.1] at h1
    have h2 : x.2 = wrapInt64 (treeSize x.1 * weightSum dirOf pred2Schema predToShard x.1) := by
      by_cases hr : routedTo dirOf predToShard x.1 = true
      · rw [if_pos hr] at h1
        exact (Option.some.inj h1).symm
      · rw [if_neg hr] at h1
        cases h1
    refine ⟨h2, ?_⟩
    intro hfit
    show x.2 = _
    rw [h2, wrapInt64_of_isInt64 hfit]
  · intro pred hp
    simp only [schemaOf, hp, Option.getD_none]
    decide

/-- Witness of the amended C7: three predicates on two map shards; the shard
holding `<name>` (weight 2) and `<bio>` (weight 5) costs 100 * 7. -/
theorem getWeightedDirs_costs_witness :
    getWeightedDirs (fun i => if i = 0 then "tmp/map_shards/000" else "tmp/map_shards/001")
        (fun d => if d = "tmp/map_shards/000" then 100 else 50)
        [("<name>", 0), ("<age>", 1), ("<bio>", 0)]
        [("<name>", "name: string @index(hash) ."), ("<bio>", "bio: string @index(fulltext) .")] =
      [{ dir := "tmp/map_shards/000", sz := 700 }, { dir := "tmp/map_shards/001", sz := 50 }] ∧
    ∀ e ∈ getWeightedDirs (fun i => if i = 0 then "tmp/map_shards/000" else "tmp/map_shards/001")
        (fun d => if d = "tmp/map_shards/000" then 100 else 50)
        [("<name>", 0), ("<age>", 1), ("<bio>", 0)]
        [("<name>", "name: string @index(hash) ."), ("<bio>", "bio: string @index(fulltext) .")],
      e.sz = wrapInt64 ((fun d => if d = "tmp/map_shards/000" then 100 else 50) e.dir *
        weightSum (fun i => if i = 0 then "tmp/map_shards/000" else "tmp/map_shards/001")
          [("<name>", "name: string @index(hash) ."), ("<bio>", "bio: string @index(fulltext) .")]
          [("<name>", 0), ("<age>", 1), ("<bio>", 0)] e.dir) :=
  ⟨by decide,
    fun e he => ((getWeightedDirs_costs _ _ _ _).2.2.1 e he).1⟩

/-! ## Greedy placement -/

/-- C5, as stated, fails: with one reduce shard and two map shards of cost 2^62
the second placement takes the accumulated cost from 2^62 to -2^63, which is not
a growth by the map shard's cost. -/
theorem placement_overflow_counterexample :
    placementPlan 1 (fun _ => "tmp/reduce_shards/shard_0")
        [{ dir := "tmp/map_shards/000", sz := 2 ^ 62 },
          { dir := "tmp/map_shards/001", sz := 2 ^ 62 }] =
      some
        [{ before := [{ dir := "tmp/reduce_shards/shard_0", sz := 0 }]
           mapShard := { dir := "tmp/map_shards/000", sz := 2 ^ 62 }
           after := [{ dir := "tmp/reduce_shards/shard_0", sz := 2 ^ 62 }] },
          { before := [{ dir := "tmp/reduce_shards/shard_0", sz := 2 ^ 62 }]
            mapShard := { dir := "tmp/map_shards/001", sz := 2 ^ 62 }
            after := [{ dir := "tmp/reduce_shards/shard_0", sz := -(2 ^ 63) }] }] ∧
    (-(2 ^ 63) : Int) ≠ 2 ^ 62 + 2 ^ 62 := by
  decide

/-- C5, amended: for `R ≥ 1` the placement loop runs to its end on every cost
list; the map shards are taken in non-increasing order of cost (a stable sort of
the input); each one is added to a reduce shard whose accumulated cost is minimal
among the `R` reduce shards at that moment; that reduce shard's cost becomes the
`int64` sum of its cost and the map shard's cost, the exact sum whenever it fits
in `int64`, and the other reduce shards are unchanged. -/
theorem placement_greedy (R : Int) (hR : 1 ≤ R) (reduceDirOf : Nat → String)
    (shardDirs : List sizedDir) :
    (sortBySzDesc shardDirs).Perm shardDirs ∧
      (sortBySzDesc shardDirs).Pairwise (fun a b => b.sz ≤ a.sz) ∧
      ∃ trace,
        placeAll (initialReduceShards R reduceDirOf) (sortBySzDesc shardDirs) = some trace ∧
        (shardDirs ≠ [] → placementPlan R reduceDirOf shardDirs = some trace) ∧
        trace.map (fun p => p.mapShard) = sortBySzDesc shardDirs ∧
        chained (initialReduceShards R reduceDirOf) trace ∧
        ∀ p ∈ trace, p.before.length = R.toNat ∧ GreedyStep p := by
  have hlen := initialReduceShards_length R reduceDirOf
  have hne : initialReduceShards R reduceDirOf ≠ [] := by
    intro h
    rw [h] at hlen
    simp only [List.length_nil] at hlen
    omega
  obtain ⟨trace, h1, h2, h3, h4⟩ :=
    placeAll_greedy (sortBySzDesc shardDirs) (initialReduceShards R reduceDirOf) hne
  refine ⟨sortBySzDesc_perm shardDirs, sortBySzDesc_sorted shardDirs, trace, h1, ?_, h2, h3, ?_⟩
  · intro hs
    have : ¬ shardDirs.length = 0 := fun h => hs (List.length_eq_zero.1 h)
    simp only [placementPlan, this, if_false, h1]
  · intro p hp
    rw [← hlen]
    exact h4 p hp

/-- Witness of the amended C5: three map shards of costs 50, 100 and 30 on two
reduce shards. -/
theorem placement_greedy_witness :
    (1 : Int) ≤ 2 ∧
      placementPlan 2 (fun i => if i = 0 then "shard_0" else "shard_1")
          [{ dir := "000", sz := 50 }, { dir := "001", sz := 100 }, { dir := "002", sz := 30 }] =
        some
          [{ before := [{ dir := "shard_0", sz := 0 }, { dir := "shard_1", sz := 0 }]
             mapShard := { dir := "001", sz := 100 }
             after := [{ dir := "shard_0", sz := 0 }, { dir := "shard_1", sz := 100 }] },
            { before := [{ dir := "shard_0", sz := 0 }, { dir := "shard_1", sz := 100 }]
              mapShard := { dir := "000", sz := 50 }
              after := [{ dir := "shard_1", sz := 100 }, { dir := "shard_0", sz := 50 }] },
            { before := [{ dir := "shard_1", sz := 100 }, { dir := "shard_0", sz := 50 }]
              mapShard := { dir := "002", sz := 30 }
              after := [{ dir := "shard_1", sz := 100 }, { dir := "shard_0", sz := 80 }] }] ∧
      ∃ trace,
        placeAll (initialReduceShards 2 (fun i => if i = 0 then "shard_0" else "shard_1"))
            (sortBySzDesc
              [{ dir := "000", sz := 50 }, { dir := "001", sz := 100 },
                { dir := "002", sz := 30 }]) = some trace ∧
          ∀ p ∈ trace, p.before.length = (2 : Int).toNat ∧ GreedyStep p :=
  ⟨by decide, by decide,
    let ⟨trace, h1, _, _, _, h5⟩ :=
      (placement_greedy 2 (by decide) (fun i => if i = 0 then "shard_0" else "shard_1")
        [{ dir := "000", sz := 50 }, { dir := "001", sz := 100 }, { dir := "002", sz := 30 }]).2.2
    ⟨trace, h1, h5⟩⟩

/-! ## Posting-list builder -/

/-- C10, as stated, fails.  Two entries of one key that both carry a posting
and have uid 0 are non-decreasing by (key, uid), yet `toList` collects their
posting uids 5, 3 in arrival order.  And after a first entry with a `nil` key no
group is emitted on the change of key, so the ids 5 and 3 of two different keys
end up in one list. -/
theorem toList_ids_counterexample :
    (nonDecreasingBy less
          [{ Key := some [1], Uid := 0, Posting := some { Uid := 5, Value := [] } },
            { Key := some [1], Uid := 0, Posting := some { Uid := 3, Value := [] } }] = true ∧
        (encodeAndWrite
            [[{ Key := some [1], Uid := 0, Posting := some { Uid := 5, Value := [] } },
              { Key := some [1], Uid := 0, Posting := some { Uid := 3, Value := [] } }]]).emitted =
          [{ key := some [1], uids := [5, 3],
             postings := [{ Uid := 5, Value := [] }, { Uid := 3, Value := [] }] }]) ∧
      (nonDecreasingBy less
          [{ Key := none, Uid := 5, Posting := none },
            { Key := some [1], Uid := 3, Posting := none }] = true ∧
        (encodeAndWrite
            [[{ Key := none, Uid := 5, Posting := none },
              { Key := some [1], Uid := 3, Posting := none }]]).emitted =
          [{ key := some [1], uids := [5, 3], postings := [] }]) := by
  decide

/-- C10, amended: for every stream of entries with non-nil keys that is
non-decreasing by (key, id), cut into batches in any way, each key of the stream
gets exactly one id list, and that list is strictly increasing and holds exactly
the ids of the entries of that key, each once. -/
theorem toList_ids_strictly_increasing (batches : List (List MapEntry))
    (hkeys : ∀ e ∈ batches.flatten, e.Key ≠ none)
    (hsorted : nonDecreasingBy lessById batches.flatten = true) :
    (∀ g ∈ (encodeAndWrite batches).emitted,
        g.uids.Pairwise (fun a b => a < b) ∧ g.uids.Nodup ∧
          ∀ u, u ∈ g.uids ↔ ∃ e ∈ batches.flatten, e.Key = g.key ∧ entryId e = u) ∧
      ((encodeAndWrite batches).emitted.map (fun g => g.key)).Nodup ∧
      ∀ e ∈ batches.flatten, e.Key ∈ (encodeAndWrite batches).emitted.map (fun g => g.key) := by
  obtain ⟨h1, h2, h3⟩ := encodeAndWrite_groups batches hkeys hsorted
  exact ⟨fun g hg => ⟨(h1 g hg).1, nodup_of_pairwise_lt _ (h1 g hg).1, (h1 g hg).2⟩,
    nodup_of_pairwise_bytesLess _ h2, h3⟩

/-- Witness of the amended C10: four entries in two batches, the cut inside the
run of the first key, with a repeated (key, id) pair. -/
theorem toList_ids_strictly_increasing_witness :
    (encodeAndWrite
          [[{ Key := some [1], Uid := 2, Posting := none },
            { Key := some [1], Uid := 2, Posting := none }],
            [{ Key := some [1], Uid := 0, Posting := some { Uid := 7, Value := [] } },
              { Key := some [2], Uid := 1, Posting := none }]]).emitted =
        [{ key := some [1], uids := [2, 7], postings := [{ Uid := 7, Value := [] }] },
          { key := some [2], uids := [1], postings := [] }] ∧
      ∀ g ∈ (encodeAndWrite
          [[{ Key := some [1], Uid := 2, Posting := none },
            { Key := some [1], Uid := 2, Posting := none }],
            [{ Key := some [1], Uid := 0, Posting := some { Uid := 7, Value := [] } },
              { Key := some [2], Uid := 1, Posting := none }]]).emitted,
        g.uids.Pairwise (fun a b => a < b) ∧ g.uids.Nodup :=
  ⟨by decide,
    fun g hg =>
      ⟨((toList_ids_strictly_increasing _ (by decide) (by decide)).1 g hg).1,
        ((toList_ids_strictly_increasing _ (by decide) (by decide)).1 g hg).2.1⟩⟩

/-! ## Progress counters and batching -/

/-- C18 fails on the code: for the empty stream of a reduce shard that received
no data, the last `toList` call, with `finish` set, runs `appendToList`, which
increments `reduceKeyCount` before it finds no uids and returns.  The counter
grows by 1 although the stream has no key and no KV is produced, whatever the
number of empty batches; a reducer with three copies of one entry and a reducer
with no data together count two keys for one.  Inside the loop the call is made
only when there is a current key: the first entry of a stream counts no key. -/
theorem encodeAndWrite_empty_stream_counts_key :
    ((encodeAndWrite []).reduceKeyCount = 1 ∧ (encodeAndWrite []).reduceEdgeCount = 0 ∧
        (encodeAndWrite []).emitted = [] ∧
        distinctKeys ([] : List (List MapEntry)).flatten = 0) ∧
      (∀ batches : List (List MapEntry), batches.flatten = [] →
        (encodeAndWrite batches).reduceKeyCount = 1 ∧ (encodeAndWrite batches).emitted = []) ∧
      ((encodeAndWrite
            [[{ Key := some [7], Uid := 2, Posting := none },
              { Key := some [7], Uid := 2, Posting := none },
              { Key := some [7], Uid := 2, Posting := none }]]).reduceKeyCount +
          (encodeAndWrite []).reduceKeyCount = 2) ∧
      (∀ e : MapEntry, (toListEntry initialToListState e).reduceKeyCount = 0) := by
  refine ⟨by decide, ?_, by decide, ?_⟩
  · intro batches hnil
    have h := encodeAndWrite_flatten batches
    rw [h, hnil]
    decide
  · intro e
    cases hp : e.Posting <;> simp [toListEntry, initialToListState, hp]

/-- The counters after `encodeAndWrite`: `reduceEdgeCount` is the number of map
entries of the stream; for a non-empty stream with non-nil keys that is
non-decreasing by key (as a merged stream is) `reduceKeyCount` is the number of
distinct keys; for the empty stream it is 1. -/
theorem encodeAndWrite_counts (batches : List (List MapEntry)) :
    (encodeAndWrite batches).reduceEdgeCount = batches.flatten.length ∧
      (batches.flatten = [] → (encodeAndWrite batches).reduceKeyCount = 1) ∧
      ((∀ e ∈ batches.flatten, e.Key ≠ none) →
        nonDecreasingBy keyLess batches.flatten = true → batches.flatten ≠ [] →
        (encodeAndWrite batches).reduceKeyCount = distinctKeys batches.flatten) := by
  refine ⟨encodeAndWrite_edgeCount batches, ?_, encodeAndWrite_keyCount batches⟩
  intro hnil
  rw [encodeAndWrite_keyCount_eq, hnil]
  rfl

/-- An instance of `encodeAndWrite_counts`: three copies of one (key, uid) entry
give `reduceEdgeCount = 3` and `reduceKeyCount = 1`. -/
theorem encodeAndWrite_counts_witness :
    (encodeAndWrite
          [[{ Key := some [7], Uid := 2, Posting := none },
            { Key := some [7], Uid := 2, Posting := none },
            { Key := some [7], Uid := 2, Posting := none }]]).reduceEdgeCount = 3 ∧
      (encodeAndWrite
          [[{ Key := some [7], Uid := 2, Posting := none },
            { Key := some [7], Uid := 2, Posting := none },
            { Key := some [7], Uid := 2, Posting := none }]]).reduceKeyCount = 1 ∧
      (encodeAndWrite
          [[{ Key := some [7], Uid := 2, Posting := none },
            { Key := some [7], Uid := 2, Posting := none },
            { Key := some [7], Uid := 2, Posting := none }]]).reduceKeyCount =
        distinctKeys
          [[{ Key := some [7], Uid := 2, Posting := none },
            { Key := some [7], Uid := 2, Posting := none },
            { Key := some [7], Uid := 2, Posting := none }]].flatten :=
  ⟨by decide, by decide,
    (encodeAndWrite_counts _).2.2 (by decide) (by decide) (by decide)⟩

/-- C19 (batching): whatever the cut of a stream into batches, the calls of
`toList` on the batches with one shared builder, followed by the call with
`finish` set, end in the same state and produce the same KVs as on the whole
stream as a single batch. -/
theorem toList_batching_independent (codec : postingCodec) (writeTs : Nat)
    (batches : List (List MapEntry)) :
    encodeAndWrite batches = encodeAndWrite [batches.flatten] ∧
      producedKVs codec writeTs (encodeAndWrite batches) =
        producedKVs codec writeTs (encodeAndWrite [batches.flatten]) := by
  have h := encodeAndWrite_flatten batches
  exact ⟨h, by rw [h]⟩

/-! ## Input format -/

/-- C17 fails on the code: the first case of `DataFormat` also holds when the
format option is `rdf`, so a name ending in `.json` (with or without `.gz`)
yields `RdfFormat` under that option; with the option empty or `json` the same
names yield `JsonFormat`. -/
theorem dataFormat_option_overrides_json :
    DataFormat "data.json" "rdf" = InputFormat.RdfFormat ∧
      DataFormat "data.JSON.gz" "RDF" = InputFormat.RdfFormat ∧
      DataFormat "data.json" "" = InputFormat.JsonFormat ∧
      DataFormat "data.json" "json" = InputFormat.JsonFormat ∧
      DataFormat "data.rdf" "json" = InputFormat.RdfFormat ∧
      DataFormat "data.txt" "" = InputFormat.UnknownFormat := by
  decide

/-! ## processNQuad -/

/-- C14 fails on the code: in reassign-ids mode the object token `_:` begins
with the blank-node marker, yet `processNQuad` keeps it as it is, because its
test asks for more than two bytes.  On the line `_: <p> _: .` the label `_:` is
replaced by `<0xff>` as subject and left alone as object, while `ParseRDF`, whose
test asks for at least two bytes, files the same object as an object id. -/
theorem processNQuad_bare_marker_object_kept :
    (processNQuad true (fun s => if s = "_:x" then 26 else 255)
          { shardMap := newShardMap 2, shards := [⟨[], 0⟩, ⟨[], 0⟩] }
          "_: <p> _: .\n").map (fun r => (r.1.shards, r.2)) =
        some ([⟨["<0xff> <p> _: .\n"], 16⟩, ⟨[], 0⟩], processResult.ok) ∧
      (processNQuad true (fun s => if s = "_:x" then 26 else 255)
          { shardMap := newShardMap 2, shards := [⟨[], 0⟩, ⟨[], 0⟩] }
          "_:x <p> _: .\n").map (fun r => (r.1.shards, r.2)) =
        some ([⟨["<0x1a> <p> _: .\n"], 16⟩, ⟨[], 0⟩], processResult.ok) ∧
      ParseRDF true "_: <p> _: .\n" =
        some (parseResult.nquad
          { Subject := "_:", Predicate := "<p>", ObjectId := "_:", ObjectValue := "" }) ∧
      internsObject ['_', ':'] = false ∧ isObjectId "_:" = true := by
  decide

/-- What `processNQuad` does in reassign-ids mode on a line made of three tokens,
each followed by a space or a tab, and a trailing part: the entry routed to the
shard of the predicate is `S`, predicate, `O`, trailing joined by single spaces,
with `S` the hex form of the subject's id and `O` the hex form of the object's id
when the test `internsObject` holds, the object token itself otherwise; the test
holds exactly for `_:` followed by at least one more character. -/
theorem processNQuad_reassign_entry (uid : String → Nat) (m : mapperState)
    (s p o trailing : List Char) (d1 d2 d3 : Char)
    (hd1 : d1 = ' ' ∨ d1 = '\t') (hd2 : d2 = ' ' ∨ d2 = '\t') (hd3 : d3 = ' ' ∨ d3 = '\t')
    (hs : isToken s = true) (hp : isToken p = true) (ho : isToken o = true) :
    processNQuad true uid m (String.mk (s ++ d1 :: (p ++ d2 :: (o ++ d3 :: trailing)))) =
        (match routeEntry m (String.mk p)
            (hexId (uid (String.mk s)) ++ " " ++ String.mk p ++ " " ++
              (if internsObject o then hexId (uid (String.mk o)) else String.mk o) ++ " " ++
              String.mk trailing) with
        | none => none
        | some m' => some (m', processResult.ok)) ∧
      (internsObject o = true ↔ ∃ c rest, o = '_' :: ':' :: c :: rest) :=
  ⟨processNQuad_reassign_spec uid m s p o trailing d1 d2 d3 hd1 hd2 hd3 hs hp ho,
    internsObject_iff o⟩

/-- An instance of `processNQuad_reassign_entry`: the line `_:x <p> _:y .` with
the ids 26 and 255. -/
theorem processNQuad_reassign_entry_witness :
    (processNQuad true (fun s => if s = "_:x" then 26 else 255)
          { shardMap := newShardMap 2, shards := [⟨[], 0⟩, ⟨[], 0⟩] }
          "_:x <p> _:y .\n").map (fun r => (r.1.shards, r.2)) =
        some ([⟨["<0x1a> <p> <0xff> .\n"], 20⟩, ⟨[], 0⟩], processResult.ok) ∧
      processNQuad true (fun s => if s = "_:x" then 26 else 255)
          { shardMap := newShardMap 2, shards := [⟨[], 0⟩, ⟨[], 0⟩] }
          (String.mk ("_:x".toList ++ ' ' :: ("<p>".toList ++ ' ' :: ("_:y".toList ++ ' ' ::
            ".\n".toList)))) =
        (match routeEntry { shardMap := newShardMap 2, shards := [⟨[], 0⟩, ⟨[], 0⟩] }
            (String.mk "<p>".toList)
            (hexId ((fun s => if s = "_:x" then 26 else 255) (String.mk "_:x".toList)) ++ " " ++
              String.mk "<p>".toList ++ " " ++
              (if internsObject "_:y".toList then
                hexId ((fun s => if s = "_:x" then 26 else 255) (String.mk "_:y".toList))
              else String.mk "_:y".toList) ++ " " ++ String.mk ".\n".toList) with
        | none => none
        | some m' => some (m', processResult.ok)) :=
  ⟨by decide,
    (processNQuad_reassign_entry _ _ "_:x".toList "<p>".toList "_:y".toList ".\n".toList
      ' ' ' ' ' ' (by decide) (by decide) (by decide) (by decide) (by decide) (by decide)).1⟩

/-- C15 fails on the code: in preserve-ids mode `processNQuad` splits the line at
spaces and reads `temp[1]` before any check, so the empty line, a line with only
a newline and a line without a space all end in an index-out-of-range panic; the
reassign-ids mode returns `ErrEmpty` and a parse error on the same lines and
leaves the state as it was. -/
theorem processNQuad_preserve_panics (uid : String → Nat) (m : mapperState) :
    processNQuad false uid m "" = none ∧
      processNQuad false uid m "\n" = none ∧
      processNQuad false uid m "<0x1>" = none ∧
      processNQuad true uid m "" = some (m, processResult.errEmpty) ∧
      processNQuad true uid m "\n" = some (m, processResult.errParse) := by
  refine ⟨?_, ?_, ?_, ?_, ?_⟩
  · simp [processNQuad, splitSpace]
  · simp [processNQuad, splitSpace]
  · simp [processNQuad, splitSpace]
  · have h : ("" : String).utf8ByteSize = 0 := by decide
    simp [processNQuad, h]
  · have h : ("\n" : String).utf8ByteSize ≠ 0 := by decide
    simp [processNQuad, h, scanTokens]

/-! ## Map iterator -/

/-- C13 fails on the code: `Next` returns `nil` as soon as fewer than ten bytes
are left, whatever they hold.  A stream of one record of three bytes yields no
record, and after a record of twelve bytes a final record of two bytes is
dropped. -/
theorem mapIteratorNext_drops_short_tail :
    (encodeRecords [[1, 2, 3]] = [3, 1, 2, 3] ∧
        mapIteratorNext (encodeRecords [[1, 2, 3]]) = nextResult.nil ∧
        mapIteratorAll 3 (encodeRecords [[1, 2, 3]]) = some []) ∧
      mapIteratorAll 3 (encodeRecords [[1, 2, 3, 4, 5, 6, 7, 8, 9, 10, 11, 12], [7, 7]]) =
        some [[1, 2, 3, 4, 5, 6, 7, 8, 9, 10, 11, 12]] ∧
      (∀ stream : List Nat, stream.length < 10 → mapIteratorNext stream = nextResult.nil) := by
  refine ⟨by decide, by decide, ?_⟩
  intro stream h
  simp [mapIteratorNext, maxVarintLen64, h]

/-! ## Balance of the reduce shards -/

/-- C20: for `R ≥ 1` and map-shard costs that are non-negative and whose sum fits
in `int64`, the placement loop runs to its end, leaves `R` reduce shards, and any
two of their accumulated costs (so the largest and the smallest) differ by at
most the largest map-shard cost; the accumulated costs add up to the sum of the
map-shard costs. -/
theorem placement_balanced (R : Int) (hR : 1 ≤ R) (reduceDirOf : Nat → String)
    (shardDirs : List sizedDir) (hnn : ∀ sd ∈ shardDirs, 0 ≤ sd.sz)
    (hfit : isInt64 (costSum shardDirs)) :
    ∃ trace,
      placeAll (initialReduceShards R reduceDirOf) (sortBySzDesc shardDirs) = some trace ∧
      (shardDirs ≠ [] → placementPlan R reduceDirOf shardDirs = some trace) ∧
      (finalReduceShards (initialReduceShards R reduceDirOf) trace).length = R.toNat ∧
      costSum (finalReduceShards (initialReduceShards R reduceDirOf) trace) = costSum shardDirs ∧
      ∀ a ∈ finalReduceShards (initialReduceShards R reduceDirOf) trace,
        ∀ b ∈ finalReduceShards (initialReduceShards R reduceDirOf) trace,
          a.sz - b.sz ≤ maxCost shardDirs := by
  have hlen := initialReduceShards_length R reduceDirOf
  have hne : initialReduceShards R reduceDirOf ≠ [] := by
    intro h
    rw [h] at hlen
    simp only [List.length_nil] at hlen
    omega
  obtain ⟨hbal, hzero⟩ := initialReduceShards_balanced R reduceDirOf (maxCost_nonneg shardDirs)
  have hperm := sortBySzDesc_perm shardDirs
  have hsum : costSum (sortBySzDesc shardDirs) = costSum shardDirs := costSum_perm hperm
  obtain ⟨trace, h1, h2, h3, h4⟩ :=
    placeAll_balanced (maxCost shardDirs) (sortBySzDesc shardDirs)
      (initialReduceShards R reduceDirOf) hne hbal
      (fun sd hsd => ⟨hnn sd (hperm.subset hsd), le_maxCost (hperm.subset hsd)⟩)
      (by rw [hzero, hsum]; have := hfit.2; omega)
  refine ⟨trace, h1, ?_, by rw [h2, hlen], by rw [h4, hzero, hsum]; omega, h3.2⟩
  intro hs
  have : ¬ shardDirs.length = 0 := fun h => hs (List.length_eq_zero.1 h)
  simp only [placementPlan, this, if_false, h1]

/-- Witness of C20: map shards of costs 50, 100 and 30 on two reduce shards end
with accumulated costs 100 and 80. -/
theorem placement_balanced_witness :
    (1 : Int) ≤ 2 ∧
      (∀ sd ∈ ([{ dir := "000", sz := 50 }, { dir := "001", sz := 100 },
          { dir := "002", sz := 30 }] : List sizedDir), 0 ≤ sd.sz) ∧
      isInt64 (costSum [{ dir := "000", sz := 50 }, { dir := "001", sz := 100 },
          { dir := "002", sz := 30 }]) ∧
      ((placementPlan 2 (fun i => if i = 0 then "shard_0" else "shard_1")
          [{ dir := "000", sz := 50 }, { dir := "001", sz := 100 },
            { dir := "002", sz := 30 }]).map
          (finalReduceShards
            (initialReduceShards 2 (fun i => if i = 0 then "shard_0" else "shard_1")))) =
        some [{ dir := "shard_1", sz := 100 }, { dir := "shard_0", sz := 80 }] ∧
      maxCost [{ dir := "000", sz := 50 }, { dir := "001", sz := 100 },
          { dir := "002", sz := 30 }] = 100 ∧
      ∃ trace,
        placeAll (initialReduceShards 2 (fun i => if i = 0 then "shard_0" else "shard_1"))
            (sortBySzDesc [{ dir := "000", sz := 50 }, { dir := "001", sz := 100 },
              { dir := "002", sz := 30 }]) = some trace ∧
          ∀ a ∈ finalReduceShards
              (initialReduceShards 2 (fun i => if i = 0 then "shard_0" else "shard_1")) trace,
            ∀ b ∈ finalReduceShards
                (initialReduceShards 2 (fun i => if i = 0 then "shard_0" else "shard_1")) trace,
              a.sz - b.sz ≤ maxCost [{ dir := "000", sz := 50 }, { dir := "001", sz := 100 },
                { dir := "002", sz := 30 }] :=
  ⟨by decide, by decide, ⟨by decide, by decide⟩, by decide, by decide,
    let ⟨trace, h1, _, _, _, h5⟩ :=
      placement_balanced 2 (by decide) (fun i => if i = 0 then "shard_0" else "shard_1")
        [{ dir := "000", sz := 50 }, { dir := "001", sz := 100 }, { dir := "002", sz := 30 }]
        (by decide) ⟨by decide, by decide⟩
    ⟨trace, h1, h5⟩⟩

/-! ## Chunking of the input -/

/-- C16: for every input and every size `B` of the reader's buffer, the loop of
`mapStage` ends and the chunks it sends, in order, concatenate to the input; each
chunk is non-empty and holds at most 100,000 lines; every chunk but the last ends
with `'\n'`, so no line lies across two chunks. -/
theorem mapStageChunks_lines (B : Nat) (input : List Nat) :
    ∃ chunks, mapStageChunks B (input.length + 1) input = some chunks ∧
      chunks.flatten = input ∧
      (∀ c ∈ chunks, c ≠ [] ∧ (splitLines c).length ≤ 100000) ∧
      ∀ c ∈ chunks.dropLast, c.getLast? = some 10 :=
  mapStageChunks_spec B (input.length + 1) input (Nat.lt_succ_self _)


end Shard

